import Mathlib

/-!
# The blackfriday syntax tree (`node.go`): nodes, tree surgery, containment and the walker

A shallow embedding of `node.go`.

* A `*Node` is `Option Nat`: `none` is `nil`, `some a` is the address of a node.
* The store is a `Heap`, a total map from addresses to `Node` records: every
  non-nil Go pointer can be dereferenced.
* A method that may stop in a nil dereference returns an `Outcome`, which keeps the
  store as it is at the moment of the failure.
* `Walk` is a loop: `Walk.iter` is one turn of it, and `Walk` runs a number of turns.
-/

namespace Blackfriday

/-! ## Payloads -/

/-- Modelled from the spec: `ListType` is declared outside `node.go`; it is an
integer set of "ordering flags". -/
abbrev ListType := Int

/-- Modelled from the spec: `CellAlignFlags` is declared outside `node.go`; it is an
integer holding the "column alignment (none/left/right/center)". -/
abbrev CellAlignFlags := Int

/-- A Go `[]byte`: `none` is the nil slice. -/
abbrev Bytes := Option (List Nat)

/-- A Go `*Node`: `none` is `nil`. -/
abbrev Ptr := Option Nat

structure DocumentData where
  deriving DecidableEq, Repr, Inhabited

structure BlockQuoteData where
  deriving DecidableEq, Repr, Inhabited

structure ListData where
  ListFlags : ListType
  Tight : Bool
  BulletChar : Nat
  Delimiter : Nat
  RefLink : Bytes
  IsFootnotesList : Bool
  deriving DecidableEq, Repr, Inhabited

structure ItemData where
  ListFlags : ListType
  Tight : Bool
  BulletChar : Nat
  Delimiter : Nat
  RefLink : Bytes
  IsFootnotesList : Bool
  deriving DecidableEq, Repr, Inhabited

structure ParagraphData where
  deriving DecidableEq, Repr, Inhabited

structure HeadingData where
  Level : Int
  HeadingID : String
  IsTitleblock : Bool
  deriving DecidableEq, Repr, Inhabited

structure HorizontalRuleData where
  deriving DecidableEq, Repr, Inhabited

structure EmphData where
  deriving DecidableEq, Repr, Inhabited

structure StrongData where
  deriving DecidableEq, Repr, Inhabited

structure DelData where
  deriving DecidableEq, Repr, Inhabited

structure LinkData where
  Destination : Bytes
  Title : Bytes
  NoteID : Int
  Footnote : Ptr
  deriving DecidableEq, Repr, Inhabited

structure ImageData where
  Destination : Bytes
  Title : Bytes
  deriving DecidableEq, Repr, Inhabited

structure TextData where
  deriving DecidableEq, Repr, Inhabited

structure HTMLBlockData where
  deriving DecidableEq, Repr, Inhabited

structure CodeBlockData where
  IsFenced : Bool
  Info : Bytes
  FenceChar : Nat
  FenceLength : Int
  FenceOffset : Int
  deriving DecidableEq, Repr, Inhabited

structure SoftbreakData where
  deriving DecidableEq, Repr, Inhabited

structure HardbreakData where
  deriving DecidableEq, Repr, Inhabited

structure CodeData where
  deriving DecidableEq, Repr, Inhabited

structure HTMLSpanData where
  deriving DecidableEq, Repr, Inhabited

structure TableData where
  deriving DecidableEq, Repr, Inhabited

structure TableCellData where
  IsHeader : Bool
  Align : CellAlignFlags
  deriving DecidableEq, Repr, Inhabited

structure TableHeadData where
  deriving DecidableEq, Repr, Inhabited

structure TableBodyData where
  deriving DecidableEq, Repr, Inhabited

structure TableRowData where
  deriving DecidableEq, Repr, Inhabited

/-- The dynamic value of the `NodeData` interface. The type switches of `node.go`
look for a pointer to one of the 24 payload structs; `other` stands for every other
dynamic value (the nil interface, a struct stored by value, a foreign type), which
those switches send to their default branch. -/
inductive NodeData where
  | Document (d : DocumentData)
  | BlockQuote (d : BlockQuoteData)
  | List (d : ListData)
  | Item (d : ItemData)
  | Paragraph (d : ParagraphData)
  | Heading (d : HeadingData)
  | HorizontalRule (d : HorizontalRuleData)
  | Emph (d : EmphData)
  | Strong (d : StrongData)
  | Del (d : DelData)
  | Link (d : LinkData)
  | Image (d : ImageData)
  | Text (d : TextData)
  | HTMLBlock (d : HTMLBlockData)
  | CodeBlock (d : CodeBlockData)
  | Softbreak (d : SoftbreakData)
  | Hardbreak (d : HardbreakData)
  | Code (d : CodeData)
  | HTMLSpan (d : HTMLSpanData)
  | Table (d : TableData)
  | TableCell (d : TableCellData)
  | TableHead (d : TableHeadData)
  | TableBody (d : TableBodyData)
  | TableRow (d : TableRowData)
  | other
  deriving DecidableEq, Repr, Inhabited

/-- The 24 node kinds: the tag of a payload, without its fields. -/
inductive Kind where
  | Document | BlockQuote | List | Item | Paragraph | Heading | HorizontalRule
  | Emph | Strong | Del | Link | Image | Text | HTMLBlock | CodeBlock
  | Softbreak | Hardbreak | Code | HTMLSpan
  | Table | TableCell | TableHead | TableBody | TableRow
  deriving DecidableEq, Repr, Inhabited

/-- The kind of a payload; `none` for a value that is none of the 24 payloads. -/
def NodeData.kind : NodeData → Option Kind
  | .Document _ => some .Document
  | .BlockQuote _ => some .BlockQuote
  | .List _ => some .List
  | .Item _ => some .Item
  | .Paragraph _ => some .Paragraph
  | .Heading _ => some .Heading
  | .HorizontalRule _ => some .HorizontalRule
  | .Emph _ => some .Emph
  | .Strong _ => some .Strong
  | .Del _ => some .Del
  | .Link _ => some .Link
  | .Image _ => some .Image
  | .Text _ => some .Text
  | .HTMLBlock _ => some .HTMLBlock
  | .CodeBlock _ => some .CodeBlock
  | .Softbreak _ => some .Softbreak
  | .Hardbreak _ => some .Hardbreak
  | .Code _ => some .Code
  | .HTMLSpan _ => some .HTMLSpan
  | .Table _ => some .Table
  | .TableCell _ => some .TableCell
  | .TableHead _ => some .TableHead
  | .TableBody _ => some .TableBody
  | .TableRow _ => some .TableRow
  | .other => none

/-! ## Nodes and the store -/

/-- The `Node` struct. The Go field `open` is spelled `open_`. -/
structure Node where
  Parent : Ptr := none
  FirstChild : Ptr := none
  LastChild : Ptr := none
  Prev : Ptr := none
  Next : Ptr := none
  Literal : Bytes := none
  Data : NodeData := NodeData.other
  content : Bytes := none
  open_ : Bool := false
  deriving DecidableEq, Repr, Inhabited

/-- `NewNode`: the node a call `NewNode(d)` allocates. -/
def NewNode (d : NodeData) : Node :=
  { Data := d, open_ := true }

/-- The store: the node every address holds. -/
abbrev Heap := Nat → Node

/-- `Node.isContainer`. -/
def isContainer (n : Node) : Bool :=
  match n.Data with
  | .Document _ | .BlockQuote _ | .List _ | .Item _ | .Paragraph _ => true
  | .Heading _ | .Emph _ | .Strong _ | .Del _ | .Link _ | .Image _ => true
  | .Table _ | .TableHead _ | .TableBody _ | .TableRow _ | .TableCell _ => true
  | _ => false

/-- `isListData`. -/
def isListData (d : NodeData) : Bool :=
  match d with
  | .List _ => true
  | _ => false

/-- `isItemData`. -/
def isItemData (d : NodeData) : Bool :=
  match d with
  | .Item _ => true
  | _ => false

/-- `isTableRowData`. -/
def isTableRowData (d : NodeData) : Bool :=
  match d with
  | .TableRow _ => true
  | _ => false

/-- `isTableCellData`. -/
def isTableCellData (d : NodeData) : Bool :=
  match d with
  | .TableCell _ => true
  | _ => false

/-- `Node.canContain`. -/
def canContain (n : Node) (v : NodeData) : Bool :=
  match n.Data with
  | .List _ => isItemData v
  | .Document _ | .BlockQuote _ | .Item _ => !isItemData v
  | .Table _ =>
    match v with
    | .TableHead _ | .TableBody _ => true
    | _ => false
  | .TableHead _ | .TableBody _ => isTableRowData v
  | .TableRow _ => isTableCellData v
  | _ => false

/-- The containment table of the specification (section 4.3), on kinds: the rows
are read top to bottom and every pair outside them is refused. -/
def containmentTable (P C : Kind) : Bool :=
  (P = .List && C = .Item)
  || ((P = .Document || P = .BlockQuote || P = .Item) && C != .Item)
  || (P = .Table && (C = .TableHead || C = .TableBody))
  || ((P = .TableHead || P = .TableBody) && C = .TableRow)
  || (P = .TableRow && C = .TableCell)

/-! ## Tree surgery -/

/-- The assignment `a.Parent = v`. -/
def setParent (h : Heap) (a : Nat) (v : Ptr) : Heap :=
  Function.update h a { h a with Parent := v }

/-- The assignment `a.FirstChild = v`. -/
def setFirstChild (h : Heap) (a : Nat) (v : Ptr) : Heap :=
  Function.update h a { h a with FirstChild := v }

/-- The assignment `a.LastChild = v`. -/
def setLastChild (h : Heap) (a : Nat) (v : Ptr) : Heap :=
  Function.update h a { h a with LastChild := v }

/-- The assignment `a.Prev = v`. -/
def setPrev (h : Heap) (a : Nat) (v : Ptr) : Heap :=
  Function.update h a { h a with Prev := v }

/-- The assignment `a.Next = v`. -/
def setNext (h : Heap) (a : Nat) (v : Ptr) : Heap :=
  Function.update h a { h a with Next := v }

/-- How a method call ends: it returns (`ok`) or stops in a nil dereference
(`panic`); either way with the store as it is at that moment. -/
inductive Outcome where
  | ok (h : Heap)
  | panic (h : Heap)

/-- The store a call leaves behind. -/
def Outcome.heap : Outcome → Heap
  | .ok h => h
  | .panic h => h

/-- Whether the call returned normally. -/
def Outcome.returns : Outcome → Bool
  | .ok _ => true
  | .panic _ => false

/-- The body of `Unlink` on a non-nil receiver `n`; the fields are read again after
each assignment, as the Go statements do. -/
def unlinkNode (h : Heap) (n : Nat) : Heap :=
  let h1 :=
    match (h n).Prev with
    | some p => setNext h p (h n).Next
    | none =>
      match (h n).Parent with
      | some q => setFirstChild h q (h n).Next
      | none => h
  let h2 :=
    match (h1 n).Next with
    | some x => setPrev h1 x (h1 n).Prev
    | none =>
      match (h1 n).Parent with
      | some q => setLastChild h1 q (h1 n).Prev
      | none => h1
  let h3 := setParent h2 n none
  let h4 := setNext h3 n none
  setPrev h4 n none

/-- `Node.Unlink`: a nil receiver stops at the first field read. -/
def Unlink (h : Heap) (n : Ptr) : Outcome :=
  match n with
  | none => .panic h
  | some a => .ok (unlinkNode h a)

/-- `Node.AppendChild`: `child.Unlink()`, then `child.Parent = n`, then the read of
`n.LastChild` (where a nil `n` stops) and the linking. -/
def AppendChild (h : Heap) (n child : Ptr) : Outcome :=
  match Unlink h child, child with
  | .ok h1, some c =>
    let h2 := setParent h1 c n
    match n with
    | none => .panic h2
    | some p =>
      match (h2 p).LastChild with
      | some l =>
        let h3 := setNext h2 l (some c)
        let h4 := setPrev h3 c (h3 p).LastChild
        .ok (setLastChild h4 p (some c))
      | none =>
        let h3 := setFirstChild h2 p (some c)
        .ok (setLastChild h3 p (some c))
  | r, _ => .panic r.heap

/-- `Node.InsertBefore`: `sibling.Unlink()`, then the splice in front of `n`; the
last statement dereferences `sibling.Parent`, which is `n.Parent`. -/
def InsertBefore (h : Heap) (n sibling : Ptr) : Outcome :=
  match Unlink h sibling, sibling with
  | .ok h1, some s =>
    match n with
    | none => .panic h1
    | some a =>
      let h2 := setPrev h1 s (h1 a).Prev
      let h3 :=
        match (h2 s).Prev with
        | some q => setNext h2 q (some s)
        | none => h2
      let h4 := setNext h3 s (some a)
      let h5 := setPrev h4 a (some s)
      let h6 := setParent h5 s (h5 a).Parent
      match (h6 s).Prev with
      | some _ => .ok h6
      | none =>
        match (h6 s).Parent with
        | some p => .ok (setFirstChild h6 p (some s))
        | none => .panic h6
  | r, _ => .panic r.heap

/-- One call of a tree-surgery method. -/
inductive Call where
  | unlink (n : Ptr)
  | appendChild (n child : Ptr)
  | insertBefore (n sibling : Ptr)
  deriving DecidableEq, Repr

/-- Running one call. -/
def Call.exec (h : Heap) : Call → Outcome
  | .unlink n => Unlink h n
  | .appendChild n c => AppendChild h n c
  | .insertBefore n s => InsertBefore h n s

/-- Running a sequence of calls, one after the other. A call that stops in a nil
dereference is taken to be recovered from: the next call runs on the store the
failed one left. -/
def runCalls (h : Heap) : List Call → Heap
  | [] => h
  | c :: cs => runCalls (c.exec h).heap cs

/-- A store of nodes fresh from `NewNode`: address `a` holds `NewNode (d a)`. -/
def freshHeap (d : Nat → NodeData) : Heap :=
  fun a => NewNode (d a)

/-! ## Sibling chains -/

/-- The sibling chain `l`: it starts at `first`, follows `Next` to `nil`, every
element has parent `parent`, the `Prev` of the first element is `prev` and the
`Prev` of every other element is the element before it; `last` is the final
element (or `prev` when the chain is empty). -/
def Seg (h : Heap) (parent prev : Ptr) : List Nat → Ptr → Ptr → Prop
  | [], first, last => first = none ∧ last = prev
  | x :: xs, first, last =>
    first = some x ∧ (h x).Parent = parent ∧ (h x).Prev = prev ∧
      Seg h parent (some x) xs (h x).Next last

/-- The children sequence of `p` is `l`: the chain from `p.FirstChild` along `Next`
is `l`, a consistent doubly-linked list that ends in `p.LastChild`, all of whose
elements have `Parent == p`. -/
def ChildrenOf (h : Heap) (p : Nat) (l : List Nat) : Prop :=
  Seg h (some p) none l (h p).FirstChild (h p).LastChild

/-- The linkage invariant of the specification: every node has a children
sequence. -/
def LinkageInv (h : Heap) : Prop :=
  ∀ p, ∃ l, ChildrenOf h p l

/-- A well-linked store: every node has a children sequence, which holds every
node whose `Parent` it is, and the sibling links of any two neighbours agree. -/
structure WF (h : Heap) : Prop where
  kids : ∀ p, ∃ l, ChildrenOf h p l ∧ ∀ x, (h x).Parent = some p → x ∈ l
  next_prev : ∀ x y, (h x).Next = some y →
    (h y).Prev = some x ∧ (h y).Parent = (h x).Parent
  prev_next : ∀ x y, (h x).Prev = some y →
    (h y).Next = some x ∧ (h y).Parent = (h x).Parent

/-! ## The walker -/

/-- `WalkStatus` is an `int`. -/
abbrev WalkStatus := Int

/-- `GoToNext`. -/
def GoToNext : WalkStatus := 0

/-- `SkipChildren`. -/
def SkipChildren : WalkStatus := 1

/-- `Terminate`. -/
def Terminate : WalkStatus := 2

/-- One visitor call `visitor(node, entering)`; `Walk` never passes a nil node. -/
abbrev Event := Nat × Bool

/-- A `NodeVisitor` that does not change the tree: the status it returns at a call
is a function of all the calls made to it so far, in order, that call last. -/
abbrev NodeVisitor := List Event → WalkStatus

/-- The `nodeWalker` struct. -/
structure nodeWalker where
  current : Ptr
  root : Ptr
  entering : Bool
  deriving DecidableEq, Repr

/-- `newNodeWalker`. -/
def newNodeWalker (root : Ptr) : nodeWalker :=
  { current := root, root := root, entering := true }

/-- `nodeWalker.next`; `none` is the nil dereference of `nw.current`. -/
def nodeWalker.next (h : Heap) (nw : nodeWalker) : Option nodeWalker :=
  match nw.current with
  | none => none
  | some c =>
    if (!isContainer (h c) || !nw.entering) && nw.current == nw.root then
      some { nw with current := none }
    else if nw.entering && isContainer (h c) then
      match (h c).FirstChild with
      | some f => some { nw with current := some f, entering := true }
      | none => some { nw with entering := false }
    else
      match (h c).Next with
      | none => some { nw with current := (h c).Parent, entering := false }
      | some x => some { nw with current := some x, entering := true }

/-- Where the execution of `Walk` stands. -/
inductive WalkPhase where
  | running
  | returned
  | panicked
  deriving DecidableEq, Repr

/-- The state of an execution of `Walk`: the walker `w`, the visitor calls made so
far, and whether the method is still in its loop. -/
structure WalkState where
  w : nodeWalker
  calls : List Event
  phase : WalkPhase
  deriving DecidableEq, Repr

/-- The call `w.next()` inside the loop of `Walk`. -/
def Walk.advance (h : Heap) (w : nodeWalker) (calls : List Event) : WalkState :=
  match w.next h with
  | some w1 => { w := w1, calls := calls, phase := .running }
  | none => { w := w, calls := calls, phase := .panicked }

/-- One turn of the loop of `Walk`: the test `w.current != nil`, the visitor call and
the `switch` on its status (a status that is none of the three constants matches
no case, and the loop goes round again). -/
def Walk.iter (h : Heap) (visitor : NodeVisitor) (s : WalkState) : WalkState :=
  match s.phase with
  | .running =>
    match s.w.current with
    | none => { s with phase := .returned }
    | some c =>
      let calls := s.calls ++ [(c, s.w.entering)]
      let status := visitor calls
      if status = GoToNext then Walk.advance h s.w calls
      else if status = SkipChildren then
        Walk.advance h { s.w with entering := false } calls
      else if status = Terminate then { w := s.w, calls := calls, phase := .returned }
      else { w := s.w, calls := calls, phase := .running }
  | _ => s

/-- `Node.Walk`, run for `fuel` turns of its loop. -/
def Walk (h : Heap) (n : Ptr) (visitor : NodeVisitor) (fuel : Nat) : WalkState :=
  (Walk.iter h visitor)^[fuel] { w := newNodeWalker n, calls := [], phase := .running }

/-! ## Finite trees -/

/-- A finite forest: a sequence of sibling nodes, each with the forest of its
children. `cons x kids rest` is the node at address `x`, its children, and the
siblings after it. -/
inductive Forest where
  | nil
  | cons (x : Nat) (kids : Forest) (rest : Forest)
  deriving DecidableEq, Repr

/-- The addresses of all nodes of a forest. -/
def Forest.ids : Forest → List Nat
  | .nil => []
  | .cons x k r => x :: (k.ids ++ r.ids)

/-- The children forest of node `c` inside a forest (`nil` when `c` is not in it). -/
def Forest.kidsOf (c : Nat) : Forest → Forest
  | .nil => .nil
  | .cons x k r =>
    if x = c then k else if c ∈ k.ids then k.kidsOf c else r.kidsOf c

/-- The store lays out the forest `f`: as `Seg`, and below every node its children
forest is laid out from `FirstChild` to `LastChild`. -/
def Rep (h : Heap) (parent prev : Ptr) : Forest → Ptr → Ptr → Prop
  | .nil, first, last => first = none ∧ last = prev
  | .cons x k r, first, last =>
    first = some x ∧ (h x).Parent = parent ∧ (h x).Prev = prev ∧
      Rep h (some x) none k (h x).FirstChild (h x).LastChild ∧
      Rep h parent (some x) r (h x).Next last

/-- Node `n` is the root of a finite tree whose children forest is `kids`: the store
lays the forest out below `n`. -/
def IsTree (h : Heap) (n : Nat) (kids : Forest) : Prop :=
  Rep h (some n) none kids (h n).FirstChild (h n).LastChild

/-- The number of nodes of a forest. -/
def Forest.size : Forest → Nat
  | .nil => 0
  | .cons _ k r => k.size + r.size + 1

/-- Leaf kinds have no children, in a forest. -/
def Forest.leavesBare (h : Heap) : Forest → Prop
  | .nil => True
  | .cons x k r => (isContainer (h x) = false → k = .nil) ∧ k.leavesBare h ∧ r.leavesBare h

/-- The recursive two-phase traversal of one node `x` with children forest `k`,
given the traversal `evk` of the children. -/
def recNode (h : Heap) (x : Nat) (evk : List Event) : List Event :=
  if isContainer (h x) then (x, true) :: (evk ++ [(x, false)]) else [(x, true)]

/-- The recursive two-phase traversal of a forest: the traversals of its nodes, in
sibling order. -/
def recForest (h : Heap) : Forest → List Event
  | .nil => []
  | .cons x k r => recNode h x (recForest h k) ++ recForest h r

/-- The recursive traversal of a forest under a visitor: the calls it makes after
the calls `hist`, and whether the visitor terminated the walk. -/
def travForest (h : Heap) (v : NodeVisitor) : Forest → List Event → List Event × Bool
  | .nil, _ => ([], false)
  | .cons x k r, hist =>
    if v (hist ++ [(x, true)]) = Terminate then ([(x, true)], true)
    else if v (hist ++ [(x, true)]) = GoToNext ∧ isContainer (h x) = true then
      let rk := travForest h v k (hist ++ [(x, true)])
      if rk.2 then ((x, true) :: rk.1, true)
      else if v (hist ++ (x, true) :: (rk.1 ++ [(x, false)])) = Terminate then
        ((x, true) :: (rk.1 ++ [(x, false)]), true)
      else
        let rr := travForest h v r (hist ++ (x, true) :: (rk.1 ++ [(x, false)]))
        ((x, true) :: (rk.1 ++ (x, false) :: rr.1), rr.2)
    else
      let rr := travForest h v r (hist ++ [(x, true)])
      ((x, true) :: rr.1, rr.2)

/-- The recursive traversal of the tree with root `n` and children forest `kids`
under a visitor: all the calls it makes. -/
def travTree (h : Heap) (v : NodeVisitor) (n : Nat) (kids : Forest) : List Event :=
  if v [(n, true)] = Terminate then [(n, true)]
  else if v [(n, true)] = GoToNext ∧ isContainer (h n) = true then
    let rk := travForest h v kids [(n, true)]
    if rk.2 then (n, true) :: rk.1 else (n, true) :: (rk.1 ++ [(n, false)])
  else [(n, true)]

/-- A visitor that only returns the three declared statuses. -/
def ValidVisitor (v : NodeVisitor) : Prop :=
  ∀ hist, v hist = GoToNext ∨ v hist = SkipChildren ∨ v hist = Terminate

/-- The visitor that always returns `GoToNext`. -/
def alwaysGoToNext : NodeVisitor :=
  fun _ => GoToNext

/-- The visitor that returns `SkipChildren` on the entering event of `c` and
`GoToNext` on every other call. -/
def skipAt (c : Nat) : NodeVisitor :=
  fun hist => if hist.getLast? = some (c, true) then SkipChildren else GoToNext

/-! ## Stores given by a list of nodes, and a checker of `WF` for them -/

/-- A store given by the list of its first nodes; every later address holds a node
with no links. -/
def heapOf (nodes : List Node) : Heap :=
  fun a => nodes.getD a {}

/-- The chain from `first` along `Next`, at most `fuel` elements long. -/
def chainFrom (h : Heap) : Nat → Ptr → List Nat
  | 0, _ => []
  | _ + 1, none => []
  | fuel + 1, some x => x :: chainFrom h fuel (h x).Next

instance instDecidableSeg (h : Heap) (par : Ptr) :
    (l : List Nat) → (prev f la : Ptr) → Decidable (Seg h par prev l f la)
  | [], prev, f, la => inferInstanceAs (Decidable (f = none ∧ la = prev))
  | x :: xs, prev, f, la =>
    have := instDecidableSeg h par xs (some x) (h x).Next la
    inferInstanceAs (Decidable (f = some x ∧ (h x).Parent = par ∧ (h x).Prev = prev ∧
      Seg h par (some x) xs (h x).Next la))

instance instDecidableChildrenOf (h : Heap) (p : Nat) (l : List Nat) :
    Decidable (ChildrenOf h p l) :=
  inferInstanceAs (Decidable (Seg h (some p) none l (h p).FirstChild (h p).LastChild))

/-- The links that leave node `x` are answered by the node they point to, and the
parent of `x` is among the first `len` nodes. -/
def linksAgree (h : Heap) (len x : Nat) : Bool :=
  (match (h x).Parent with
    | some p => decide (p < len)
    | none => true) &&
  (match (h x).Next with
    | some y => decide ((h y).Prev = some x ∧ (h y).Parent = (h x).Parent)
    | none => true) &&
  (match (h x).Prev with
    | some y => decide ((h y).Next = some x ∧ (h y).Parent = (h x).Parent)
    | none => true)

/-- The chain below `p` is its children sequence and holds every node below `len`
whose parent is `p`. -/
def kidsAgree (h : Heap) (len p : Nat) : Bool :=
  decide (ChildrenOf h p (chainFrom h len (h p).FirstChild)) &&
  (List.range len).all fun x =>
    decide ((h x).Parent = some p → x ∈ chainFrom h len (h p).FirstChild)

/-- A checker of `WF` for a store given by a list of nodes. -/
def wfCheck (nodes : List Node) : Bool :=
  (List.range nodes.length).all fun x =>
    linksAgree (heapOf nodes) nodes.length x && kidsAgree (heapOf nodes) nodes.length x

/-! ## Example stores -/

/-- The tree Document(0) > Paragraph(1) > Text(2). -/
def docHeap : Heap :=
  heapOf [
    { Data := .Document {}, FirstChild := some 1, LastChild := some 1 },
    { Data := .Paragraph {}, Parent := some 0, FirstChild := some 2, LastChild := some 2 },
    { Data := .Text {}, Parent := some 1 } ]

/-- An item that is a footnote item: its `RefLink` is not nil. -/
def footnoteItem : ItemData :=
  { ListFlags := 0, Tight := false, BulletChar := 0, Delimiter := 0,
    RefLink := some [49], IsFootnotesList := false }

/-- The payload of a bullet list. -/
def bulletList : ListData :=
  { ListFlags := 0, Tight := true, BulletChar := 42, Delimiter := 0,
    RefLink := none, IsFootnotesList := false }

/-- The list `l` with `s` put immediately before `a` (unchanged when `a` is not in
it). -/
def spliceBefore (a s : Nat) : List Nat → List Nat
  | [] => []
  | x :: xs => if x = a then s :: x :: xs else x :: spliceBefore a s xs

/-- Three children: the Document 0 with the Paragraphs 1, 2, 3 as its children. -/
def threeKids : Heap :=
  heapOf [
    { Data := .Document {}, FirstChild := some 1, LastChild := some 3 },
    { Data := .Paragraph {}, Parent := some 0, Next := some 2 },
    { Data := .Paragraph {}, Parent := some 0, Prev := some 1, Next := some 3 },
    { Data := .Paragraph {}, Parent := some 0, Prev := some 2 } ]

/-! ## Auxiliary definitions for the walker -/

/-- The visitor that returns `Terminate` on the entering event of `c` and
`GoToNext` on every other call. -/
def terminateAt (c : Nat) : NodeVisitor :=
  fun hist => if hist.getLast? = some (c, true) then Terminate else GoToNext

/-- Where the walker stands when it is about to traverse the forest `f` of the
children of `p` (or of the siblings that remain below `p`): at the first node of
`f`, entering; or, when `f` is empty, back at `p`, exiting. -/
def entry (f : Forest) (p : Nat) (rt : Ptr) : nodeWalker :=
  match f with
  | .nil => { current := some p, root := rt, entering := false }
  | .cons x _ _ => { current := some x, root := rt, entering := true }

instance instDecidableRep (h : Heap) :
    (f : Forest) → (par prev first la : Ptr) → Decidable (Rep h par prev f first la)
  | .nil, _, prev, first, la => inferInstanceAs (Decidable (first = none ∧ la = prev))
  | .cons x k r, par, prev, first, la =>
    have := instDecidableRep h k (some x) none (h x).FirstChild (h x).LastChild
    have := instDecidableRep h r par (some x) (h x).Next la
    inferInstanceAs (Decidable (first = some x ∧ (h x).Parent = par ∧ (h x).Prev = prev ∧
      Rep h (some x) none k (h x).FirstChild (h x).LastChild ∧
      Rep h par (some x) r (h x).Next la))

instance instDecidableIsTree (h : Heap) (n : Nat) (kids : Forest) : Decidable (IsTree h n kids) :=
  inferInstanceAs (Decidable (Rep h (some n) none kids (h n).FirstChild (h n).LastChild))

/-- The forest below the Document of `docHeap`: the Paragraph 1 with the Text 2. -/
def docKids : Forest :=
  .cons 1 (.cons 2 .nil .nil) .nil

instance instDecidableLeavesBare (h : Heap) : (f : Forest) → Decidable (f.leavesBare h)
  | .nil => inferInstanceAs (Decidable True)
  | .cons x k r =>
    have := instDecidableLeavesBare h k
    have := instDecidableLeavesBare h r
    inferInstanceAs (Decidable ((isContainer (h x) = false → k = .nil) ∧
      k.leavesBare h ∧ r.leavesBare h))

/-! ## Kinds by name, further example stores and the call bound -/

/-- The container kinds, as the specification lists them. -/
def containerKinds : List Kind :=
  [.Document, .BlockQuote, .List, .Item, .Paragraph, .Heading, .Emph, .Strong, .Del,
    .Link, .Image, .Table, .TableHead, .TableBody, .TableRow, .TableCell]

/-- The leaf kinds: the 8 kinds that are not container kinds. -/
def leafKinds : List Kind :=
  [.HorizontalRule, .Text, .HTMLBlock, .CodeBlock, .Softbreak, .Hardbreak, .Code, .HTMLSpan]

/-- The container kinds that can contain nothing. -/
def barrenKinds : List Kind :=
  [.Paragraph, .Heading, .Emph, .Strong, .Del, .Link, .Image, .TableCell]

/-- The payload of a level-2 heading with an identifier. -/
def introHeading : HeadingData :=
  { Level := 2, HeadingID := "intro", IsTitleblock := false }

/-- A Heading node that is linked into a tree. -/
def headingNode : Node :=
  { Parent := some 3, FirstChild := some 4, LastChild := some 4, Prev := some 2,
    Data := NodeData.Heading introHeading }

/-- A store of fresh Paragraph nodes. -/
def freshParagraphs : Heap :=
  freshHeap (fun _ => .Paragraph {})

/-- Two nodes without parent that are linked as siblings: node 1 has the previous
sibling 0. -/
def looseChain : Heap :=
  heapOf [
    { Data := .Paragraph {}, Next := some 1 },
    { Data := .Paragraph {}, Prev := some 0 } ]

/-- Two parents: the Document 0 has the children 1 and 2, and 1 (a BlockQuote) has
the child 3. -/
def twoParents : Heap :=
  heapOf [
    { Data := .Document {}, FirstChild := some 1, LastChild := some 2 },
    { Data := .BlockQuote {}, Parent := some 0, Next := some 2, FirstChild := some 3,
      LastChild := some 3 },
    { Data := .Paragraph {}, Parent := some 0, Prev := some 1 },
    { Data := .Paragraph {}, Parent := some 1 } ]

/-- The bound `2 * C + L` on the visitor calls for the nodes `l`: two for every
container, one for every other node. -/
def callBound (h : Heap) (l : List Nat) : Nat :=
  2 * l.countP (fun x => isContainer (h x)) + l.countP (fun x => !isContainer (h x))

/-! # Theorems -/

/-! ## Reading a field after an assignment -/

@[simp] theorem setParent_Parent (h : Heap) (a : Nat) (v : Ptr) (x : Nat) :
    (setParent h a v x).Parent = if x = a then v else (h x).Parent := by
  unfold setParent; by_cases e : x = a <;> simp [Function.update, e]

@[simp] theorem setParent_FirstChild (h : Heap) (a : Nat) (v : Ptr) (x : Nat) :
    (setParent h a v x).FirstChild = (h x).FirstChild := by
  unfold setParent; by_cases e : x = a <;> simp [Function.update, e]

@[simp] theorem setParent_LastChild (h : Heap) (a : Nat) (v : Ptr) (x : Nat) :
    (setParent h a v x).LastChild = (h x).LastChild := by
  unfold setParent; by_cases e : x = a <;> simp [Function.update, e]

@[simp] theorem setParent_Prev (h : Heap) (a : Nat) (v : Ptr) (x : Nat) :
    (setParent h a v x).Prev = (h x).Prev := by
  unfold setParent; by_cases e : x = a <;> simp [Function.update, e]

@[simp] theorem setParent_Next (h : Heap) (a : Nat) (v : Ptr) (x : Nat) :
    (setParent h a v x).Next = (h x).Next := by
  unfold setParent; by_cases e : x = a <;> simp [Function.update, e]

@[simp] theorem setParent_Literal (h : Heap) (a : Nat) (v : Ptr) (x : Nat) :
    (setParent h a v x).Literal = (h x).Literal := by
  unfold setParent; by_cases e : x = a <;> simp [Function.update, e]

@[simp] theorem setParent_Data (h : Heap) (a : Nat) (v : Ptr) (x : Nat) :
    (setParent h a v x).Data = (h x).Data := by
  unfold setParent; by_cases e : x = a <;> simp [Function.update, e]

@[simp] theorem setParent_content (h : Heap) (a : Nat) (v : Ptr) (x : Nat) :
    (setParent h a v x).content = (h x).content := by
  unfold setParent; by_cases e : x = a <;> simp [Function.update, e]

@[simp] theorem setParent_open_ (h : Heap) (a : Nat) (v : Ptr) (x : Nat) :
    (setParent h a v x).open_ = (h x).open_ := by
  unfold setParent; by_cases e : x = a <;> simp [Function.update, e]

@[simp] theorem isContainer_setParent (h : Heap) (a : Nat) (v : Ptr) (x : Nat) :
    isContainer (setParent h a v x) = isContainer (h x) := by
  simp [isContainer]

@[simp] theorem setFirstChild_Parent (h : Heap) (a : Nat) (v : Ptr) (x : Nat) :
    (setFirstChild h a v x).Parent = (h x).Parent := by
  unfold setFirstChild; by_cases e : x = a <;> simp [Function.update, e]

@[simp] theorem setFirstChild_FirstChild (h : Heap) (a : Nat) (v : Ptr) (x : Nat) :
    (setFirstChild h a v x).FirstChild = if x = a then v else (h x).FirstChild := by
  unfold setFirstChild; by_cases e : x = a <;> simp [Function.update, e]

@[simp] theorem setFirstChild_LastChild (h : Heap) (a : Nat) (v : Ptr) (x : Nat) :
    (setFirstChild h a v x).LastChild = (h x).LastChild := by
  unfold setFirstChild; by_cases e : x = a <;> simp [Function.update, e]

@[simp] theorem setFirstChild_Prev (h : Heap) (a : Nat) (v : Ptr) (x : Nat) :
    (setFirstChild h a v x).Prev = (h x).Prev := by
  unfold setFirstChild; by_cases e : x = a <;> simp [Function.update, e]

@[simp] theorem setFirstChild_Next (h : Heap) (a : Nat) (v : Ptr) (x : Nat) :
    (setFirstChild h a v x).Next = (h x).Next := by
  unfold setFirstChild; by_cases e : x = a <;> simp [Function.update, e]

@[simp] theorem setFirstChild_Literal (h : Heap) (a : Nat) (v : Ptr) (x : Nat) :
    (setFirstChild h a v x).Literal = (h x).Literal := by
  unfold setFirstChild; by_cases e : x = a <;> simp [Function.update, e]

@[simp] theorem setFirstChild_Data (h : Heap) (a : Nat) (v : Ptr) (x : Nat) :
    (setFirstChild h a v x).Data = (h x).Data := by
  unfold setFirstChild; by_cases e : x = a <;> simp [Function.update, e]

@[simp] theorem setFirstChild_content (h : Heap) (a : Nat) (v : Ptr) (x : Nat) :
    (setFirstChild h a v x).content = (h x).content := by
  unfold setFirstChild; by_cases e : x = a <;> simp [Function.update, e]

@[simp] theorem setFirstChild_open_ (h : Heap) (a : Nat) (v : Ptr) (x : Nat) :
    (setFirstChild h a v x).open_ = (h x).open_ := by
  unfold setFirstChild; by_cases e : x = a <;> simp [Function.update, e]

@[simp] theorem isContainer_setFirstChild (h : Heap) (a : Nat) (v : Ptr) (x : Nat) :
    isContainer (setFirstChild h a v x) = isContainer (h x) := by
  simp [isContainer]

@[simp] theorem setLastChild_Parent (h : Heap) (a : Nat) (v : Ptr) (x : Nat) :
    (setLastChild h a v x).Parent = (h x).Parent := by
  unfold setLastChild; by_cases e : x = a <;> simp [Function.update, e]

@[simp] theorem setLastChild_FirstChild (h : Heap) (a : Nat) (v : Ptr) (x : Nat) :
    (setLastChild h a v x).FirstChild = (h x).FirstChild := by
  unfold setLastChild; by_cases e : x = a <;> simp [Function.update, e]

@[simp] theorem setLastChild_LastChild (h : Heap) (a : Nat) (v : Ptr) (x : Nat) :
    (setLastChild h a v x).LastChild = if x = a then v else (h x).LastChild := by
  unfold setLastChild; by_cases e : x = a <;> simp [Function.update, e]

@[simp] theorem setLastChild_Prev (h : Heap) (a : Nat) (v : Ptr) (x : Nat) :
    (setLastChild h a v x).Prev = (h x).Prev := by
  unfold setLastChild; by_cases e : x = a <;> simp [Function.update, e]

@[simp] theorem setLastChild_Next (h : Heap) (a : Nat) (v : Ptr) (x : Nat) :
    (setLastChild h a v x).Next = (h x).Next := by
  unfold setLastChild; by_cases e : x = a <;> simp [Function.update, e]

@[simp] theorem setLastChild_Literal (h : Heap) (a : Nat) (v : Ptr) (x : Nat) :
    (setLastChild h a v x).Literal = (h x).Literal := by
  unfold setLastChild; by_cases e : x = a <;> simp [Function.update, e]

@[simp] theorem setLastChild_Data (h : Heap) (a : Nat) (v : Ptr) (x : Nat) :
    (setLastChild h a v x).Data = (h x).Data := by
  unfold setLastChild; by_cases e : x = a <;> simp [Function.update, e]

@[simp] theorem setLastChild_content (h : Heap) (a : Nat) (v : Ptr) (x : Nat) :
    (setLastChild h a v x).content = (h x).content := by
  unfold setLastChild; by_cases e : x = a <;> simp [Function.update, e]

@[simp] theorem setLastChild_open_ (h : Heap) (a : Nat) (v : Ptr) (x : Nat) :
    (setLastChild h a v x).open_ = (h x).open_ := by
  unfold setLastChild; by_cases e : x = a <;> simp [Function.update, e]

@[simp] theorem isContainer_setLastChild (h : Heap) (a : Nat) (v : Ptr) (x : Nat) :
    isContainer (setLastChild h a v x) = isContainer (h x) := by
  simp [isContainer]

@[simp] theorem setPrev_Parent (h : Heap) (a : Nat) (v : Ptr) (x : Nat) :
    (setPrev h a v x).Parent = (h x).Parent := by
  unfold setPrev; by_cases e : x = a <;> simp [Function.update, e]

@[simp] theorem setPrev_FirstChild (h : Heap) (a : Nat) (v : Ptr) (x : Nat) :
    (setPrev h a v x).FirstChild = (h x).FirstChild := by
  unfold setPrev; by_cases e : x = a <;> simp [Function.update, e]

@[simp] theorem setPrev_LastChild (h : Heap) (a : Nat) (v : Ptr) (x : Nat) :
    (setPrev h a v x).LastChild = (h x).LastChild := by
  unfold setPrev; by_cases e : x = a <;> simp [Function.update, e]

@[simp] theorem setPrev_Prev (h : Heap) (a : Nat) (v : Ptr) (x : Nat) :
    (setPrev h a v x).Prev = if x = a then v else (h x).Prev := by
  unfold setPrev; by_cases e : x = a <;> simp [Function.update, e]

@[simp] theorem setPrev_Next (h : Heap) (a : Nat) (v : Ptr) (x : Nat) :
    (setPrev h a v x).Next = (h x).Next := by
  unfold setPrev; by_cases e : x = a <;> simp [Function.update, e]

@[simp] theorem setPrev_Literal (h : Heap) (a : Nat) (v : Ptr) (x : Nat) :
    (setPrev h a v x).Literal = (h x).Literal := by
  unfold setPrev; by_cases e : x = a <;> simp [Function.update, e]

@[simp] theorem setPrev_Data (h : Heap) (a : Nat) (v : Ptr) (x : Nat) :
    (setPrev h a v x).Data = (h x).Data := by
  unfold setPrev; by_cases e : x = a <;> simp [Function.update, e]

@[simp] theorem setPrev_content (h : Heap) (a : Nat) (v : Ptr) (x : Nat) :
    (setPrev h a v x).content = (h x).content := by
  unfold setPrev; by_cases e : x = a <;> simp [Function.update, e]

@[simp] theorem setPrev_open_ (h : Heap) (a : Nat) (v : Ptr) (x : Nat) :
    (setPrev h a v x).open_ = (h x).open_ := by
  unfold setPrev; by_cases e : x = a <;> simp [Function.update, e]

@[simp] theorem isContainer_setPrev (h : Heap) (a : Nat) (v : Ptr) (x : Nat) :
    isContainer (setPrev h a v x) = isContainer (h x) := by
  simp [isContainer]

@[simp] theorem setNext_Parent (h : Heap) (a : Nat) (v : Ptr) (x : Nat) :
    (setNext h a v x).Parent = (h x).Parent := by
  unfold setNext; by_cases e : x = a <;> simp [Function.update, e]

@[simp] theorem setNext_FirstChild (h : Heap) (a : Nat) (v : Ptr) (x : Nat) :
    (setNext h a v x).FirstChild = (h x).FirstChild := by
  unfold setNext; by_cases e : x = a <;> simp [Function.update, e]

@[simp] theorem setNext_LastChild (h : Heap) (a : Nat) (v : Ptr) (x : Nat) :
    (setNext h a v x).LastChild = (h x).LastChild := by
  unfold setNext; by_cases e : x = a <;> simp [Function.update, e]

@[simp] theorem setNext_Prev (h : Heap) (a : Nat) (v : Ptr) (x : Nat) :
    (setNext h a v x).Prev = (h x).Prev := by
  unfold setNext; by_cases e : x = a <;> simp [Function.update, e]

@[simp] theorem setNext_Next (h : Heap) (a : Nat) (v : Ptr) (x : Nat) :
    (setNext h a v x).Next = if x = a then v else (h x).Next := by
  unfold setNext; by_cases e : x = a <;> simp [Function.update, e]

@[simp] theorem setNext_Literal (h : Heap) (a : Nat) (v : Ptr) (x : Nat) :
    (setNext h a v x).Literal = (h x).Literal := by
  unfold setNext; by_cases e : x = a <;> simp [Function.update, e]

@[simp] theorem setNext_Data (h : Heap) (a : Nat) (v : Ptr) (x : Nat) :
    (setNext h a v x).Data = (h x).Data := by
  unfold setNext; by_cases e : x = a <;> simp [Function.update, e]

@[simp] theorem setNext_content (h : Heap) (a : Nat) (v : Ptr) (x : Nat) :
    (setNext h a v x).content = (h x).content := by
  unfold setNext; by_cases e : x = a <;> simp [Function.update, e]

@[simp] theorem setNext_open_ (h : Heap) (a : Nat) (v : Ptr) (x : Nat) :
    (setNext h a v x).open_ = (h x).open_ := by
  unfold setNext; by_cases e : x = a <;> simp [Function.update, e]

@[simp] theorem isContainer_setNext (h : Heap) (a : Nat) (v : Ptr) (x : Nat) :
    isContainer (setNext h a v x) = isContainer (h x) := by
  simp [isContainer]

theorem heapOf_ge (nodes : List Node) (a : Nat) (ha : nodes.length ≤ a) :
    heapOf nodes a = {} := by
  simp [heapOf, List.getD, List.getElem?_eq_none ha]

/-- The checker is sound: a list of nodes it accepts is a well-linked store. -/
theorem wfCheck_sound (nodes : List Node) (hc : wfCheck nodes = true) : WF (heapOf nodes) := by
  simp only [wfCheck, List.all_eq_true, List.mem_range, Bool.and_eq_true] at hc
  have hpar : ∀ x p, (heapOf nodes x).Parent = some p → p < nodes.length := by
    intro x p hx
    by_cases hlt : x < nodes.length
    · have := (hc x hlt).1
      simp only [linksAgree, Bool.and_eq_true] at this
      have h1 := this.1.1
      rw [hx] at h1
      simpa using h1
    · rw [heapOf_ge nodes x (by omega)] at hx
      simp at hx
  refine ⟨?_, ?_, ?_⟩
  · intro p
    by_cases hlt : p < nodes.length
    · have := (hc p hlt).2
      simp only [kidsAgree, Bool.and_eq_true, decide_eq_true_eq, List.all_eq_true,
        List.mem_range] at this
      refine ⟨_, this.1, ?_⟩
      intro x hx
      by_cases hxl : x < nodes.length
      · exact this.2 x hxl hx
      · rw [heapOf_ge nodes x (by omega)] at hx
        simp at hx
    · refine ⟨[], ?_, ?_⟩
      · simp [ChildrenOf, Seg, heapOf_ge nodes p (by omega)]
      · intro x hx
        exact absurd (hpar x p hx) hlt
  · intro x y hx
    by_cases hlt : x < nodes.length
    · have := (hc x hlt).1
      simp only [linksAgree, Bool.and_eq_true] at this
      have h1 := this.1.2
      rw [hx] at h1
      simpa using h1
    · rw [heapOf_ge nodes x (by omega)] at hx
      simp at hx
  · intro x y hx
    by_cases hlt : x < nodes.length
    · have := (hc x hlt).1
      simp only [linksAgree, Bool.and_eq_true] at this
      have h1 := this.2
      rw [hx] at h1
      simpa using h1
    · rw [heapOf_ge nodes x (by omega)] at hx
      simp at hx

/-! ## What `Unlink` leaves in every field -/

theorem unlinkNode_Parent (h : Heap) (n x : Nat) :
    (unlinkNode h n x).Parent = if x = n then none else (h x).Parent := by
  simp only [unlinkNode]
  cases hprev : (h n).Prev <;> cases hpar : (h n).Parent <;> cases hnext : (h n).Next <;>
    simp [hprev, hpar, hnext]

theorem unlinkNode_Next (h : Heap) (n x : Nat) :
    (unlinkNode h n x).Next =
      if x = n then none else if (h n).Prev = some x then (h n).Next else (h x).Next := by
  simp only [unlinkNode]
  cases hprev : (h n).Prev <;> cases hpar : (h n).Parent <;> cases hnext : (h n).Next <;>
    simp [hprev, hpar, hnext] <;> (try split_ifs) <;> (try subst_vars) <;>
    first | rfl | simp_all

theorem unlinkNode_Prev (h : Heap) (n x : Nat) :
    (unlinkNode h n x).Prev =
      if x = n then none else if (h n).Next = some x then (h n).Prev else (h x).Prev := by
  simp only [unlinkNode]
  cases hprev : (h n).Prev <;> cases hpar : (h n).Parent <;> cases hnext : (h n).Next <;>
    simp [hprev, hpar, hnext] <;> (try split_ifs) <;> (try subst_vars) <;>
    first | rfl | simp_all

theorem unlinkNode_FirstChild (h : Heap) (n x : Nat) :
    (unlinkNode h n x).FirstChild =
      if (h n).Prev = none ∧ (h n).Parent = some x then (h n).Next else (h x).FirstChild := by
  simp only [unlinkNode]
  cases hprev : (h n).Prev <;> cases hpar : (h n).Parent <;> cases hnext : (h n).Next <;>
    simp [hprev, hpar, hnext] <;> (try split_ifs) <;> (try subst_vars) <;>
    first | rfl | simp_all

theorem unlinkNode_LastChild (h : Heap) (n x : Nat) :
    (unlinkNode h n x).LastChild =
      if (h n).Next = none ∧ (h n).Parent = some x then (h n).Prev else (h x).LastChild := by
  simp only [unlinkNode]
  cases hprev : (h n).Prev <;> cases hpar : (h n).Parent <;> cases hnext : (h n).Next <;>
    simp [hprev, hpar, hnext] <;> (try split_ifs) <;> (try subst_vars) <;>
    first | rfl | simp_all

theorem unlinkNode_rest (h : Heap) (n x : Nat) :
    (unlinkNode h n x).Data = (h x).Data ∧ (unlinkNode h n x).Literal = (h x).Literal ∧
    (unlinkNode h n x).content = (h x).content ∧ (unlinkNode h n x).open_ = (h x).open_ := by
  simp only [unlinkNode]
  cases hprev : (h n).Prev <;> cases hpar : (h n).Parent <;> cases hnext : (h n).Next <;>
    simp [hprev, hpar, hnext]

theorem docHeap_WF : WF docHeap :=
  wfCheck_sound _ (by decide)

/-! ## The containment policy -/

/-- C7: for every pair of the 24 node kinds, `canContain` on a node of kind `P` with
child data of kind `C` is the entry of the containment table of the specification
for `(P, C)`; the result is a function of the two kinds alone, whatever the payload
fields hold. -/
theorem C7_canContain_table (n : Node) (v : NodeData) (P C : Kind)
    (hP : n.Data.kind = some P) (hC : v.kind = some C) :
    canContain n v = containmentTable P C := by
  unfold canContain
  cases hn : n.Data <;> rw [hn] at hP <;> cases v <;>
    simp only [NodeData.kind, Option.some.injEq, reduceCtorEq] at hP hC <;>
    subst hP <;> subst hC <;> rfl

/-- C7, at a List node and the payload of a footnote item. -/
theorem C7_canContain_table_witness :
    canContain (NewNode (.List bulletList)) (.Item footnoteItem)
      = containmentTable .List .Item :=
  C7_canContain_table (NewNode (.List bulletList)) (.Item footnoteItem) .List .Item rfl rfl

/-- C8, refuted as stated: `canContain` on an Item node (here a footnote item) with
the payload of a List does not return false. -/
theorem C8_item_list_counterexample :
    canContain (NewNode (.Item footnoteItem)) (.List bulletList) ≠ false := by
  decide

/-- C8, amended: an Item can contain a List; for every Item node, whatever its
`ItemData`, and every `ListData`, `canContain` returns true. -/
theorem C8_item_canContain_list (n : Node) (d : ItemData) (l : ListData)
    (hn : n.Data = .Item d) : canContain n (.List l) = true := by
  simp [canContain, hn, isItemData]

/-- C8 amended, at a footnote item and a bullet list. -/
theorem C8_item_canContain_list_witness :
    canContain (NewNode (.Item footnoteItem)) (.List bulletList) = true :=
  C8_item_canContain_list (NewNode (.Item footnoteItem)) footnoteItem bulletList rfl

/-! ## `Unlink` and the links of the detached node -/

/-- C9, refuted as stated: in the well-linked tree Document > Paragraph > Text,
after `Unlink` of the Paragraph its `FirstChild` and `LastChild` are not nil. -/
theorem C9_unlink_keeps_children_counterexample :
    WF docHeap ∧
    ((Unlink docHeap (some 1)).heap 1).FirstChild ≠ none ∧
    ((Unlink docHeap (some 1)).heap 1).LastChild ≠ none :=
  ⟨wfCheck_sound _ (by decide), by decide, by decide⟩

/-- C9, amended: for every node `n`, `n.Unlink()` returns and leaves `n.Parent`,
`n.Prev` and `n.Next` nil; `n.FirstChild` and `n.LastChild` are not cleared: for a
node that is not its own parent they keep the value they had, so a node with
children keeps them. -/
theorem C9_unlink_own_links (h : Heap) (n : Nat) :
    (Unlink h (some n)).returns = true ∧
    ((Unlink h (some n)).heap n).Parent = none ∧
    ((Unlink h (some n)).heap n).Prev = none ∧
    ((Unlink h (some n)).heap n).Next = none ∧
    ((h n).Parent ≠ some n →
      ((Unlink h (some n)).heap n).FirstChild = (h n).FirstChild ∧
      ((Unlink h (some n)).heap n).LastChild = (h n).LastChild) := by
  refine ⟨rfl, ?_, ?_, ?_, ?_⟩
  · simp [Unlink, Outcome.heap, unlinkNode_Parent]
  · simp [Unlink, Outcome.heap, unlinkNode_Prev]
  · simp [Unlink, Outcome.heap, unlinkNode_Next]
  · intro hp
    simp only [Unlink, Outcome.heap, unlinkNode_FirstChild, unlinkNode_LastChild]
    constructor
    · rw [if_neg]
      exact fun e => hp e.2
    · rw [if_neg]
      exact fun e => hp e.2

/-- C9 amended, at the Paragraph of Document > Paragraph > Text. -/
theorem C9_unlink_own_links_witness :
    (docHeap 1).Parent ≠ some 1 ∧
    ((Unlink docHeap (some 1)).heap 1).Parent = none ∧
    ((Unlink docHeap (some 1)).heap 1).FirstChild = some 2 :=
  ⟨by decide, (C9_unlink_own_links docHeap 1).2.1,
    ((C9_unlink_own_links docHeap 1).2.2.2.2 (by decide)).1⟩

/-! ## Sibling chains: the elements, their order and the last one -/

theorem Seg.parent_of_mem {h : Heap} {par : Ptr} {l : List Nat} :
    ∀ {prev f la : Ptr}, Seg h par prev l f la → ∀ x ∈ l, (h x).Parent = par := by
  induction l with
  | nil => intro _ _ _ _ x hx; simp at hx
  | cons y ys ih =>
    intro prev f la hs x hx
    obtain ⟨_, hp, _, hrest⟩ := hs
    rcases List.mem_cons.1 hx with rfl | hx
    · exact hp
    · exact ih hrest x hx

theorem Seg.prev_cases {h : Heap} {par : Ptr} {l : List Nat} :
    ∀ {prev f la : Ptr}, Seg h par prev l f la →
      ∀ y ∈ l, (h y).Prev = prev ∨ ∃ z ∈ l, (h y).Prev = some z := by
  induction l with
  | nil => intro _ _ _ _ y hy; simp at hy
  | cons x xs ih =>
    intro prev f la hs y hy
    obtain ⟨_, _, hv, hrest⟩ := hs
    rcases List.mem_cons.1 hy with rfl | hy
    · exact Or.inl hv
    · rcases ih hrest y hy with e | ⟨z, hz, e⟩
      · exact Or.inr ⟨x, List.mem_cons_self _ _, e⟩
      · exact Or.inr ⟨z, List.mem_cons_of_mem _ hz, e⟩

theorem Seg.nodup {h : Heap} {par : Ptr} {l : List Nat} :
    ∀ {prev f la : Ptr}, Seg h par prev l f la → (∀ a, prev = some a → a ∉ l) → l.Nodup := by
  induction l with
  | nil => intro _ _ _ _ _; exact List.nodup_nil
  | cons x xs ih =>
    intro prev f la hs hprev
    obtain ⟨_, _, hv, hrest⟩ := hs
    have hx : x ∉ xs := by
      intro hx
      rcases Seg.prev_cases hrest x hx with e | ⟨z, hz, e⟩
      · exact hprev x (hv.symm.trans e) (List.mem_cons_self _ _)
      · exact hprev z (hv.symm.trans e) (List.mem_cons_of_mem _ hz)
    refine List.nodup_cons.2 ⟨hx, ih hrest ?_⟩
    intro a ha
    cases ha
    exact hx

theorem Seg.last_cases {h : Heap} {par : Ptr} {l : List Nat} :
    ∀ {prev f la : Ptr}, Seg h par prev l f la → la = prev ∨ ∃ z ∈ l, la = some z := by
  induction l with
  | nil => intro _ _ _ hs; exact Or.inl hs.2
  | cons x xs ih =>
    intro prev f la hs
    obtain ⟨_, _, _, hrest⟩ := hs
    rcases ih hrest with e | ⟨z, hz, e⟩
    · exact Or.inr ⟨x, List.mem_cons_self _ _, e⟩
    · exact Or.inr ⟨z, List.mem_cons_of_mem _ hz, e⟩

/-- A chain only reads the `Parent`, `Prev` and `Next` of its own elements. -/
theorem Seg.frame {h g : Heap} {par : Ptr} {l : List Nat} :
    ∀ {prev f la : Ptr}, Seg h par prev l f la →
      (∀ x ∈ l, (g x).Parent = (h x).Parent ∧ (g x).Prev = (h x).Prev ∧
        (g x).Next = (h x).Next) → Seg g par prev l f la := by
  induction l with
  | nil => intro _ _ _ hs _; exact hs
  | cons x xs ih =>
    intro prev f la hs hg
    obtain ⟨hf, hp, hv, hrest⟩ := hs
    obtain ⟨gp, gv, gn⟩ := hg x (List.mem_cons_self _ _)
    refine ⟨hf, gp.trans hp, gv.trans hv, ?_⟩
    rw [gn]
    exact ih hrest (fun y hy => hg y (List.mem_cons_of_mem _ hy))

/-- The chain that starts at a given node is unique. -/
theorem Seg.unique {h : Heap} {par : Ptr} {l : List Nat} :
    ∀ {prev f la : Ptr} {par2 prev2 la2 : Ptr} {l2 : List Nat},
      Seg h par prev l f la → Seg h par2 prev2 l2 f la2 → l = l2 := by
  induction l with
  | nil =>
    intro prev f la par2 prev2 la2 l2 hs hs2
    cases l2 with
    | nil => rfl
    | cons y ys =>
      have := hs.1
      have := hs2.1
      simp_all
  | cons x xs ih =>
    intro prev f la par2 prev2 la2 l2 hs hs2
    cases l2 with
    | nil =>
      have := hs.1
      have := hs2.1
      simp_all
    | cons y ys =>
      have e : x = y := by
        have h1 := hs.1
        have h2 := hs2.1
        rw [h1] at h2
        exact Option.some.inj h2
      subst e
      rw [ih hs.2.2.2 hs2.2.2.2]

/-- The first node of a chain whose head has no `Prev`: a member without `Prev`
is the head. -/
theorem Seg.head_of_prev_none {h : Heap} {par : Ptr} {l : List Nat} {f la : Ptr} {x : Nat}
    (hs : Seg h par none l f la) (hx : x ∈ l) (hv : (h x).Prev = none) : f = some x := by
  cases l with
  | nil => simp at hx
  | cons y ys =>
    obtain ⟨hf, _, _, hrest⟩ := hs
    rcases List.mem_cons.1 hx with rfl | hx
    · exact hf
    · rcases Seg.prev_cases hrest x hx with e | ⟨z, _, e⟩ <;> rw [hv] at e <;> cases e

theorem Seg.next_cases {h : Heap} {par : Ptr} {l : List Nat} :
    ∀ {prev f la : Ptr}, Seg h par prev l f la →
      ∀ y ∈ l, (h y).Next = none ∨ ∃ z ∈ l, (h y).Next = some z := by
  induction l with
  | nil => intro _ _ _ _ y hy; simp at hy
  | cons x xs ih =>
    intro prev f la hs y hy
    obtain ⟨_, _, _, hrest⟩ := hs
    rcases List.mem_cons.1 hy with rfl | hy
    · cases xs with
      | nil => exact Or.inl hrest.1
      | cons z zs => exact Or.inr ⟨z, by simp, hrest.1⟩
    · rcases ih hrest y hy with e | ⟨z, hz, e⟩
      · exact Or.inl e
      · exact Or.inr ⟨z, List.mem_cons_of_mem _ hz, e⟩

theorem Seg.last_spec {h : Heap} {par : Ptr} {l : List Nat} :
    ∀ {prev f la : Ptr}, Seg h par prev l f la → l ≠ [] →
      ∃ z ∈ l, la = some z ∧ (h z).Next = none := by
  induction l with
  | nil => intro _ _ _ _ hne; exact absurd rfl hne
  | cons x xs ih =>
    intro prev f la hs _
    obtain ⟨_, _, _, hrest⟩ := hs
    cases xs with
    | nil => exact ⟨x, by simp, hrest.2, hrest.1⟩
    | cons z zs =>
      obtain ⟨w, hw, e1, e2⟩ := ih hrest (by simp)
      exact ⟨w, List.mem_cons_of_mem _ hw, e1, e2⟩

theorem Seg.last_of_next_none {h : Heap} {par : Ptr} {l : List Nat} :
    ∀ {prev f la : Ptr}, Seg h par prev l f la →
      ∀ x ∈ l, (h x).Next = none → la = some x := by
  induction l with
  | nil => intro _ _ _ _ x hx; simp at hx
  | cons y ys ih =>
    intro prev f la hs x hx hn
    obtain ⟨_, _, _, hrest⟩ := hs
    rcases List.mem_cons.1 hx with rfl | hx
    · rw [hn] at hrest
      cases ys with
      | nil => exact hrest.2
      | cons z zs => exact absurd hrest.1 (by simp)
    · exact ih hrest x hx hn

/-- In a well-linked store `p.FirstChild` is `n` exactly when `n` is a child of `p`
without `Prev`. -/
theorem WF.firstChild_iff {h : Heap} (hw : WF h) (p n : Nat) :
    (h p).FirstChild = some n ↔ (h n).Prev = none ∧ (h n).Parent = some p := by
  obtain ⟨l, hl, hmem⟩ := hw.kids p
  constructor
  · intro e
    unfold ChildrenOf at hl
    rw [e] at hl
    cases l with
    | nil => exact absurd hl.1 (by simp)
    | cons y ys =>
      obtain ⟨hf, hp, hv, _⟩ := hl
      cases hf
      exact ⟨hv, hp⟩
  · rintro ⟨hv, hp⟩
    exact Seg.head_of_prev_none hl (hmem n hp) hv

/-- In a well-linked store `p.LastChild` is `n` exactly when `n` is a child of `p`
without `Next`. -/
theorem WF.lastChild_iff {h : Heap} (hw : WF h) (p n : Nat) :
    (h p).LastChild = some n ↔ (h n).Next = none ∧ (h n).Parent = some p := by
  obtain ⟨l, hl, hmem⟩ := hw.kids p
  constructor
  · intro e
    unfold ChildrenOf at hl
    by_cases hne : l = []
    · subst hne
      have := hl.2
      rw [e] at this
      cases this
    · obtain ⟨z, hz, e1, e2⟩ := Seg.last_spec hl hne
      rw [e] at e1
      cases e1
      exact ⟨e2, Seg.parent_of_mem hl n hz⟩
  · rintro ⟨hv, hp⟩
    exact Seg.last_of_next_none hl n (hmem n hp) hv

theorem WF.prev_iff {h : Heap} (hw : WF h) (x y : Nat) :
    (h x).Prev = some y ↔ (h y).Next = some x :=
  ⟨fun e => (hw.prev_next x y e).1, fun e => (hw.next_prev y x e).1⟩

/-- `Unlink` of `n` leaves a chain without `n` as it is. -/
theorem seg_unlink_frame {h : Heap} (hw : WF h) (n : Nat) {par prev f la : Ptr} {l : List Nat}
    (hs : Seg h par prev l f la) (hn : n ∉ l) (hprev : prev ≠ some n) :
    Seg (unlinkNode h n) par prev l f la := by
  refine Seg.frame hs ?_
  intro x hx
  have hxn : x ≠ n := fun e => hn (e ▸ hx)
  refine ⟨?_, ?_, ?_⟩
  · rw [unlinkNode_Parent, if_neg hxn]
  · rw [unlinkNode_Prev, if_neg hxn, if_neg]
    intro e
    have e2 := (hw.next_prev n x e).1
    rcases Seg.prev_cases hs x hx with e3 | ⟨z, hz, e3⟩
    · exact hprev (e3.symm.trans e2)
    · rw [e2] at e3
      cases e3
      exact hn hz
  · rw [unlinkNode_Next, if_neg hxn, if_neg]
    intro e
    have e2 := (hw.prev_next n x e).1
    rcases Seg.next_cases hs x hx with e3 | ⟨z, hz, e3⟩
    · rw [e2] at e3
      cases e3
    · rw [e2] at e3
      cases e3
      exact hn hz

/-- `Unlink` of `n` takes `n` out of a chain and keeps the order of the others. -/
theorem seg_unlink {h : Heap} (hw : WF h) (n : Nat) {par : Ptr} {l : List Nat} :
    ∀ {prev f la : Ptr}, Seg h par prev l f la → prev ≠ some n →
      (∀ a, prev = some a → a ∉ l) →
      Seg (unlinkNode h n) par prev (l.filter (fun x => decide (x ≠ n)))
        (if f = some n then (h n).Next else f) (if la = some n then (h n).Prev else la) := by
  induction l with
  | nil =>
    intro prev f la hs hprev _
    obtain ⟨hf, hl⟩ := hs
    subst hf
    subst hl
    simp [Seg, hprev]
  | cons x xs ih =>
    intro prev f la hs hprev hfresh
    have hnd : (x :: xs).Nodup := Seg.nodup hs hfresh
    have hx : x ∉ xs := (List.nodup_cons.1 hnd).1
    obtain ⟨hf, hp, hv, hrest⟩ := hs
    by_cases hxn : x = n
    · subst hxn
      have hfil : (x :: xs).filter (fun y => decide (y ≠ x)) = xs := by
        rw [List.filter_cons_of_neg (by simp)]
        exact List.filter_eq_self.2 (fun y hy => by
          have : y ≠ x := fun e => hx (e ▸ hy)
          simpa using this)
      rw [hfil, hf, if_pos rfl]
      cases xs with
      | nil =>
        obtain ⟨h1, h2⟩ := hrest
        subst h2
        simp [Seg, h1, hv]
      | cons y ys =>
        obtain ⟨h1, h2, h3, h4⟩ := hrest
        have hyx : y ≠ x := fun e => hx (by simp [e])
        have hla : la ≠ some x := by
          rcases Seg.last_cases h4 with e | ⟨z, hz, e⟩
          · rw [e]
            exact fun e2 => hyx (Option.some.inj e2)
          · rw [e]
            intro e2
            cases e2
            exact hx (List.mem_cons_of_mem _ hz)
        rw [if_neg hla]
        refine ⟨h1, ?_, ?_, ?_⟩
        · rw [unlinkNode_Parent, if_neg hyx]
          exact h2
        · rw [unlinkNode_Prev, if_neg hyx, if_pos h1]
          exact hv
        · rw [unlinkNode_Next, if_neg hyx, if_neg]
          · refine seg_unlink_frame hw x h4 ?_ ?_
            · exact fun hm => hx (List.mem_cons_of_mem _ hm)
            · exact fun e => hyx (Option.some.inj e)
          · rw [hv]
            intro e
            exact hfresh y e (by simp)
    · have hfil : (x :: xs).filter (fun y => decide (y ≠ n))
          = x :: xs.filter (fun y => decide (y ≠ n)) := by
        rw [List.filter_cons_of_pos (by simpa using hxn)]
      have hfn : f ≠ some n := by
        rw [hf]
        exact fun e => hxn (Option.some.inj e)
      rw [hfil, if_neg hfn]
      refine ⟨hf, ?_, ?_, ?_⟩
      · rw [unlinkNode_Parent, if_neg hxn]
        exact hp
      · rw [unlinkNode_Prev, if_neg hxn, if_neg]
        · exact hv
        · intro e
          have := (hw.next_prev n x e).1
          rw [hv] at this
          exact hprev this
      · have hnext : (unlinkNode h n x).Next
            = if (h x).Next = some n then (h n).Next else (h x).Next := by
          rw [unlinkNode_Next, if_neg hxn]
          by_cases e : (h n).Prev = some x
          · rw [if_pos e, if_pos ((hw.prev_iff n x).1 e)]
          · rw [if_neg e, if_neg (fun e2 => e ((hw.prev_iff n x).2 e2))]
        rw [hnext]
        refine ih hrest ?_ ?_
        · exact fun e => hxn (Option.some.inj e)
        · intro a ha
          cases ha
          exact hx

/-- `Unlink` on the children sequence of any node `q`: the sequence without `n`. -/
theorem unlink_children {h : Heap} (hw : WF h) (n q : Nat) {l : List Nat}
    (hl : ChildrenOf h q l) :
    ChildrenOf (unlinkNode h n) q (l.filter (fun x => decide (x ≠ n))) := by
  have hs := seg_unlink hw n hl (by simp) (by simp)
  unfold ChildrenOf
  have e1 : (unlinkNode h n q).FirstChild
      = if (h q).FirstChild = some n then (h n).Next else (h q).FirstChild := by
    rw [unlinkNode_FirstChild]
    by_cases e : (h q).FirstChild = some n
    · rw [if_pos e, if_pos ((hw.firstChild_iff q n).1 e)]
    · rw [if_neg e, if_neg (fun e2 => e ((hw.firstChild_iff q n).2 e2))]
  have e2 : (unlinkNode h n q).LastChild
      = if (h q).LastChild = some n then (h n).Prev else (h q).LastChild := by
    rw [unlinkNode_LastChild]
    by_cases e : (h q).LastChild = some n
    · rw [if_pos e, if_pos ((hw.lastChild_iff q n).1 e)]
    · rw [if_neg e, if_neg (fun e2 => e ((hw.lastChild_iff q n).2 e2))]
  rw [e1, e2]
  exact hs

/-- `Unlink` keeps a well-linked store well linked. -/
theorem unlink_WF {h : Heap} (hw : WF h) (n : Nat) : WF (unlinkNode h n) := by
  refine ⟨?_, ?_, ?_⟩
  · intro q
    obtain ⟨l, hl, hmem⟩ := hw.kids q
    refine ⟨_, unlink_children hw n q hl, ?_⟩
    intro x hx
    rw [unlinkNode_Parent] at hx
    by_cases hxn : x = n
    · rw [if_pos hxn] at hx
      cases hx
    · rw [if_neg hxn] at hx
      exact List.mem_filter.2 ⟨hmem x hx, by simpa using hxn⟩
  · intro x y hxy
    rw [unlinkNode_Next] at hxy
    by_cases hxn : x = n
    · rw [if_pos hxn] at hxy
      cases hxy
    · rw [if_neg hxn] at hxy
      by_cases e : (h n).Prev = some x
      · rw [if_pos e] at hxy
        have hyn : y ≠ n := by
          rintro rfl
          have := (hw.next_prev y y hxy).1
          rw [e] at this
          exact hxn (Option.some.inj this)
        rw [unlinkNode_Prev, if_neg hyn, if_pos hxy, unlinkNode_Parent, if_neg hyn,
          unlinkNode_Parent, if_neg hxn]
        exact ⟨e, (hw.next_prev n y hxy).2.trans (hw.prev_next n x e).2.symm⟩
      · rw [if_neg e] at hxy
        have hyn : y ≠ n := by
          rintro rfl
          exact e (hw.next_prev x y hxy).1
        have hny : (h n).Next ≠ some y := by
          intro e2
          have := (hw.next_prev n y e2).1
          rw [(hw.next_prev x y hxy).1] at this
          exact hxn (Option.some.inj this)
        rw [unlinkNode_Prev, if_neg hyn, if_neg hny, unlinkNode_Parent, if_neg hyn,
          unlinkNode_Parent, if_neg hxn]
        exact hw.next_prev x y hxy
  · intro x y hxy
    rw [unlinkNode_Prev] at hxy
    by_cases hxn : x = n
    · rw [if_pos hxn] at hxy
      cases hxy
    · rw [if_neg hxn] at hxy
      by_cases e : (h n).Next = some x
      · rw [if_pos e] at hxy
        have hyn : y ≠ n := by
          rintro rfl
          have := (hw.prev_next y y hxy).1
          rw [e] at this
          exact hxn (Option.some.inj this)
        rw [unlinkNode_Next, if_neg hyn, if_pos hxy, unlinkNode_Parent, if_neg hyn,
          unlinkNode_Parent, if_neg hxn]
        exact ⟨e, (hw.prev_next n y hxy).2.trans (hw.next_prev n x e).2.symm⟩
      · rw [if_neg e] at hxy
        have hyn : y ≠ n := by
          rintro rfl
          exact e (hw.prev_next x y hxy).1
        have hny : (h n).Prev ≠ some y := by
          intro e2
          have := (hw.prev_next n y e2).1
          rw [(hw.prev_next x y hxy).1] at this
          exact hxn (Option.some.inj this)
        rw [unlinkNode_Next, if_neg hyn, if_neg hny, unlinkNode_Parent, if_neg hyn,
          unlinkNode_Parent, if_neg hxn]
        exact hw.prev_next x y hxy

/-! ## Linking a node in -/

/-- A store with the same links is as well linked. -/
theorem WF.sameLinks {h g : Heap} (hw : WF h)
    (e : ∀ x, (g x).Parent = (h x).Parent ∧ (g x).FirstChild = (h x).FirstChild ∧
      (g x).LastChild = (h x).LastChild ∧ (g x).Prev = (h x).Prev ∧ (g x).Next = (h x).Next) :
    WF g := by
  refine ⟨?_, ?_, ?_⟩
  · intro p
    obtain ⟨l, hl, hmem⟩ := hw.kids p
    refine ⟨l, ?_, ?_⟩
    · unfold ChildrenOf
      rw [(e p).2.1, (e p).2.2.1]
      exact Seg.frame hl (fun x _ => ⟨(e x).1, (e x).2.2.2.1, (e x).2.2.2.2⟩)
    · intro x hx
      rw [(e x).1] at hx
      exact hmem x hx
  · intro x y hxy
    rw [(e x).2.2.2.2] at hxy
    rw [(e y).2.2.2.1, (e y).1, (e x).1]
    exact hw.next_prev x y hxy
  · intro x y hxy
    rw [(e x).2.2.2.1] at hxy
    rw [(e y).2.2.2.2, (e y).1, (e x).1]
    exact hw.prev_next x y hxy

/-- A node without parent is in no children sequence. -/
theorem Seg.not_mem_of_parent {h : Heap} {par prev f la : Ptr} {l : List Nat} {c : Nat}
    (hs : Seg h par prev l f la) (hc : (h c).Parent ≠ par) : c ∉ l :=
  fun hm => hc (Seg.parent_of_mem hs c hm)

/-- Linking `c` after the last element `t` of a chain. -/
theorem seg_snoc {h g : Heap} {p t c : Nat} {l : List Nat}
    (gP : ∀ x, (g x).Parent = if x = c then some p else (h x).Parent)
    (gV : ∀ x, (g x).Prev = if x = c then some t else (h x).Prev)
    (gN : ∀ x, (g x).Next = if x = t then some c else (h x).Next)
    (htn : (h t).Next = none) (hcn : (h c).Next = none) (hct : c ≠ t) (hc : c ∉ l) :
    ∀ {prev f : Ptr}, Seg h (some p) prev l f (some t) → l ≠ [] →
      Seg g (some p) prev (l ++ [c]) f (some c) := by
  induction l with
  | nil => intro _ _ _ hne; exact absurd rfl hne
  | cons x xs ih =>
    intro prev f hs _
    obtain ⟨hf, hp, hv, hrest⟩ := hs
    have hxc : x ≠ c := fun e => hc (by simp [e])
    refine ⟨hf, ?_, ?_, ?_⟩
    · rw [gP, if_neg hxc]
      exact hp
    · rw [gV, if_neg hxc]
      exact hv
    · cases xs with
      | nil =>
        obtain ⟨h1, h2⟩ := hrest
        cases h2
        rw [gN, if_pos rfl]
        refine ⟨rfl, ?_, ?_, ?_, rfl⟩
        · rw [gP, if_pos rfl]
        · rw [gV, if_pos rfl]
        · rw [gN, if_neg hct]
          exact hcn
      | cons y ys =>
        have hxt : x ≠ t := by
          rintro rfl
          rw [htn] at hrest
          exact absurd hrest.1 (by simp)
        rw [gN, if_neg hxt]
        exact ih (fun hm => hc (List.mem_cons_of_mem _ hm)) hrest (by simp)

/-- `AppendChild` after the `Unlink`, when `p` has a last child `t`. -/
theorem append_some_WF {h g : Heap} (hw : WF h) {p t c : Nat}
    (cP : (h c).Parent = none) (cV : (h c).Prev = none) (cN : (h c).Next = none)
    (ht : (h p).LastChild = some t)
    (gP : ∀ x, (g x).Parent = if x = c then some p else (h x).Parent)
    (gV : ∀ x, (g x).Prev = if x = c then some t else (h x).Prev)
    (gN : ∀ x, (g x).Next = if x = t then some c else (h x).Next)
    (gF : ∀ x, (g x).FirstChild = (h x).FirstChild)
    (gL : ∀ x, (g x).LastChild = if x = p then some c else (h x).LastChild) :
    WF g ∧ ∀ l, ChildrenOf h p l → ChildrenOf g p (l ++ [c]) := by
  obtain ⟨htn, htp⟩ := (hw.lastChild_iff p t).1 ht
  have hct : c ≠ t := by
    rintro rfl
    rw [cP] at htp
    cases htp
  have hkid : ∀ l, ChildrenOf h p l → ChildrenOf g p (l ++ [c]) := by
    intro l hl
    have hcl : c ∉ l := Seg.not_mem_of_parent hl (by rw [cP]; simp)
    have hne : l ≠ [] := by
      rintro rfl
      have := hl.2
      rw [ht] at this
      cases this
    unfold ChildrenOf at hl ⊢
    rw [gF, gL, if_pos rfl]
    rw [ht] at hl
    exact seg_snoc gP gV gN htn cN hct hcl hl hne
  refine ⟨⟨?_, ?_, ?_⟩, hkid⟩
  · intro q
    obtain ⟨l, hl, hmem⟩ := hw.kids q
    by_cases hq : q = p
    · subst hq
      refine ⟨l ++ [c], hkid l hl, ?_⟩
      intro x hx
      rw [gP] at hx
      by_cases hxc : x = c
      · simp [hxc]
      · rw [if_neg hxc] at hx
        exact List.mem_append_left _ (hmem x hx)
    · refine ⟨l, ?_, ?_⟩
      · unfold ChildrenOf
        rw [gF, gL, if_neg hq]
        refine Seg.frame hl ?_
        intro x hx
        have hxp := Seg.parent_of_mem hl x hx
        have hxc : x ≠ c := by
          rintro rfl
          rw [cP] at hxp
          cases hxp
        have hxt : x ≠ t := by
          rintro rfl
          rw [htp] at hxp
          exact hq (Option.some.inj hxp).symm
        rw [gP, gV, gN, if_neg hxc, if_neg hxc, if_neg hxt]
        exact ⟨rfl, rfl, rfl⟩
      · intro x hx
        rw [gP] at hx
        by_cases hxc : x = c
        · rw [if_pos hxc] at hx
          exact absurd (Option.some.inj hx).symm hq
        · rw [if_neg hxc] at hx
          exact hmem x hx
  · intro x y hxy
    rw [gN] at hxy
    by_cases hxt : x = t
    · rw [if_pos hxt] at hxy
      cases hxy
      subst hxt
      rw [gV, if_pos rfl, gP, if_pos rfl, gP, if_neg (Ne.symm hct)]
      exact ⟨rfl, htp.symm⟩
    · rw [if_neg hxt] at hxy
      have hyc : y ≠ c := by
        rintro rfl
        have := (hw.next_prev x y hxy).1
        rw [cV] at this
        cases this
      have hxc : x ≠ c := by
        rintro rfl
        rw [cN] at hxy
        cases hxy
      rw [gV, if_neg hyc, gP, if_neg hyc, gP, if_neg hxc]
      exact hw.next_prev x y hxy
  · intro x y hxy
    rw [gV] at hxy
    by_cases hxc : x = c
    · rw [if_pos hxc] at hxy
      cases hxy
      subst hxc
      rw [gN, if_pos rfl, gP, if_neg (Ne.symm hct), gP, if_pos rfl]
      exact ⟨rfl, htp⟩
    · rw [if_neg hxc] at hxy
      have hyn := (hw.prev_next x y hxy).1
      have hyt : y ≠ t := by
        rintro rfl
        rw [htn] at hyn
        cases hyn
      have hyc : y ≠ c := by
        rintro rfl
        rw [cN] at hyn
        cases hyn
      rw [gN, if_neg hyt, gP, if_neg hyc, gP, if_neg hxc]
      exact hw.prev_next x y hxy

/-- `AppendChild` after the `Unlink`, when `p` has no child. -/
theorem append_none_WF {h g : Heap} (hw : WF h) {p c : Nat}
    (cP : (h c).Parent = none) (cV : (h c).Prev = none) (cN : (h c).Next = none)
    (ht : (h p).LastChild = none)
    (gP : ∀ x, (g x).Parent = if x = c then some p else (h x).Parent)
    (gV : ∀ x, (g x).Prev = (h x).Prev)
    (gN : ∀ x, (g x).Next = (h x).Next)
    (gF : ∀ x, (g x).FirstChild = if x = p then some c else (h x).FirstChild)
    (gL : ∀ x, (g x).LastChild = if x = p then some c else (h x).LastChild) :
    WF g ∧ ChildrenOf h p [] ∧ ChildrenOf g p [c] := by
  have hnil : ∀ l, ChildrenOf h p l → l = [] := by
    intro l hl
    by_contra hne
    obtain ⟨z, _, e, _⟩ := Seg.last_spec hl hne
    rw [ht] at e
    cases e
  have hold : ChildrenOf h p [] := by
    obtain ⟨l, hl, _⟩ := hw.kids p
    rw [hnil l hl] at hl
    exact hl
  have hkid : ChildrenOf g p [c] := by
    unfold ChildrenOf
    rw [gF, gL, if_pos rfl, if_pos rfl]
    refine ⟨rfl, ?_, ?_, ?_, rfl⟩
    · rw [gP, if_pos rfl]
    · rw [gV]
      exact cV
    · rw [gN]
      exact cN
  refine ⟨⟨?_, ?_, ?_⟩, hold, hkid⟩
  · intro q
    obtain ⟨l, hl, hmem⟩ := hw.kids q
    by_cases hq : q = p
    · subst hq
      refine ⟨[c], hkid, ?_⟩
      intro x hx
      rw [gP] at hx
      by_cases hxc : x = c
      · simp [hxc]
      · rw [if_neg hxc] at hx
        have := hmem x hx
        rw [hnil l hl] at this
        simp at this
    · refine ⟨l, ?_, ?_⟩
      · unfold ChildrenOf
        rw [gF, gL, if_neg hq, if_neg hq]
        refine Seg.frame hl ?_
        intro x hx
        have hxp := Seg.parent_of_mem hl x hx
        have hxc : x ≠ c := by
          rintro rfl
          rw [cP] at hxp
          cases hxp
        rw [gP, gV, gN, if_neg hxc]
        exact ⟨rfl, rfl, rfl⟩
      · intro x hx
        rw [gP] at hx
        by_cases hxc : x = c
        · rw [if_pos hxc] at hx
          exact absurd (Option.some.inj hx).symm hq
        · rw [if_neg hxc] at hx
          exact hmem x hx
  · intro x y hxy
    rw [gN] at hxy
    have hyc : y ≠ c := by
      rintro rfl
      have := (hw.next_prev x y hxy).1
      rw [cV] at this
      cases this
    have hxc : x ≠ c := by
      rintro rfl
      rw [cN] at hxy
      cases hxy
    rw [gV, gP, if_neg hyc, gP, if_neg hxc]
    exact hw.next_prev x y hxy
  · intro x y hxy
    rw [gV] at hxy
    have hyc : y ≠ c := by
      rintro rfl
      have := (hw.prev_next x y hxy).1
      rw [cN] at this
      cases this
    have hxc : x ≠ c := by
      rintro rfl
      rw [cV] at hxy
      cases hxy
    rw [gN, gP, if_neg hyc, gP, if_neg hxc]
    exact hw.prev_next x y hxy

theorem mem_spliceBefore_of_mem {a s x : Nat} {l : List Nat} (hx : x ∈ l) :
    x ∈ spliceBefore a s l := by
  induction l with
  | nil => simp at hx
  | cons y ys ih =>
    unfold spliceBefore
    by_cases e : y = a
    · rw [if_pos e]
      exact List.mem_cons_of_mem _ hx
    · rw [if_neg e]
      rcases List.mem_cons.1 hx with rfl | hx
      · exact List.mem_cons_self _ _
      · exact List.mem_cons_of_mem _ (ih hx)

theorem mem_spliceBefore_self {a s : Nat} {l : List Nat} (ha : a ∈ l) :
    s ∈ spliceBefore a s l := by
  induction l with
  | nil => simp at ha
  | cons y ys ih =>
    unfold spliceBefore
    by_cases e : y = a
    · rw [if_pos e]
      exact List.mem_cons_self _ _
    · rw [if_neg e]
      rcases List.mem_cons.1 ha with rfl | ha
      · exact absurd rfl e
      · exact List.mem_cons_of_mem _ (ih ha)

/-- Splicing `s` in front of `a` in a chain. -/
theorem seg_splice {h g : Heap} (hw : WF h) {a s : Nat} (has : a ≠ s) {par : Ptr}
    (gP : ∀ x, (g x).Parent = if x = s then (h a).Parent else (h x).Parent)
    (gV : ∀ x, (g x).Prev =
      if x = a then some s else if x = s then (h a).Prev else (h x).Prev)
    (gN : ∀ x, (g x).Next =
      if x = s then some a else if (h a).Prev = some x then some s else (h x).Next)
    {l : List Nat} :
    ∀ {prev f la : Ptr}, Seg h par prev l f la → s ∉ l → (∀ b, prev = some b → b ∉ l) →
      Seg g par prev (spliceBefore a s l) (if f = some a then some s else f) la := by
  induction l with
  | nil =>
    intro prev f la hs _ _
    obtain ⟨hf, hl⟩ := hs
    subst hf
    simp [spliceBefore, Seg, hl]
  | cons x xs ih =>
    intro prev f la hs hsl hfresh
    have hnd : (x :: xs).Nodup := Seg.nodup hs hfresh
    have hx : x ∉ xs := (List.nodup_cons.1 hnd).1
    obtain ⟨hf, hp, hv, hrest⟩ := hs
    have hxs : x ≠ s := fun e => hsl (by simp [e])
    unfold spliceBefore
    by_cases hxa : x = a
    · subst hxa
      rw [if_pos rfl, hf, if_pos rfl]
      refine ⟨rfl, ?_, ?_, ?_⟩
      · rw [gP, if_pos rfl]
        exact hp
      · rw [gV, if_neg (Ne.symm has), if_pos rfl]
        exact hv
      · rw [gN, if_pos rfl]
        refine ⟨rfl, ?_, ?_, ?_⟩
        · rw [gP, if_neg has]
          exact hp
        · rw [gV, if_pos rfl]
        · have hnx : (h x).Prev ≠ some x := by
            rw [hv]
            exact fun e => hfresh x e (List.mem_cons_self _ _)
          rw [gN, if_neg has, if_neg hnx]
          refine Seg.frame hrest ?_
          intro y hy
          have hys : y ≠ s := fun e => hsl (by simp [e ▸ hy])
          have hyx : y ≠ x := fun e => hx (e ▸ hy)
          have hpy : (h x).Prev ≠ some y := by
            rw [hv]
            exact fun e => hfresh y e (List.mem_cons_of_mem _ hy)
          rw [gP, gV, gN, if_neg hys, if_neg hyx, if_neg hys, if_neg hys, if_neg hpy]
          exact ⟨rfl, rfl, rfl⟩
    · have hfa : f ≠ some a := by
        rw [hf]
        exact fun e => hxa (Option.some.inj e)
      rw [if_neg hxa, if_neg hfa]
      refine ⟨hf, ?_, ?_, ?_⟩
      · rw [gP, if_neg hxs]
        exact hp
      · rw [gV, if_neg hxa, if_neg hxs]
        exact hv
      · have hnext : (g x).Next = if (h x).Next = some a then some s else (h x).Next := by
          rw [gN, if_neg hxs]
          by_cases e : (h a).Prev = some x
          · rw [if_pos e, if_pos ((hw.prev_iff a x).1 e)]
          · rw [if_neg e, if_neg (fun e2 => e ((hw.prev_iff a x).2 e2))]
        rw [hnext]
        refine ih hrest (fun hm => hsl (List.mem_cons_of_mem _ hm)) ?_
        intro b hb
        cases hb
        exact hx

/-- `InsertBefore` after the `Unlink`, when the anchor `a` is another node than the
detached `s`. -/
theorem insert_WF {h g : Heap} (hw : WF h) {a s : Nat} (has : a ≠ s)
    (sP : (h s).Parent = none) (sV : (h s).Prev = none) (sN : (h s).Next = none)
    (gP : ∀ x, (g x).Parent = if x = s then (h a).Parent else (h x).Parent)
    (gV : ∀ x, (g x).Prev =
      if x = a then some s else if x = s then (h a).Prev else (h x).Prev)
    (gN : ∀ x, (g x).Next =
      if x = s then some a else if (h a).Prev = some x then some s else (h x).Next)
    (gF : ∀ x, (g x).FirstChild =
      if (h a).Prev = none ∧ (h a).Parent = some x then some s else (h x).FirstChild)
    (gL : ∀ x, (g x).LastChild = (h x).LastChild) :
    WF g ∧ ∀ q l, ChildrenOf h q l → ChildrenOf g q (spliceBefore a s l) := by
  have hkid : ∀ q l, ChildrenOf h q l → ChildrenOf g q (spliceBefore a s l) := by
    intro q l hl
    have hsl : s ∉ l := Seg.not_mem_of_parent hl (by rw [sP]; simp)
    have := seg_splice hw has gP gV gN hl hsl (by simp)
    unfold ChildrenOf
    rw [gF, gL]
    by_cases e : (h q).FirstChild = some a
    · rw [if_pos ((hw.firstChild_iff q a).1 e)]
      rw [if_pos e] at this
      exact this
    · rw [if_neg (fun e2 => e ((hw.firstChild_iff q a).2 e2))]
      rw [if_neg e] at this
      exact this
  refine ⟨⟨?_, ?_, ?_⟩, hkid⟩
  · intro q
    obtain ⟨l, hl, hmem⟩ := hw.kids q
    refine ⟨_, hkid q l hl, ?_⟩
    intro x hx
    rw [gP] at hx
    by_cases hxs : x = s
    · rw [if_pos hxs] at hx
      rw [hxs]
      exact mem_spliceBefore_self (hmem a hx)
    · rw [if_neg hxs] at hx
      exact mem_spliceBefore_of_mem (hmem x hx)
  · intro x y hxy
    rw [gN] at hxy
    by_cases hxs : x = s
    · rw [if_pos hxs] at hxy
      cases hxy
      rw [gV, if_pos rfl, gP, if_neg has, gP, if_pos hxs]
      exact ⟨by rw [hxs], rfl⟩
    · rw [if_neg hxs] at hxy
      by_cases e : (h a).Prev = some x
      · rw [if_pos e] at hxy
        cases hxy
        rw [gV, if_neg (Ne.symm has), if_pos rfl, gP, if_pos rfl, gP, if_neg hxs]
        exact ⟨e, (hw.prev_next a x e).2.symm⟩
      · rw [if_neg e] at hxy
        have hya : y ≠ a := by
          rintro rfl
          exact e (hw.next_prev x y hxy).1
        have hys : y ≠ s := by
          rintro rfl
          have := (hw.next_prev x y hxy).1
          rw [sV] at this
          cases this
        rw [gV, if_neg hya, if_neg hys, gP, if_neg hys, gP, if_neg hxs]
        exact hw.next_prev x y hxy
  · intro x y hxy
    rw [gV] at hxy
    by_cases hxa : x = a
    · rw [if_pos hxa] at hxy
      cases hxy
      rw [gN, if_pos rfl, gP, if_pos rfl, gP, if_neg (hxa ▸ has)]
      exact ⟨by rw [hxa], by rw [hxa]⟩
    · rw [if_neg hxa] at hxy
      by_cases hxs : x = s
      · rw [if_pos hxs] at hxy
        have hyn := (hw.prev_next a y hxy).1
        have hys : y ≠ s := by
          rintro rfl
          rw [sN] at hyn
          cases hyn
        rw [gN, if_neg hys, if_pos hxy, gP, if_neg hys, gP, if_pos hxs]
        exact ⟨by rw [hxs], (hw.prev_next a y hxy).2⟩
      · rw [if_neg hxs] at hxy
        have hyn := (hw.prev_next x y hxy).1
        have hys : y ≠ s := by
          rintro rfl
          rw [sN] at hyn
          cases hyn
        have hay : (h a).Prev ≠ some y := by
          intro e
          have := (hw.prev_next a y e).1
          rw [hyn] at this
          exact hxa (Option.some.inj this)
        rw [gN, if_neg hys, if_neg hay, gP, if_neg hys, gP, if_neg hxs]
        exact hw.prev_next x y hxy

/-- `InsertBefore` of a node before itself: after the `Unlink`, the node is
linked to itself and to nothing else. -/
theorem insert_self_WF {h g : Heap} (hw : WF h) {s : Nat}
    (sP : (h s).Parent = none) (sV : (h s).Prev = none) (sN : (h s).Next = none)
    (gP : ∀ x, (g x).Parent = (h x).Parent)
    (gV : ∀ x, (g x).Prev = if x = s then some s else (h x).Prev)
    (gN : ∀ x, (g x).Next = if x = s then some s else (h x).Next)
    (gF : ∀ x, (g x).FirstChild = (h x).FirstChild)
    (gL : ∀ x, (g x).LastChild = (h x).LastChild) :
    WF g := by
  refine ⟨?_, ?_, ?_⟩
  · intro q
    obtain ⟨l, hl, hmem⟩ := hw.kids q
    refine ⟨l, ?_, ?_⟩
    · unfold ChildrenOf
      rw [gF, gL]
      refine Seg.frame hl ?_
      intro x hx
      have hxs : x ≠ s := by
        rintro rfl
        have := Seg.parent_of_mem hl x hx
        rw [sP] at this
        cases this
      rw [gP, gV, gN, if_neg hxs, if_neg hxs]
      exact ⟨rfl, rfl, rfl⟩
    · intro x hx
      rw [gP] at hx
      exact hmem x hx
  · intro x y hxy
    rw [gN] at hxy
    by_cases hxs : x = s
    · rw [if_pos hxs] at hxy
      cases hxy
      rw [gV, if_pos rfl, gP, gP, hxs]
      exact ⟨rfl, rfl⟩
    · rw [if_neg hxs] at hxy
      have hys : y ≠ s := by
        rintro rfl
        have := (hw.next_prev x y hxy).1
        rw [sV] at this
        cases this
      rw [gV, if_neg hys, gP, gP]
      exact hw.next_prev x y hxy
  · intro x y hxy
    rw [gV] at hxy
    by_cases hxs : x = s
    · rw [if_pos hxs] at hxy
      cases hxy
      rw [gN, if_pos rfl, gP, gP, hxs]
      exact ⟨rfl, rfl⟩
    · rw [if_neg hxs] at hxy
      have hys : y ≠ s := by
        rintro rfl
        have := (hw.prev_next x y hxy).1
        rw [sN] at this
        cases this
      rw [gN, if_neg hys, gP, gP]
      exact hw.prev_next x y hxy

theorem unlinkNode_self (h : Heap) (c : Nat) :
    (unlinkNode h c c).Parent = none ∧ (unlinkNode h c c).Prev = none ∧
      (unlinkNode h c c).Next = none := by
  rw [unlinkNode_Parent, unlinkNode_Prev, unlinkNode_Next, if_pos rfl, if_pos rfl, if_pos rfl]
  exact ⟨rfl, rfl, rfl⟩

/-- `AppendChild` keeps a well-linked store well linked, also when it stops in a
nil dereference. -/
theorem AppendChild_WF {h : Heap} (hw : WF h) (n child : Ptr) :
    WF (AppendChild h n child).heap := by
  cases child with
  | none => exact hw
  | some c =>
    have h1w := unlink_WF hw c
    obtain ⟨cP, cV, cN⟩ := unlinkNode_self h c
    cases n with
    | none =>
      refine h1w.sameLinks ?_
      intro x
      by_cases e : x = c <;> simp [AppendChild, Unlink, Outcome.heap, e, cP]
    | some p =>
      cases ht : (unlinkNode h c p).LastChild with
      | none =>
        have hg : AppendChild h (some p) (some c) = .ok (setLastChild (setFirstChild
            (setParent (unlinkNode h c) c (some p)) p (some c)) p (some c)) := by
          simp only [AppendChild, Unlink, setParent_LastChild, ht]
        rw [hg]
        refine (append_none_WF h1w cP cV cN ht ?_ ?_ ?_ ?_ ?_).1 <;> intro x <;>
          simp [Outcome.heap]
      | some t =>
        have hg : AppendChild h (some p) (some c) = .ok (setLastChild (setPrev
            (setNext (setParent (unlinkNode h c) c (some p)) t (some c)) c (some t))
            p (some c)) := by
          simp only [AppendChild, Unlink, setParent_LastChild, setNext_LastChild, ht]
        rw [hg]
        refine (append_some_WF h1w cP cV cN ht ?_ ?_ ?_ ?_ ?_).1 <;> intro x <;>
          simp [Outcome.heap]

/-- `InsertBefore` keeps a well-linked store well linked, also when it stops in a
nil dereference. -/
theorem InsertBefore_WF {h : Heap} (hw : WF h) (n sibling : Ptr) :
    WF (InsertBefore h n sibling).heap := by
  cases sibling with
  | none => exact hw
  | some s =>
    have h1w := unlink_WF hw s
    obtain ⟨sP, sV, sN⟩ := unlinkNode_self h s
    cases n with
    | none => exact h1w
    | some a =>
      by_cases has : a = s
      · subst has
        have hg : (InsertBefore h (some a) (some a)).heap = setParent (setPrev (setNext
            (setPrev (unlinkNode h a) a none) a (some a)) a (some a)) a none := by
          simp [InsertBefore, Unlink, sV, sP, Outcome.heap]
        rw [hg]
        refine insert_self_WF h1w sP sV sN ?_ ?_ ?_ ?_ ?_ <;> intro x <;>
          by_cases e : x = a <;> simp [e, sP]
      · have hsa : s ≠ a := Ne.symm has
        cases hv : (unlinkNode h s a).Prev with
        | some q =>
          have hg : (InsertBefore h (some a) (some s)).heap = setParent (setPrev (setNext
              (setNext (setPrev (unlinkNode h s) s (some q)) q (some s)) s (some a))
              a (some s)) s (unlinkNode h s a).Parent := by
            simp [InsertBefore, Unlink, hv, hsa, has, Outcome.heap]
          rw [hg]
          refine (insert_WF h1w has sP sV sN ?_ ?_ ?_ ?_ ?_).1 <;> intro x <;>
            simp [hv, eq_comm]
        | none =>
          cases hp : (unlinkNode h s a).Parent with
          | none =>
            have hg : (InsertBefore h (some a) (some s)).heap = setParent (setPrev (setNext
                (setPrev (unlinkNode h s) s none) s (some a)) a (some s)) s none := by
              simp [InsertBefore, Unlink, hv, hp, hsa, has, Outcome.heap]
            rw [hg]
            refine (insert_WF h1w has sP sV sN ?_ ?_ ?_ ?_ ?_).1 <;> intro x <;>
              simp [hv, hp]
          | some p =>
            have hg : (InsertBefore h (some a) (some s)).heap = setFirstChild (setParent
                (setPrev (setNext (setPrev (unlinkNode h s) s none) s (some a)) a (some s))
                s (some p)) p (some s) := by
              simp [InsertBefore, Unlink, hv, hp, hsa, has, Outcome.heap]
            rw [hg]
            refine (insert_WF h1w has sP sV sN ?_ ?_ ?_ ?_ ?_).1 <;> intro x <;>
              simp [hv, hp, eq_comm]

theorem freshHeap_WF (d : Nat → NodeData) : WF (freshHeap d) := by
  refine ⟨?_, ?_, ?_⟩
  · intro p
    refine ⟨[], ⟨rfl, rfl⟩, ?_⟩
    intro x hx
    simp [freshHeap, NewNode] at hx
  · intro x y hxy
    simp [freshHeap, NewNode] at hxy
  · intro x y hxy
    simp [freshHeap, NewNode] at hxy

theorem exec_WF {h : Heap} (hw : WF h) (c : Call) : WF (c.exec h).heap := by
  cases c with
  | unlink n =>
    cases n with
    | none => exact hw
    | some a => exact unlink_WF hw a
  | appendChild n child => exact AppendChild_WF hw n child
  | insertBefore n sibling => exact InsertBefore_WF hw n sibling

theorem runCalls_WF (calls : List Call) : ∀ {h : Heap}, WF h → WF (runCalls h calls) := by
  induction calls with
  | nil => intro h hw; exact hw
  | cons c cs ih => intro h hw; exact ih (exec_WF hw c)

/-! ## The linkage invariant -/

/-- C1: starting from nodes created by `NewNode`, after each call of any sequence
of `AppendChild`, `InsertBefore` and `Unlink` calls (with any arguments, nil
included, a failed call being recovered from), every node `p` has a children
sequence: the chain from `p.FirstChild` along `Next` is a consistent doubly-linked
list whose first element has no `Prev`, whose last element has no `Next` and is
`p.LastChild`, and all of whose elements have `Parent == p`. -/
theorem C1_linkage_invariant (d : Nat → NodeData) (calls : List Call) (k : Nat) :
    LinkageInv (runCalls (freshHeap d) (calls.take k)) := by
  intro p
  obtain ⟨l, hl, _⟩ := (runCalls_WF (calls.take k) (freshHeap_WF d)).kids p
  exact ⟨l, hl⟩

theorem Seg.prev_ne_self {h : Heap} {par : Ptr} {l : List Nat} :
    ∀ {prev f la : Ptr}, Seg h par prev l f la → (∀ a, prev = some a → a ∉ l) →
      ∀ y ∈ l, (h y).Prev ≠ some y := by
  induction l with
  | nil => intro _ _ _ _ _ y hy; simp at hy
  | cons x xs ih =>
    intro prev f la hs hfresh y hy
    have hnd : (x :: xs).Nodup := Seg.nodup hs hfresh
    obtain ⟨_, _, hv, hrest⟩ := hs
    rcases List.mem_cons.1 hy with rfl | hy
    · rw [hv]
      exact fun e => hfresh y e (List.mem_cons_self _ _)
    · refine ih hrest ?_ y hy
      intro a ha
      cases ha
      exact (List.nodup_cons.1 hnd).1

theorem filter_ne_eq_erase {l : List Nat} (hnd : l.Nodup) (n : Nat) :
    l.filter (fun x => decide (x ≠ n)) = l.erase n := by
  rw [List.Nodup.erase_eq_filter hnd]
  congr 1
  funext x
  by_cases e : x = n <;> simp [e]

/-! ## `Unlink` and the children of the former parent -/

/-- C10: in a well-linked store, for a node `n` with parent `p` whose children
sequence is `l`: after `n.Unlink()` the children sequence of `p` is `l` with `n`
removed (the others in their order); the former previous sibling's `Next` is the
former next sibling and the former next sibling's `Prev` is the former previous
one, or, when `n` was first (last), the former next (previous) sibling is
`p.FirstChild` (`p.LastChild`); no node other than `n` has a `Prev`, `Next`,
`FirstChild` or `LastChild` link to `n`, and the only nodes with `Parent == n` are
the children of `n` itself, which leave the tree with it. -/
theorem C10_unlink_children (h : Heap) (hw : WF h) (n p : Nat) (l : List Nat)
    (hp : (h n).Parent = some p) (hl : ChildrenOf h p l) :
    n ∈ l ∧
    ChildrenOf (Unlink h (some n)).heap p (l.erase n) ∧
    (∀ a, (h n).Prev = some a → ((Unlink h (some n)).heap a).Next = (h n).Next) ∧
    (∀ b, (h n).Next = some b → ((Unlink h (some n)).heap b).Prev = (h n).Prev) ∧
    ((h n).Prev = none → ((Unlink h (some n)).heap p).FirstChild = (h n).Next) ∧
    ((h n).Next = none → ((Unlink h (some n)).heap p).LastChild = (h n).Prev) ∧
    (∀ x, x ≠ n →
      ((Unlink h (some n)).heap x).Prev ≠ some n ∧
      ((Unlink h (some n)).heap x).Next ≠ some n ∧
      ((Unlink h (some n)).heap x).FirstChild ≠ some n ∧
      ((Unlink h (some n)).heap x).LastChild ≠ some n) ∧
    (∀ x, (h x).Parent ≠ some n → ((Unlink h (some n)).heap x).Parent ≠ some n) := by
  have hnd : l.Nodup := Seg.nodup hl (by simp)
  have hnl : n ∈ l := by
    obtain ⟨l2, hl2, hmem⟩ := hw.kids p
    rw [Seg.unique hl hl2]
    exact hmem n hp
  have hself : (h n).Prev ≠ some n := Seg.prev_ne_self hl (by simp) n hnl
  have hselfn : (h n).Next ≠ some n := fun e => hself (hw.next_prev n n e).1
  simp only [Unlink, Outcome.heap]
  refine ⟨hnl, ?_, ?_, ?_, ?_, ?_, ?_, ?_⟩
  · rw [← filter_ne_eq_erase hnd]
    exact unlink_children hw n p hl
  · intro a ha
    have han : a ≠ n := by
      rintro rfl
      exact hself ha
    rw [unlinkNode_Next, if_neg han, if_pos ha]
  · intro b hb
    have hbn : b ≠ n := by
      rintro rfl
      exact hselfn hb
    rw [unlinkNode_Prev, if_neg hbn, if_pos hb]
  · intro hv
    rw [unlinkNode_FirstChild, if_pos ⟨hv, hp⟩]
  · intro hv
    rw [unlinkNode_LastChild, if_pos ⟨hv, hp⟩]
  · intro x hx
    refine ⟨?_, ?_, ?_, ?_⟩
    · rw [unlinkNode_Prev, if_neg hx]
      by_cases e : (h n).Next = some x
      · rw [if_pos e]
        exact hself
      · rw [if_neg e]
        exact fun e2 => e ((hw.prev_iff x n).1 e2)
    · rw [unlinkNode_Next, if_neg hx]
      by_cases e : (h n).Prev = some x
      · rw [if_pos e]
        exact hselfn
      · rw [if_neg e]
        exact fun e2 => e ((hw.prev_iff n x).2 e2)
    · rw [unlinkNode_FirstChild]
      by_cases e : (h n).Prev = none ∧ (h n).Parent = some x
      · rw [if_pos e]
        exact hselfn
      · rw [if_neg e]
        exact fun e2 => e ((hw.firstChild_iff x n).1 e2)
    · rw [unlinkNode_LastChild]
      by_cases e : (h n).Next = none ∧ (h n).Parent = some x
      · rw [if_pos e]
        exact hself
      · rw [if_neg e]
        exact fun e2 => e ((hw.lastChild_iff x n).1 e2)
  · intro x hx
    rw [unlinkNode_Parent]
    by_cases e : x = n
    · rw [if_pos e]
      simp
    · rw [if_neg e]
      exact hx

/-- C10, at the second of three children: the two that remain are linked to each
other. -/
theorem C10_unlink_children_witness :
    WF threeKids ∧ ChildrenOf threeKids 0 [1, 2, 3] ∧
    ChildrenOf (Unlink threeKids (some 2)).heap 0 [1, 3] ∧
    ((Unlink threeKids (some 2)).heap 1).Next = some 3 ∧
    ((Unlink threeKids (some 2)).heap 3).Prev = some 1 :=
  have hw : WF threeKids := wfCheck_sound _ (by decide)
  have hc := C10_unlink_children threeKids hw 2 0 [1, 2, 3] (by decide) (by decide)
  ⟨hw, by decide, hc.2.1, hc.2.2.1 1 (by decide), hc.2.2.2.1 3 (by decide)⟩

/-! ## A laid-out forest has distinct nodes -/

/-- The forest that starts at a given node is unique. -/
theorem Rep.forest_unique {h : Heap} {f : Forest} :
    ∀ {par prev first la par2 prev2 la2 : Ptr} {f2 : Forest},
      Rep h par prev f first la → Rep h par2 prev2 f2 first la2 → f = f2 := by
  induction f with
  | nil =>
    intro par prev first la par2 prev2 la2 f2 hr hr2
    cases f2 with
    | nil => rfl
    | cons y k r =>
      have h1 := hr.1
      have h2 := hr2.1
      rw [h1] at h2
      cases h2
  | cons x k r ihk ihr =>
    intro par prev first la par2 prev2 la2 f2 hr hr2
    cases f2 with
    | nil =>
      have h1 := hr.1
      have h2 := hr2.1
      rw [h1] at h2
      cases h2
    | cons y k2 r2 =>
      obtain ⟨h1, _, _, hk, hrr⟩ := hr
      obtain ⟨h2, _, _, hk2, hrr2⟩ := hr2
      rw [h1] at h2
      cases h2
      rw [ihk hk hk2, ihr hrr hrr2]

/-- Below every node of a laid-out forest its children forest is laid out, and it is
smaller than the forest. -/
theorem Rep.kids_of_mem {h : Heap} {f : Forest} :
    ∀ {par prev first la : Ptr}, Rep h par prev f first la → ∀ y ∈ f.ids,
      ∃ k, Rep h (some y) none k (h y).FirstChild (h y).LastChild ∧ k.size < f.size := by
  induction f with
  | nil => intro _ _ _ _ _ y hy; simp [Forest.ids] at hy
  | cons x k r ihk ihr =>
    intro par prev first la hr y hy
    obtain ⟨_, _, _, hk, hrr⟩ := hr
    simp only [Forest.ids, List.mem_cons, List.mem_append] at hy
    rcases hy with rfl | hy | hy
    · exact ⟨k, hk, by simp [Forest.size]; omega⟩
    · obtain ⟨k2, h1, h2⟩ := ihk hk y hy
      exact ⟨k2, h1, by simp [Forest.size]; omega⟩
    · obtain ⟨k2, h1, h2⟩ := ihr hrr y hy
      exact ⟨k2, h1, by simp [Forest.size]; omega⟩

/-- No node is below itself. -/
theorem Rep.not_mem_kids {h : Heap} {x : Nat} {k : Forest}
    (hk : Rep h (some x) none k (h x).FirstChild (h x).LastChild) : x ∉ k.ids := by
  intro hx
  obtain ⟨k2, h1, h2⟩ := Rep.kids_of_mem hk x hx
  rw [Rep.forest_unique h1 hk] at h2
  exact Nat.lt_irrefl _ h2

/-- The parent of a node of a laid-out forest is the parent of the forest or a node of
the forest. -/
theorem Rep.parent_cases {h : Heap} {f : Forest} :
    ∀ {par prev first la : Ptr}, Rep h par prev f first la → ∀ y ∈ f.ids,
      (h y).Parent = par ∨ ∃ q ∈ f.ids, (h y).Parent = some q := by
  induction f with
  | nil => intro _ _ _ _ _ y hy; simp [Forest.ids] at hy
  | cons x k r ihk ihr =>
    intro par prev first la hr y hy
    obtain ⟨_, hp, _, hk, hrr⟩ := hr
    simp only [Forest.ids, List.mem_cons, List.mem_append] at hy
    rcases hy with rfl | hy | hy
    · exact Or.inl hp
    · rcases ihk hk y hy with e | ⟨q, hq, e⟩
      · exact Or.inr ⟨x, by simp [Forest.ids], e⟩
      · exact Or.inr ⟨q, by simp [Forest.ids, hq], e⟩
    · rcases ihr hrr y hy with e | ⟨q, hq, e⟩
      · exact Or.inl e
      · exact Or.inr ⟨q, by simp [Forest.ids, hq], e⟩

/-- A node of a laid-out forest is a top-level one, whose `Prev` is the `prev` of the
forest or a node of the forest, or it has its parent in the forest. -/
theorem Rep.prev_or_parent {h : Heap} {f : Forest} :
    ∀ {par prev first la : Ptr}, Rep h par prev f first la → ∀ y ∈ f.ids,
      ((h y).Prev = prev ∨ ∃ z ∈ f.ids, (h y).Prev = some z) ∨
        ∃ q ∈ f.ids, (h y).Parent = some q := by
  induction f with
  | nil => intro _ _ _ _ _ y hy; simp [Forest.ids] at hy
  | cons x k r ihk ihr =>
    intro par prev first la hr y hy
    obtain ⟨_, hp, hv, hk, hrr⟩ := hr
    simp only [Forest.ids, List.mem_cons, List.mem_append] at hy
    rcases hy with rfl | hy | hy
    · exact Or.inl (Or.inl hv)
    · rcases Rep.parent_cases hk y hy with e | ⟨q, hq, e⟩
      · exact Or.inr ⟨x, by simp [Forest.ids], e⟩
      · exact Or.inr ⟨q, by simp [Forest.ids, hq], e⟩
    · rcases ihr hrr y hy with (e | ⟨z, hz, e⟩) | ⟨q, hq, e⟩
      · exact Or.inl (Or.inr ⟨x, by simp [Forest.ids], e⟩)
      · exact Or.inl (Or.inr ⟨z, by simp [Forest.ids, hz], e⟩)
      · exact Or.inr ⟨q, by simp [Forest.ids, hq], e⟩

/-- A forest laid out below a node outside a set that is closed under parents (up to
`par`) has no node in that set. -/
theorem Rep.disjoint_of_closed {h : Heap} {S : List Nat} {par : Ptr}
    (hS : ∀ y ∈ S, (h y).Parent = par ∨ ∃ q ∈ S, (h y).Parent = some q) {g : Forest} :
    ∀ {p : Nat} {prev first la : Ptr}, Rep h (some p) prev g first la → p ∉ S →
      par ≠ some p → (∀ w ∈ g.ids, par ≠ some w) → ∀ y ∈ g.ids, y ∉ S := by
  induction g with
  | nil => intro _ _ _ _ _ _ _ _ y hy; simp [Forest.ids] at hy
  | cons z k r ihk ihr =>
    intro p prev first la hr hp hpar hw y hy
    obtain ⟨_, hzp, _, hk, hrr⟩ := hr
    have hz : z ∉ S := by
      intro hz
      rcases hS z hz with e | ⟨q, hq, e⟩
      · rw [hzp] at e
        exact hpar e.symm
      · rw [hzp] at e
        cases e
        exact hp hq
    simp only [Forest.ids, List.mem_cons, List.mem_append] at hy
    rcases hy with rfl | hy | hy
    · exact hz
    · exact ihk hk hz (hw z (by simp [Forest.ids]))
        (fun w hw2 => hw w (by simp [Forest.ids, hw2])) y hy
    · exact ihr hrr hp hpar (fun w hw2 => hw w (by simp [Forest.ids, hw2])) y hy

/-- The nodes of a laid-out forest are distinct, when neither its `prev` nor its
parent is one of them. -/
theorem Rep.ids_nodup {h : Heap} {f : Forest} :
    ∀ {par prev first la : Ptr}, Rep h par prev f first la →
      (∀ a, prev = some a → a ∉ f.ids) → (∀ a, par = some a → a ∉ f.ids) →
      f.ids.Nodup := by
  induction f with
  | nil => intro _ _ _ _ _ _ _; simp [Forest.ids]
  | cons x k r ihk ihr =>
    intro par prev first la hr hprev hpar
    have hr0 := hr
    obtain ⟨_, hxp, hxv, hk, hrr⟩ := hr
    have hxk : x ∉ k.ids := Rep.not_mem_kids hk
    have hxr : x ∉ r.ids := by
      intro hx
      rcases Rep.prev_or_parent hrr x hx with (e | ⟨z, hz, e⟩) | ⟨q, hq, e⟩
      · exact hprev x (hxv.symm.trans e) (by simp [Forest.ids])
      · exact hprev z (hxv.symm.trans e) (by simp [Forest.ids, hz])
      · exact hpar q (hxp.symm.trans e) (by simp [Forest.ids, hq])
    have hparx : par ≠ some x := fun e => hpar x e (by simp [Forest.ids])
    have hdisj : ∀ y ∈ k.ids, y ∉ r.ids :=
      Rep.disjoint_of_closed (fun y hy => Rep.parent_cases hrr y hy) hk hxr hparx
        (fun w hw e => hpar w e (by simp [Forest.ids, hw]))
    have hkn : k.ids.Nodup := ihk hk (by simp) (fun a ha => by cases ha; exact hxk)
    have hrn : r.ids.Nodup := ihr hrr (fun a ha => by cases ha; exact hxr)
      (fun a ha hm => hpar a ha (by simp [Forest.ids, hm]))
    simp only [Forest.ids, List.nodup_cons, List.mem_append, not_or, List.nodup_append]
    exact ⟨⟨hxk, hxr⟩, hkn, hrn, fun y hy hy2 => hdisj y hy hy2⟩

/-- The nodes of a finite tree are distinct. -/
theorem tree_nodup_of_rep {h : Heap} {n : Nat} {kids : Forest}
    (hk : Rep h (some n) none kids (h n).FirstChild (h n).LastChild) :
    (n :: kids.ids).Nodup := by
  have hn : n ∉ kids.ids := Rep.not_mem_kids hk
  exact List.nodup_cons.2 ⟨hn, Rep.ids_nodup hk (by simp) (fun a ha => by cases ha; exact hn)⟩

/-! ## The loop of `Walk` -/

theorem Walk.iter_returned (h : Heap) (v : NodeVisitor) (s : WalkState)
    (hs : s.phase = .returned) : Walk.iter h v s = s := by
  simp [Walk.iter, hs]

theorem Walk.iterate_returned (h : Heap) (v : NodeVisitor) (s : WalkState)
    (hs : s.phase = .returned) (m : Nat) : (Walk.iter h v)^[m] s = s := by
  induction m with
  | zero => rfl
  | succ m ih => rw [Function.iterate_succ_apply', ih, Walk.iter_returned h v s hs]

/-- The walker after `w.next()` inside the loop: `current` is not nil there. -/
theorem Walk.advance_calls (h : Heap) (w : nodeWalker) (calls : List Event) :
    (Walk.advance h w calls).calls = calls := by
  unfold Walk.advance
  cases w.next h <;> rfl

/-- One turn of the loop makes at most one visitor call, and which call it makes
does not depend on the visitor. -/
theorem Walk.iter_calls (h : Heap) (v : NodeVisitor) (s : WalkState) :
    (Walk.iter h v s).calls =
      match s.phase, s.w.current with
      | .running, some c => s.calls ++ [(c, s.w.entering)]
      | _, _ => s.calls := by
  unfold Walk.iter
  cases hp : s.phase <;> simp only []
  cases hc : s.w.current <;> simp only []
  split_ifs <;> simp [Walk.advance_calls]

theorem Walk.iter_calls_indep (h : Heap) (v v2 : NodeVisitor) (s : WalkState) :
    (Walk.iter h v s).calls = (Walk.iter h v2 s).calls := by
  rw [Walk.iter_calls, Walk.iter_calls]

theorem Walk.iter_calls_prefix (h : Heap) (v : NodeVisitor) (s : WalkState) :
    s.calls <+: (Walk.iter h v s).calls := by
  rw [Walk.iter_calls]
  split
  · exact List.prefix_append _ _
  · exact List.prefix_refl _

theorem Walk.iter_calls_length (h : Heap) (v : NodeVisitor) (s : WalkState) :
    (Walk.iter h v s).calls.length ≤ s.calls.length + 1 := by
  rw [Walk.iter_calls]
  split <;> simp

theorem Walk.iterate_calls_prefix (h : Heap) (v : NodeVisitor) (s : WalkState) (m : Nat) :
    s.calls <+: ((Walk.iter h v)^[m] s).calls := by
  induction m with
  | zero => exact List.prefix_refl _
  | succ m ih =>
    rw [Function.iterate_succ_apply']
    exact ih.trans (Walk.iter_calls_prefix h v _)

theorem Walk.calls_length_le (h : Heap) (n : Ptr) (v : NodeVisitor) (j : Nat) :
    (Walk h n v j).calls.length ≤ j := by
  induction j with
  | zero => simp [Walk]
  | succ j ih =>
    unfold Walk at ih ⊢
    rw [Function.iterate_succ_apply']
    exact (Walk.iter_calls_length h v _).trans (by omega)

theorem Walk.succ (h : Heap) (n : Ptr) (v : NodeVisitor) (j : Nat) :
    Walk h n v (j + 1) = Walk.iter h v (Walk h n v j) := by
  unfold Walk
  rw [Function.iterate_succ_apply']

theorem Walk.add (h : Heap) (n : Ptr) (v : NodeVisitor) (j m : Nat) :
    Walk h n v (j + m) = (Walk.iter h v)^[m] (Walk h n v j) := by
  unfold Walk
  rw [Nat.add_comm, Function.iterate_add_apply]

/-- Two visitors that agree on the call a turn makes take that turn alike. -/
theorem Walk.iter_congr (h : Heap) (v v2 : NodeVisitor) (s : WalkState)
    (hv : ∀ c, s.w.current = some c →
      v (s.calls ++ [(c, s.w.entering)]) = v2 (s.calls ++ [(c, s.w.entering)])) :
    Walk.iter h v s = Walk.iter h v2 s := by
  unfold Walk.iter
  cases hp : s.phase <;> simp only []
  cases hc : s.w.current <;> simp only []
  rw [hv _ hc]

/-- A turn that makes a call which the visitor answers with `Terminate` returns. -/
theorem Walk.iter_terminate (h : Heap) (v : NodeVisitor) (s : WalkState)
    (hlen : (Walk.iter h v s).calls.length = s.calls.length + 1)
    (ht : v (Walk.iter h v s).calls = Terminate) :
    (Walk.iter h v s).phase = .returned := by
  have hc := Walk.iter_calls h v s
  cases hp : s.phase with
  | running =>
    cases hcur : s.w.current with
    | none =>
      rw [hp, hcur] at hc
      simp only [] at hc
      rw [hc] at hlen
      omega
    | some c =>
      rw [hp, hcur] at hc
      simp only [] at hc
      rw [hc] at ht
      unfold Walk.iter
      simp only [hp, hcur]
      rw [ht]
      simp [Terminate, GoToNext, SkipChildren]
  | returned =>
    rw [hp] at hc
    simp only [] at hc
    rw [hc] at hlen
    omega
  | panicked =>
    rw [hp] at hc
    simp only [] at hc
    rw [hc] at hlen
    omega

/-! ## `Terminate` -/

/-- C4: for every store, every root and every visitor: if the `k`-th visitor call
`Walk` makes (the one made in the `k`-th turn of its loop) returns `Terminate`,
then `Walk` returns with exactly these `k` calls made, whatever fuel it is given
beyond `k`, so no visitor call follows, no exit event either; and the walk in which
that one call returns `GoToNext` instead starts with the same `k` calls. -/
theorem C4_terminate_stops (h : Heap) (n : Ptr) (v : NodeVisitor) (k : Nat) (hk : 1 ≤ k)
    (hcall : (Walk h n v k).calls.length = k)
    (hterm : v (Walk h n v k).calls = Terminate) :
    (∀ fuel, k ≤ fuel →
      (Walk h n v fuel).calls = (Walk h n v k).calls ∧
      (Walk h n v fuel).calls.length = k ∧
      (Walk h n v fuel).phase = .returned) ∧
    (∀ fuel, k ≤ fuel →
      (Walk h n (Function.update v (Walk h n v k).calls GoToNext) fuel).calls.take k
        = (Walk h n v k).calls) := by
  obtain ⟨j, rfl⟩ : ∃ j, k = j + 1 := ⟨k - 1, by omega⟩
  have hsj := Walk.calls_length_le h n v j
  have hstep := Walk.iter_calls_length h v (Walk h n v j)
  rw [Walk.succ] at hcall hterm
  have hlen : (Walk.iter h v (Walk h n v j)).calls.length = (Walk h n v j).calls.length + 1 := by
    omega
  have hret := Walk.iter_terminate h v _ hlen hterm
  constructor
  · intro fuel hf
    obtain ⟨m, rfl⟩ : ∃ m, fuel = j + 1 + m := ⟨fuel - (j + 1), by omega⟩
    rw [Walk.add, Walk.succ, Walk.iterate_returned h v _ hret]
    exact ⟨rfl, hcall, hret⟩
  · intro fuel hf
    obtain ⟨m, rfl⟩ : ∃ m, fuel = j + 1 + m := ⟨fuel - (j + 1), by omega⟩
    rw [Walk.succ]
    generalize hv2 : Function.update v (Walk.iter h v (Walk h n v j)).calls GoToNext = v2
    have hagree : ∀ l : List Event, l.length ≤ j → v2 l = v l := by
      intro l hl
      rw [← hv2]
      refine Function.update_noteq ?_ _ _
      intro e
      rw [e] at hl
      omega
    have hsame : ∀ i, i ≤ j → Walk h n v2 i = Walk h n v i := by
      intro i
      induction i with
      | zero => intro _; rfl
      | succ i ih =>
        intro hi
        rw [Walk.succ, Walk.succ, ih (by omega)]
        refine Walk.iter_congr h v2 v _ ?_
        intro c _
        refine hagree _ ?_
        have := Walk.calls_length_le h n v i
        simp only [List.length_append, List.length_singleton]
        omega
    have hpre : (Walk.iter h v (Walk h n v j)).calls <+: (Walk h n v2 (j + 1 + m)).calls := by
      rw [Walk.add, Walk.succ, hsame j (le_refl j), Walk.iter_calls_indep h v v2]
      exact Walk.iterate_calls_prefix h v2 _ m
    have := List.prefix_iff_eq_take.1 hpre
    rw [hcall] at this
    exact this.symm

/-- C4, on Document > Paragraph > Text with a visitor that terminates when it
enters the Paragraph: two calls, and the Document gets no exit event. -/
theorem C4_terminate_stops_witness :
    (∀ fuel, 2 ≤ fuel →
      (Walk docHeap (some 0) (terminateAt 1) fuel).calls = [(0, true), (1, true)] ∧
      (Walk docHeap (some 0) (terminateAt 1) fuel).calls.length = 2 ∧
      (Walk docHeap (some 0) (terminateAt 1) fuel).phase = .returned) ∧
    (∀ fuel, 2 ≤ fuel →
      (Walk docHeap (some 0)
        (Function.update (terminateAt 1) (Walk docHeap (some 0) (terminateAt 1) 2).calls
          GoToNext) fuel).calls.take 2 = [(0, true), (1, true)]) :=
  C4_terminate_stops docHeap (some 0) (terminateAt 1) 2 (by decide) (by decide) (by decide)

theorem trav_cons_term (h : Heap) (v : NodeVisitor) (x : Nat) (k r : Forest)
    (hist : List Event) (ht : v (hist ++ [(x, true)]) = Terminate) :
    travForest h v (.cons x k r) hist = ([(x, true)], true) := by
  simp only [travForest, ht, if_true]

theorem trav_cons_kids_term (h : Heap) (v : NodeVisitor) (x : Nat) (k r : Forest)
    (hist : List Event) (hnt : v (hist ++ [(x, true)]) ≠ Terminate)
    (hd : v (hist ++ [(x, true)]) = GoToNext ∧ isContainer (h x) = true)
    (hk : (travForest h v k (hist ++ [(x, true)])).2 = true) :
    travForest h v (.cons x k r) hist
      = ((x, true) :: (travForest h v k (hist ++ [(x, true)])).1, true) := by
  simp only [travForest, if_neg hnt, if_pos hd, hk, if_true]

theorem trav_cons_exit_term (h : Heap) (v : NodeVisitor) (x : Nat) (k r : Forest)
    (hist : List Event) (hnt : v (hist ++ [(x, true)]) ≠ Terminate)
    (hd : v (hist ++ [(x, true)]) = GoToNext ∧ isContainer (h x) = true)
    (hk : (travForest h v k (hist ++ [(x, true)])).2 = false)
    (ht : v (hist ++ (x, true) :: ((travForest h v k (hist ++ [(x, true)])).1
      ++ [(x, false)])) = Terminate) :
    travForest h v (.cons x k r) hist
      = ((x, true) :: ((travForest h v k (hist ++ [(x, true)])).1 ++ [(x, false)]), true) := by
  simp only [travForest, if_neg hnt, if_pos hd, hk, ht, if_true]
  simp

theorem trav_cons_exit_next (h : Heap) (v : NodeVisitor) (x : Nat) (k r : Forest)
    (hist : List Event) (hnt : v (hist ++ [(x, true)]) ≠ Terminate)
    (hd : v (hist ++ [(x, true)]) = GoToNext ∧ isContainer (h x) = true)
    (hk : (travForest h v k (hist ++ [(x, true)])).2 = false)
    (ht : v (hist ++ (x, true) :: ((travForest h v k (hist ++ [(x, true)])).1
      ++ [(x, false)])) ≠ Terminate) :
    travForest h v (.cons x k r) hist
      = ((x, true) :: ((travForest h v k (hist ++ [(x, true)])).1 ++ (x, false) ::
          (travForest h v r (hist ++ (x, true) ::
            ((travForest h v k (hist ++ [(x, true)])).1 ++ [(x, false)]))).1),
        (travForest h v r (hist ++ (x, true) ::
            ((travForest h v k (hist ++ [(x, true)])).1 ++ [(x, false)]))).2) := by
  simp only [travForest, if_neg hnt, if_pos hd, hk, if_neg ht]
  simp

theorem trav_cons_pass (h : Heap) (v : NodeVisitor) (x : Nat) (k r : Forest)
    (hist : List Event) (hnt : v (hist ++ [(x, true)]) ≠ Terminate)
    (hd : ¬(v (hist ++ [(x, true)]) = GoToNext ∧ isContainer (h x) = true)) :
    travForest h v (.cons x k r) hist
      = ((x, true) :: (travForest h v r (hist ++ [(x, true)])).1,
        (travForest h v r (hist ++ [(x, true)])).2) := by
  simp only [travForest, if_neg hnt, if_neg hd]

theorem Walk.iter_at (h : Heap) (v : NodeVisitor) (c : Nat) (rt : Ptr) (e : Bool)
    (calls : List Event) :
    Walk.iter h v ⟨⟨some c, rt, e⟩, calls, .running⟩ =
      if v (calls ++ [(c, e)]) = GoToNext then
        Walk.advance h ⟨some c, rt, e⟩ (calls ++ [(c, e)])
      else if v (calls ++ [(c, e)]) = SkipChildren then
        Walk.advance h ⟨some c, rt, false⟩ (calls ++ [(c, e)])
      else if v (calls ++ [(c, e)]) = Terminate then
        ⟨⟨some c, rt, e⟩, calls ++ [(c, e)], .returned⟩
      else
        ⟨⟨some c, rt, e⟩, calls ++ [(c, e)], .running⟩ :=
  rfl

/-- `next` on the entering side of a container: down to the children. -/
theorem next_descend (h : Heap) (x rt : Nat) (k : Forest)
    (hc : isContainer (h x) = true)
    (hk : Rep h (some x) none k (h x).FirstChild (h x).LastChild) :
    nodeWalker.next h ⟨some x, some rt, true⟩
      = some (entry k x (some rt)) := by
  cases k with
  | nil =>
    obtain ⟨hf, _⟩ := hk
    simp [nodeWalker.next, hc, hf, entry]
  | cons y k2 r2 =>
    obtain ⟨hf, _⟩ := hk
    simp [nodeWalker.next, hc, hf, entry]

/-- `next` when the node is done (a leaf, or a container on its exiting side) and is
not the root: on to the siblings that remain, or up to the parent. -/
theorem next_sibling (h : Heap) (x rt p : Nat) (e : Bool) (r : Forest) (la : Ptr)
    (hx : x ≠ rt) (hdone : isContainer (h x) = false ∨ e = false)
    (hp : (h x).Parent = some p)
    (hr : Rep h (some p) (some x) r (h x).Next la) :
    nodeWalker.next h ⟨some x, some rt, e⟩
      = some (entry r p (some rt)) := by
  cases r with
  | nil =>
    obtain ⟨hf, _⟩ := hr
    rcases hdone with hd | hd <;> simp [nodeWalker.next, hd, hx, hf, hp, entry]
  | cons y k2 r2 =>
    obtain ⟨hf, _⟩ := hr
    rcases hdone with hd | hd <;> simp [nodeWalker.next, hd, hx, hf, hp, entry]

/-- `next` when the root is done: the walk is over. -/
theorem next_root_done (h : Heap) (x : Nat) (e : Bool)
    (hdone : isContainer (h x) = false ∨ e = false) :
    nodeWalker.next h ⟨some x, some x, e⟩
      = some ⟨none, some x, e⟩ := by
  rcases hdone with hd | hd <;> simp [nodeWalker.next, hd]

theorem status_cases {v : NodeVisitor} (hv : ValidVisitor v) (l : List Event) :
    v l = Terminate ∨ (v l ≠ Terminate ∧ (v l = GoToNext ∨ v l = SkipChildren)) := by
  rcases hv l with e | e | e
  · exact Or.inr ⟨by rw [e]; decide, Or.inl e⟩
  · exact Or.inr ⟨by rw [e]; decide, Or.inr e⟩
  · exact Or.inl e

/-- What the loop does on a forest: it makes the calls of `travForest` and then
stands at the parent, exiting, unless the visitor terminated the walk. -/
theorem walk_forest (h : Heap) (v : NodeVisitor) (hv : ValidVisitor v) (rt p : Nat)
    (f : Forest) :
    ∀ (prev first last : Ptr) (hist : List Event),
      Rep h (some p) prev f first last → rt ∉ f.ids →
      ((travForest h v f hist).2 = false →
        (Walk.iter h v)^[(travForest h v f hist).1.length]
            ⟨entry f p (some rt), hist, .running⟩ =
          ⟨⟨some p, some rt, false⟩, hist ++ (travForest h v f hist).1, .running⟩) ∧
      ((travForest h v f hist).2 = true →
        ∃ w, (Walk.iter h v)^[(travForest h v f hist).1.length]
            ⟨entry f p (some rt), hist, .running⟩ =
          ⟨w, hist ++ (travForest h v f hist).1, .returned⟩) := by
  induction f generalizing p with
  | nil =>
    intro prev first last hist _ _
    simp [travForest, entry]
  | cons x k r ihk ihr =>
    intro prev first last hist hrep hrt
    obtain ⟨_, hpar, _, hk, hr⟩ := hrep
    have hx : x ≠ rt := fun e => hrt (by simp [Forest.ids, e])
    have hrtk : rt ∉ k.ids := fun hm => hrt (by simp [Forest.ids, hm])
    have hrtr : rt ∉ r.ids := fun hm => hrt (by simp [Forest.ids, hm])
    rcases status_cases hv (hist ++ [(x, true)]) with ht | ⟨hnt, hgs⟩
    · -- the visitor terminates on entering `x`
      rw [trav_cons_term h v x k r hist ht]
      refine ⟨fun e => (by simp at e), fun _ => ⟨⟨some x, some rt, true⟩, ?_⟩⟩
      show (Walk.iter h v)^[1] ⟨⟨some x, some rt, true⟩, hist, .running⟩ = _
      rw [Function.iterate_one, Walk.iter_at, ht]
      simp [Terminate, GoToNext, SkipChildren]
    · by_cases hdesc : v (hist ++ [(x, true)]) = GoToNext ∧ isContainer (h x) = true
      · -- the walker goes down to the children of `x`
        have hstep1 : Walk.iter h v ⟨entry (.cons x k r) p (some rt), hist, .running⟩ =
            ⟨entry k x (some rt), hist ++ [(x, true)], .running⟩ := by
          show Walk.iter h v ⟨⟨some x, some rt, true⟩, hist, .running⟩ = _
          rw [Walk.iter_at, if_pos hdesc.1]
          simp only [Walk.advance, next_descend h x rt k hdesc.2 hk]
        obtain ⟨ihk1, ihk2⟩ := ihk x none _ _ (hist ++ [(x, true)]) hk hrtk
        cases htk : (travForest h v k (hist ++ [(x, true)])).2 with
        | true =>
          obtain ⟨w, hw⟩ := ihk2 htk
          rw [trav_cons_kids_term h v x k r hist hnt hdesc htk]
          refine ⟨fun e => (by simp at e), fun _ => ⟨w, ?_⟩⟩
          simp only [List.length_cons]
          rw [Function.iterate_succ_apply, hstep1, hw]
          simp
        | false =>
          have hk1 := ihk1 htk
          have e : hist ++ [(x, true)] ++ (travForest h v k (hist ++ [(x, true)])).1 ++
              [(x, false)] = hist ++ (x, true) ::
              ((travForest h v k (hist ++ [(x, true)])).1 ++ [(x, false)]) := by simp
          rcases status_cases hv (hist ++ (x, true) ::
              ((travForest h v k (hist ++ [(x, true)])).1 ++ [(x, false)])) with ht2 | ⟨hnt2, hgs2⟩
          · -- the visitor terminates on exiting `x`
            rw [trav_cons_exit_term h v x k r hist hnt hdesc htk ht2]
            refine ⟨fun e => (by simp at e), fun _ => ⟨⟨some x, some rt, false⟩, ?_⟩⟩
            have hlen : ((x, true) :: ((travForest h v k (hist ++ [(x, true)])).1 ++
                [(x, false)])).length
                = (1 + (travForest h v k (hist ++ [(x, true)])).1.length) + 1 := by
              simp only [List.length_cons, List.length_append, List.length_nil]
              omega
            simp only [hlen]
            rw [Function.iterate_succ_apply, hstep1, Function.iterate_add_apply, hk1,
              Function.iterate_one, Walk.iter_at, e, ht2]
            simp [Terminate, GoToNext, SkipChildren]
          · -- the walker goes on to the siblings after `x`
            have hstep2 : Walk.iter h v ⟨⟨some x, some rt, false⟩,
                  hist ++ [(x, true)] ++ (travForest h v k (hist ++ [(x, true)])).1,
                  .running⟩ =
                ⟨entry r p (some rt), hist ++ (x, true) ::
                    ((travForest h v k (hist ++ [(x, true)])).1 ++ [(x, false)]),
                  .running⟩ := by
              rw [Walk.iter_at, e]
              have hn := next_sibling h x rt p false r last hx (Or.inr rfl) hpar hr
              rcases hgs2 with hg | hg
              · rw [if_pos hg]
                simp only [Walk.advance, hn]
              · rw [if_neg (by rw [hg]; decide), if_pos hg]
                simp only [Walk.advance, hn]
            obtain ⟨ihr1, ihr2⟩ := ihr p (some x) _ last (hist ++ (x, true) ::
              ((travForest h v k (hist ++ [(x, true)])).1 ++ [(x, false)])) hr hrtr
            rw [trav_cons_exit_next h v x k r hist hnt hdesc htk hnt2]
            have hlen : ((x, true) :: ((travForest h v k (hist ++ [(x, true)])).1 ++ (x, false) ::
                (travForest h v r (hist ++ (x, true) ::
                  ((travForest h v k (hist ++ [(x, true)])).1 ++ [(x, false)]))).1)).length
                = ((travForest h v r (hist ++ (x, true) ::
                  ((travForest h v k (hist ++ [(x, true)])).1 ++ [(x, false)]))).1.length + 1 +
                  (travForest h v k (hist ++ [(x, true)])).1.length) + 1 := by
              simp only [List.length_cons, List.length_append]
              omega
            simp only [hlen]
            rw [Function.iterate_succ_apply, hstep1, Function.iterate_add_apply, hk1,
              Function.iterate_succ_apply, hstep2]
            constructor
            · intro ht
              rw [ihr1 ht]
              simp
            · intro ht
              obtain ⟨w, hw⟩ := ihr2 ht
              exact ⟨w, by rw [hw]; simp⟩
      · -- `x` is a leaf, or the visitor skips its children
        have hstep1 : Walk.iter h v ⟨entry (.cons x k r) p (some rt), hist, .running⟩ =
            ⟨entry r p (some rt), hist ++ [(x, true)], .running⟩ := by
          show Walk.iter h v ⟨⟨some x, some rt, true⟩, hist, .running⟩ = _
          rw [Walk.iter_at]
          rcases hgs with hg | hg
          · have hleaf : isContainer (h x) = false := by
              cases hc : isContainer (h x) with
              | false => rfl
              | true => exact absurd ⟨hg, hc⟩ hdesc
            rw [if_pos hg]
            simp only [Walk.advance,
              next_sibling h x rt p true r last hx (Or.inl hleaf) hpar hr]
          · rw [if_neg (by rw [hg]; decide), if_pos hg]
            simp only [Walk.advance,
              next_sibling h x rt p false r last hx (Or.inr rfl) hpar hr]
        obtain ⟨ihr1, ihr2⟩ := ihr p (some x) _ last (hist ++ [(x, true)]) hr hrtr
        rw [trav_cons_pass h v x k r hist hnt hdesc]
        simp only [List.length_cons]
        rw [Function.iterate_succ_apply, hstep1]
        constructor
        · intro ht
          rw [ihr1 ht]
          simp
        · intro ht
          obtain ⟨w, hw⟩ := ihr2 ht
          exact ⟨w, by rw [hw]; simp⟩

theorem Walk.iter_done (h : Heap) (v : NodeVisitor) (rt : Ptr) (e : Bool)
    (calls : List Event) :
    Walk.iter h v ⟨⟨none, rt, e⟩, calls, .running⟩ = ⟨⟨none, rt, e⟩, calls, .returned⟩ :=
  rfl

/-- Once the loop has returned after `m` turns, more fuel changes nothing. -/
theorem Walk.stable (h : Heap) (n : Ptr) (v : NodeVisitor) (m : Nat) (w : nodeWalker)
    (calls : List Event) (hm : Walk h n v m = ⟨w, calls, .returned⟩) :
    ∀ fuel, m ≤ fuel → (Walk h n v fuel).calls = calls ∧
      (Walk h n v fuel).phase = .returned := by
  intro fuel hf
  obtain ⟨d, rfl⟩ : ∃ d, fuel = m + d := ⟨fuel - m, by omega⟩
  rw [Walk.add, hm, Walk.iterate_returned h v _ rfl]
  exact ⟨rfl, rfl⟩

/-- On a finite tree and under a visitor that returns the declared statuses,
`Walk` returns, and the calls it has made are those of the recursive traversal. -/
theorem walk_tree (h : Heap) (v : NodeVisitor) (hv : ValidVisitor v) (n : Nat)
    (kids : Forest) (ht : IsTree h n kids) :
    ∀ fuel, (travTree h v n kids).length + 1 ≤ fuel →
      (Walk h (some n) v fuel).calls = travTree h v n kids ∧
      (Walk h (some n) v fuel).phase = .returned := by
  have hrep : Rep h (some n) none kids (h n).FirstChild (h n).LastChild := ht
  have hn : n ∉ kids.ids := Rep.not_mem_kids hrep
  have key : ∃ m w, m ≤ (travTree h v n kids).length + 1 ∧
      Walk h (some n) v m = ⟨w, travTree h v n kids, .returned⟩ := by
    have h0 : ∀ m, Walk h (some n) v (m + 1)
        = (Walk.iter h v)^[m] (Walk.iter h v ⟨⟨some n, some n, true⟩, [], .running⟩) := by
      intro m
      unfold Walk
      rw [Function.iterate_succ_apply]
      rfl
    have hat := Walk.iter_at h v n (some n) true []
    simp only [List.nil_append] at hat
    rcases status_cases hv [(n, true)] with ht | ⟨hnt, hgs⟩
    · refine ⟨1, ⟨some n, some n, true⟩, by omega, ?_⟩
      rw [h0 0, Function.iterate_zero, id, hat, ht]
      simp [travTree, ht, Terminate, GoToNext, SkipChildren]
    · by_cases hdesc : v [(n, true)] = GoToNext ∧ isContainer (h n) = true
      · have hstep1 : Walk.iter h v ⟨⟨some n, some n, true⟩, [], .running⟩
            = ⟨entry kids n (some n), [(n, true)], .running⟩ := by
          rw [hat, if_pos hdesc.1]
          simp only [Walk.advance, next_descend h n n kids hdesc.2 hrep]
        obtain ⟨hk1, hk2⟩ := walk_forest h v hv n n kids none _ _ [(n, true)] hrep hn
        cases htk : (travForest h v kids [(n, true)]).2 with
        | true =>
          obtain ⟨w, hw⟩ := hk2 htk
          have htt : travTree h v n kids = (n, true) :: (travForest h v kids [(n, true)]).1 := by
            simp only [travTree, if_neg hnt, if_pos hdesc, htk, if_true]
          refine ⟨(travForest h v kids [(n, true)]).1.length + 1, w, ?_, ?_⟩
          · rw [htt, List.length_cons]
            omega
          · rw [h0, hstep1, hw, htt]
            simp
        | false =>
          have hk := hk1 htk
          have htt : travTree h v n kids
              = (n, true) :: ((travForest h v kids [(n, true)]).1 ++ [(n, false)]) := by
            simp only [travTree, if_neg hnt, if_pos hdesc, htk]
            simp
          have hlen : (travTree h v n kids).length
              = (travForest h v kids [(n, true)]).1.length + 2 := by
            rw [htt]
            simp
          have hat2 := Walk.iter_at h v n (some n) false
            ([(n, true)] ++ (travForest h v kids [(n, true)]).1)
          have e : [(n, true)] ++ (travForest h v kids [(n, true)]).1 ++ [(n, false)]
              = travTree h v n kids := by
            rw [htt]
            simp
          rw [e] at hat2
          rcases status_cases hv (travTree h v n kids) with ht2 | ⟨hnt2, hgs2⟩
          · refine ⟨(1 + (travForest h v kids [(n, true)]).1.length) + 1,
              ⟨some n, some n, false⟩, by omega, ?_⟩
            rw [h0, hstep1, Function.iterate_add_apply, hk, Function.iterate_one, hat2, ht2]
            simp [Terminate, GoToNext, SkipChildren]
          · refine ⟨(1 + (1 + (travForest h v kids [(n, true)]).1.length)) + 1,
              ⟨none, some n, false⟩, by omega, ?_⟩
            rw [h0, hstep1, Function.iterate_add_apply, Function.iterate_add_apply, hk,
              Function.iterate_one, hat2]
            have hnx := next_root_done h n false (Or.inr rfl)
            rcases hgs2 with hg | hg
            · rw [if_pos hg]
              simp only [Walk.advance, hnx, Walk.iter_done]
            · rw [if_neg (by rw [hg]; decide), if_pos hg]
              simp only [Walk.advance, hnx, Walk.iter_done]
      · have htt : travTree h v n kids = [(n, true)] := by
          simp only [travTree, if_neg hnt, if_neg hdesc]
        rcases hgs with hg | hg
        · have hleaf : isContainer (h n) = false := by
            cases hc : isContainer (h n) with
            | false => rfl
            | true => exact absurd ⟨hg, hc⟩ hdesc
          refine ⟨2, ⟨none, some n, true⟩, by rw [htt]; simp, ?_⟩
          rw [h0 1, Function.iterate_one, hat, if_pos hg, htt]
          simp only [Walk.advance, next_root_done h n true (Or.inl hleaf), Walk.iter_done]
        · refine ⟨2, ⟨none, some n, false⟩, by rw [htt]; simp, ?_⟩
          rw [h0 1, Function.iterate_one, hat, if_neg (by rw [hg]; decide), if_pos hg, htt]
          simp only [Walk.advance, next_root_done h n false (Or.inr rfl), Walk.iter_done]
  obtain ⟨m, w, hm, hw⟩ := key
  intro fuel hf
  exact Walk.stable h (some n) v m w _ hw fuel (by omega)

theorem alwaysGoToNext_valid : ValidVisitor alwaysGoToNext :=
  fun _ => Or.inl rfl

theorem skipAt_valid (c : Nat) : ValidVisitor (skipAt c) := by
  intro hist
  unfold skipAt
  split_ifs
  · exact Or.inr (Or.inl rfl)
  · exact Or.inl rfl

/-- Under the visitor that always returns `GoToNext` the traversal of a forest is the
recursive two-phase traversal. -/
theorem travForest_alwaysGoToNext (h : Heap) (f : Forest) :
    ∀ hist, travForest h alwaysGoToNext f hist = (recForest h f, false) := by
  induction f with
  | nil => intro hist; rfl
  | cons x k r ihk ihr =>
    intro hist
    have hnt : ∀ l, alwaysGoToNext l ≠ Terminate := fun l => by simp [alwaysGoToNext, GoToNext, Terminate]
    by_cases hc : isContainer (h x) = true
    · rw [trav_cons_exit_next h _ x k r hist (hnt _) ⟨rfl, hc⟩ (by rw [ihk]) (hnt _)]
      rw [ihk, ihr]
      simp [recForest, recNode, hc]
    · rw [trav_cons_pass h _ x k r hist (hnt _) (fun e => hc e.2)]
      rw [ihr]
      simp [recForest, recNode, hc]

/-- The traversal of a tree is the traversal of the forest that holds just its root. -/
theorem travTree_eq (h : Heap) (v : NodeVisitor) (n : Nat) (kids : Forest) :
    travTree h v n kids = (travForest h v (.cons n kids .nil) []).1 := by
  unfold travTree
  by_cases ht : v [(n, true)] = Terminate
  · rw [if_pos ht, trav_cons_term h v n kids .nil [] ht]
  · rw [if_neg ht]
    by_cases hd : v [(n, true)] = GoToNext ∧ isContainer (h n) = true
    · rw [if_pos hd]
      cases hk : (travForest h v kids [(n, true)]).2 with
      | true =>
        rw [trav_cons_kids_term h v n kids .nil [] ht hd hk]
        simp [hk]
      | false =>
        by_cases ht2 : v ([] ++ (n, true) :: ((travForest h v kids ([] ++ [(n, true)])).1
            ++ [(n, false)])) = Terminate
        · rw [trav_cons_exit_term h v n kids .nil [] ht hd hk ht2]
          simp [hk]
        · rw [trav_cons_exit_next h v n kids .nil [] ht hd hk ht2]
          simp [travForest, hk]
    · rw [if_neg hd, trav_cons_pass h v n kids .nil [] ht hd]
      simp [travForest]

/-! ## The walk with a visitor that always goes on -/

/-- C2: for every finite tree with root `n` (any node of a larger tree) and a
visitor that always returns `GoToNext`, `Walk(n, v)` returns, given fuel for one turn
more than there are events, and the visitor calls it has made are exactly the
events of the recursive two-phase traversal `rec(n)`: `[(x, true)]` for a node
that is not a container, `[(x, true)] ++ rec(c1) ++ ... ++ rec(ck) ++ [(x, false)]`
for a container with the children `c1..ck`. -/
theorem C2_walk_is_recursive_traversal (h : Heap) (n : Nat) (kids : Forest)
    (ht : IsTree h n kids) (fuel : Nat)
    (hf : (recNode h n (recForest h kids)).length + 1 ≤ fuel) :
    (Walk h (some n) alwaysGoToNext fuel).calls = recNode h n (recForest h kids) ∧
    (Walk h (some n) alwaysGoToNext fuel).phase = .returned := by
  have e : travTree h alwaysGoToNext n kids = recNode h n (recForest h kids) := by
    rw [travTree_eq, travForest_alwaysGoToNext]
    simp [recForest]
  have := walk_tree h alwaysGoToNext alwaysGoToNext_valid n kids ht fuel (by rw [e]; exact hf)
  rw [e] at this
  exact this

/-- C2, on Document > Paragraph > Text: (Document, true), (Paragraph, true),
(Text, true), (Paragraph, false), (Document, false). -/
theorem C2_walk_is_recursive_traversal_witness :
    IsTree docHeap 0 docKids ∧
    (Walk docHeap (some 0) alwaysGoToNext 6).calls
      = [(0, true), (1, true), (2, true), (1, false), (0, false)] ∧
    (Walk docHeap (some 0) alwaysGoToNext 6).phase = .returned :=
  ⟨by decide, C2_walk_is_recursive_traversal docHeap 0 docKids (by decide) 6 (by decide)⟩

/-! ## Which calls a traversal makes -/

/-- The calls of the traversal of `cons x k r`: the entering event of `x`; after a
`GoToNext` on it, calls of the traversal of the children and the exiting event of
`x`; and calls of the traversal of the siblings. -/
theorem trav_cons_mem (h : Heap) (v : NodeVisitor) (x : Nat) (k r : Forest)
    (hist : List Event) (e : Event) (he : e ∈ (travForest h v (.cons x k r) hist).1) :
    e = (x, true) ∨
    (v (hist ++ [(x, true)]) = GoToNext ∧
      (e ∈ (travForest h v k (hist ++ [(x, true)])).1 ∨ e = (x, false))) ∨
    ∃ hist2, e ∈ (travForest h v r hist2).1 := by
  by_cases ht : v (hist ++ [(x, true)]) = Terminate
  · rw [trav_cons_term h v x k r hist ht] at he
    simp at he
    exact Or.inl he
  · by_cases hd : v (hist ++ [(x, true)]) = GoToNext ∧ isContainer (h x) = true
    · cases hk : (travForest h v k (hist ++ [(x, true)])).2 with
      | true =>
        rw [trav_cons_kids_term h v x k r hist ht hd hk] at he
        rcases List.mem_cons.1 he with he | he
        · exact Or.inl he
        · exact Or.inr (Or.inl ⟨hd.1, Or.inl he⟩)
      | false =>
        by_cases ht2 : v (hist ++ (x, true) :: ((travForest h v k (hist ++ [(x, true)])).1
            ++ [(x, false)])) = Terminate
        · rw [trav_cons_exit_term h v x k r hist ht hd hk ht2] at he
          rcases List.mem_cons.1 he with he | he
          · exact Or.inl he
          · rcases List.mem_append.1 he with he | he
            · exact Or.inr (Or.inl ⟨hd.1, Or.inl he⟩)
            · exact Or.inr (Or.inl ⟨hd.1, Or.inr (List.mem_singleton.1 he)⟩)
        · rw [trav_cons_exit_next h v x k r hist ht hd hk ht2] at he
          rcases List.mem_cons.1 he with he | he
          · exact Or.inl he
          · rcases List.mem_append.1 he with he | he
            · exact Or.inr (Or.inl ⟨hd.1, Or.inl he⟩)
            · rcases List.mem_cons.1 he with he | he
              · exact Or.inr (Or.inl ⟨hd.1, Or.inr he⟩)
              · exact Or.inr (Or.inr ⟨_, he⟩)
    · rw [trav_cons_pass h v x k r hist ht hd] at he
      rcases List.mem_cons.1 he with he | he
      · exact Or.inl he
      · exact Or.inr (Or.inr ⟨_, he⟩)

/-- A traversal only calls the visitor on nodes of the forest. -/
theorem trav_ids (h : Heap) (v : NodeVisitor) (f : Forest) :
    ∀ hist, ∀ e ∈ (travForest h v f hist).1, e.1 ∈ f.ids := by
  induction f with
  | nil => intro hist e he; simp [travForest] at he
  | cons x k r ihk ihr =>
    intro hist e he
    rcases trav_cons_mem h v x k r hist e he with rfl | ⟨_, he | rfl⟩ | ⟨hist2, he⟩
    · simp [Forest.ids]
    · simp [Forest.ids, ihk _ e he]
    · simp [Forest.ids]
    · simp [Forest.ids, ihr _ e he]

theorem kidsOf_ids_subset (c : Nat) (f : Forest) : ∀ y ∈ (f.kidsOf c).ids, y ∈ f.ids := by
  induction f with
  | nil => intro y hy; simp [Forest.kidsOf, Forest.ids] at hy
  | cons x k r ihk ihr =>
    intro y hy
    unfold Forest.kidsOf at hy
    split_ifs at hy
    · simp [Forest.ids, hy]
    · simp [Forest.ids, ihk y hy]
    · simp [Forest.ids, ihr y hy]

theorem nodup_cons_forest {x : Nat} {k r : Forest} (hnd : (Forest.cons x k r).ids.Nodup) :
    x ∉ k.ids ∧ x ∉ r.ids ∧ k.ids.Nodup ∧ r.ids.Nodup ∧ ∀ y ∈ k.ids, y ∉ r.ids := by
  simp only [Forest.ids, List.nodup_cons, List.mem_append, not_or, List.nodup_append] at hnd
  obtain ⟨⟨h1, h2⟩, h3, h4, h5⟩ := hnd
  exact ⟨h1, h2, h3, h4, fun y hy hy2 => h5 hy hy2⟩

/-- Under a visitor that returns `SkipChildren` on the entering event of `c`, a
traversal calls the visitor neither on a node below `c` nor with the exiting event of
`c`. -/
theorem trav_skip (h : Heap) (v : NodeVisitor) (c : Nat)
    (hskip : ∀ hist, v (hist ++ [(c, true)]) = SkipChildren) (f : Forest) :
    f.ids.Nodup → ∀ hist, ∀ e ∈ (travForest h v f hist).1,
      e.1 ∉ (f.kidsOf c).ids ∧ e ≠ (c, false) := by
  induction f with
  | nil => intro _ hist e he; simp [travForest] at he
  | cons x k r ihk ihr =>
    intro hnd hist e he
    obtain ⟨hxk, hxr, hk, hr, hdisj⟩ := nodup_cons_forest hnd
    by_cases hxc : x = c
    · subst hxc
      have hK : (Forest.cons x k r).kidsOf x = k := by simp [Forest.kidsOf]
      rw [hK]
      have hs := hskip hist
      rcases trav_cons_mem h v x k r hist e he with rfl | ⟨hg, _⟩ | ⟨hist2, he⟩
      · exact ⟨hxk, by simp⟩
      · rw [hs] at hg
        exact absurd hg (by decide)
      · have hm := trav_ids h v r hist2 e he
        refine ⟨fun hm2 => hdisj _ hm2 hm, ?_⟩
        rintro rfl
        exact hxr hm
    · by_cases hck : c ∈ k.ids
      · have hK : (Forest.cons x k r).kidsOf c = k.kidsOf c := by
          simp [Forest.kidsOf, hxc, hck]
        rw [hK]
        rcases trav_cons_mem h v x k r hist e he with rfl | ⟨_, he | rfl⟩ | ⟨hist2, he⟩
        · exact ⟨fun hm => hxk (kidsOf_ids_subset c k _ hm), by simp [hxc]⟩
        · exact ihk hk _ e he
        · exact ⟨fun hm => hxk (kidsOf_ids_subset c k _ hm), by simp [hxc]⟩
        · have hm := trav_ids h v r hist2 e he
          refine ⟨fun hm2 => hdisj _ (kidsOf_ids_subset c k _ hm2) hm, ?_⟩
          rintro rfl
          exact hdisj _ hck hm
      · have hK : (Forest.cons x k r).kidsOf c = r.kidsOf c := by
          simp [Forest.kidsOf, hxc, hck]
        rw [hK]
        rcases trav_cons_mem h v x k r hist e he with rfl | ⟨_, he | rfl⟩ | ⟨hist2, he⟩
        · exact ⟨fun hm => hxr (kidsOf_ids_subset c r _ hm), by simp [hxc]⟩
        · have hm := trav_ids h v k _ e he
          refine ⟨fun hm2 => hdisj _ hm (kidsOf_ids_subset c r _ hm2), ?_⟩
          rintro rfl
          exact hck hm
        · exact ⟨fun hm => hxr (kidsOf_ids_subset c r _ hm), by simp [hxc]⟩
        · exact ihr hr _ e he

/-- The calls made within any number of turns are among those made when `Walk`
returns. -/
theorem Walk.calls_prefix_final (h : Heap) (n : Ptr) (v : NodeVisitor) (m : Nat)
    (hm : (Walk h n v m).phase = .returned) (fuel : Nat) :
    (Walk h n v fuel).calls <+: (Walk h n v m).calls := by
  by_cases hf : fuel ≤ m
  · obtain ⟨d, rfl⟩ : ∃ d, m = fuel + d := ⟨m - fuel, by omega⟩
    rw [Walk.add]
    exact Walk.iterate_calls_prefix h v _ d
  · obtain ⟨d, rfl⟩ : ∃ d, fuel = m + d := ⟨fuel - m, by omega⟩
    rw [Walk.add, Walk.iterate_returned h v _ hm]

/-- On a finite tree: every call `Walk` ever makes is a call of the recursive
traversal. -/
theorem walk_calls_mem (h : Heap) (v : NodeVisitor) (hv : ValidVisitor v) (n : Nat)
    (kids : Forest) (ht : IsTree h n kids) (fuel : Nat) :
    ∀ e ∈ (Walk h (some n) v fuel).calls,
      e ∈ (travForest h v (.cons n kids .nil) []).1 := by
  intro e he
  have hfin := walk_tree h v hv n kids ht _ (le_refl _)
  have hp := Walk.calls_prefix_final h (some n) v _ hfin.2 fuel
  rw [hfin.1, travTree_eq] at hp
  exact hp.subset he

theorem tree_nodup {h : Heap} {n : Nat} {kids : Forest} (ht : IsTree h n kids) :
    (Forest.cons n kids .nil).ids.Nodup := by
  have := tree_nodup_of_rep ht
  simpa [Forest.ids] using this

/-! ## `SkipChildren` -/

/-- C5: on a finite tree, if the visitor returns `SkipChildren` on the entering
event of `c` (and one of the three statuses on every other call, `GoToNext` on all
of them for one), then `Walk` never calls the visitor on a node below `c`. -/
theorem C5_skip_children_no_descendants (h : Heap) (n : Nat) (kids : Forest)
    (ht : IsTree h n kids) (v : NodeVisitor) (hv : ValidVisitor v) (c : Nat)
    (hskip : ∀ hist, v (hist ++ [(c, true)]) = SkipChildren) (fuel : Nat) :
    ∀ e ∈ (Walk h (some n) v fuel).calls, e.1 ∉ ((Forest.cons n kids .nil).kidsOf c).ids :=
  fun e he => (trav_skip h v c hskip _ (tree_nodup ht) [] e
    (walk_calls_mem h v hv n kids ht fuel e he)).1

theorem skipAt_skips (c : Nat) (hist : List Event) :
    skipAt c (hist ++ [(c, true)]) = SkipChildren := by
  simp [skipAt]

/-- C5, on Document > Paragraph > Text with `SkipChildren` on entering the
Paragraph: the Text below it is never visited. -/
theorem C5_skip_children_no_descendants_witness :
    IsTree docHeap 0 docKids ∧ ((Forest.cons 0 docKids .nil).kidsOf 1).ids = [2] ∧
    ∀ fuel, ∀ e ∈ (Walk docHeap (some 0) (skipAt 1) fuel).calls,
      e.1 ∉ ((Forest.cons 0 docKids .nil).kidsOf 1).ids :=
  ⟨by decide, by decide,
    C5_skip_children_no_descendants docHeap 0 docKids (by decide) (skipAt 1) (skipAt_valid 1) 1
      (skipAt_skips 1)⟩

/-- C6, the code at the failing input: on Document > Paragraph > Text, where the
Paragraph is a container with a child, the visitor that returns `SkipChildren` on
entering the Paragraph is called with (Document, true), (Paragraph, true),
(Document, false) and the walk returns; at no fuel is it called with
(Paragraph, false), the exit event the claim and the `NodeVisitor` comment promise.
Where the visitor returns `GoToNext` the exit is delivered: on the same tree, and
also for a container without children, where `next` sets `entering = false` and
stays on the node. -/
theorem C6_skip_children_drops_exit :
    IsTree docHeap 0 docKids ∧ isContainer (docHeap 1) = true ∧
    (docHeap 1).FirstChild = some 2 ∧
    skipAt 1 [(0, true), (1, true)] = SkipChildren ∧
    (Walk docHeap (some 0) (skipAt 1) 4).calls = [(0, true), (1, true), (0, false)] ∧
    (Walk docHeap (some 0) (skipAt 1) 4).phase = .returned ∧
    (∀ fuel, (1, false) ∉ (Walk docHeap (some 0) (skipAt 1) fuel).calls) ∧
    (Walk docHeap (some 0) alwaysGoToNext 6).calls
      = [(0, true), (1, true), (2, true), (1, false), (0, false)] ∧
    (Walk threeKids (some 0) alwaysGoToNext 9).calls
      = [(0, true), (1, true), (1, false), (2, true), (2, false), (3, true), (3, false),
          (0, false)] := by
  refine ⟨by decide, by decide, by decide, by decide, by decide, by decide, ?_, by decide,
    by decide⟩
  intro fuel hm
  have hp := Walk.calls_prefix_final docHeap (some 0) (skipAt 1) 4 (by decide) fuel
  have := hp.subset hm
  revert this
  decide

/-- The loss of the exit event is not confined to one tree: on every finite tree and
for every visitor that returns `SkipChildren` on the entering event of `c`, `Walk`
makes no call `(c, false)`, because its `SkipChildren` case sets `entering = false`
before it calls `next`. -/
theorem skip_children_exit_never (h : Heap) (n : Nat) (kids : Forest)
    (ht : IsTree h n kids) (v : NodeVisitor) (hv : ValidVisitor v) (c : Nat)
    (hskip : ∀ hist, v (hist ++ [(c, true)]) = SkipChildren) (fuel : Nat) :
    (c, false) ∉ (Walk h (some n) v fuel).calls :=
  fun he => (trav_skip h v c hskip _ (tree_nodup ht) [] _
    (walk_calls_mem h v hv n kids ht fuel _ he)).2 rfl

/-! ## The events of the recursive traversal, node by node -/

theorem rec_ids (h : Heap) (f : Forest) : ∀ e ∈ recForest h f, e.1 ∈ f.ids := by
  intro e he
  have := trav_ids h alwaysGoToNext f [] e
  rw [travForest_alwaysGoToNext] at this
  exact this he

theorem kidsOf_not_mem (c : Nat) (f : Forest) : f.ids.Nodup → c ∉ (f.kidsOf c).ids := by
  induction f with
  | nil => intro _; simp [Forest.kidsOf, Forest.ids]
  | cons x k r ihk ihr =>
    intro hnd
    obtain ⟨hxk, _, hk, hr, _⟩ := nodup_cons_forest hnd
    unfold Forest.kidsOf
    split_ifs with h1 h2
    · rw [← h1]
      exact hxk
    · exact ihk hk
    · exact ihr hr

theorem filter_eq_nil_of_ne (x : Nat) (l : List Event) (hl : ∀ e ∈ l, e.1 ≠ x) :
    l.filter (fun e => decide (e.1 = x)) = [] := by
  rw [List.filter_eq_nil_iff]
  intro e he
  simpa using hl e he

/-- In the recursive traversal of a forest with distinct nodes whose leaves have no
children, the events of a node `x` and of the nodes below it form one block: the
traversal of `x`. -/
theorem rec_split (h : Heap) (x : Nat) (f : Forest) :
    f.ids.Nodup → f.leavesBare h → x ∈ f.ids →
    ∃ pre post, recForest h f
        = pre ++ recNode h x (recForest h (f.kidsOf x)) ++ post ∧
      (∀ e ∈ pre, e.1 ≠ x ∧ e.1 ∉ (f.kidsOf x).ids) ∧
      (∀ e ∈ post, e.1 ≠ x ∧ e.1 ∉ (f.kidsOf x).ids) := by
  induction f with
  | nil => intro _ _ hx; simp [Forest.ids] at hx
  | cons y k r ihk ihr =>
    intro hnd hlb hx
    obtain ⟨hyk, hyr, hk, hr, hdisj⟩ := nodup_cons_forest hnd
    obtain ⟨hleaf, hlk, hlr⟩ := hlb
    by_cases hyx : y = x
    · subst hyx
      have hK : (Forest.cons y k r).kidsOf y = k := by simp [Forest.kidsOf]
      rw [hK]
      refine ⟨[], recForest h r, by simp [recForest], by simp, ?_⟩
      intro e he
      have hm := rec_ids h r e he
      exact ⟨fun e2 => hyr (e2 ▸ hm), fun hm2 => hdisj _ hm2 hm⟩
    · by_cases hxk : x ∈ k.ids
      · have hK : (Forest.cons y k r).kidsOf x = k.kidsOf x := by
          simp [Forest.kidsOf, hyx, hxk]
        rw [hK]
        have hc : isContainer (h y) = true := by
          cases hc : isContainer (h y) with
          | true => rfl
          | false =>
            rw [hleaf hc] at hxk
            simp [Forest.ids] at hxk
        obtain ⟨pre, post, e1, hpre, hpost⟩ := ihk hk hlk hxk
        refine ⟨(y, true) :: pre, post ++ (y, false) :: recForest h r, ?_, ?_, ?_⟩
        · simp only [recForest]
          rw [e1]
          simp [recNode, hc]
        · intro e he
          rcases List.mem_cons.1 he with rfl | he
          · exact ⟨hyx, fun hm => hyk (kidsOf_ids_subset x k _ hm)⟩
          · exact hpre e he
        · intro e he
          rcases List.mem_append.1 he with he | he
          · exact hpost e he
          · rcases List.mem_cons.1 he with rfl | he
            · exact ⟨hyx, fun hm => hyk (kidsOf_ids_subset x k _ hm)⟩
            · have hm := rec_ids h r e he
              exact ⟨fun e2 => hdisj _ hxk (e2 ▸ hm),
                fun hm2 => hdisj _ (kidsOf_ids_subset x k _ hm2) hm⟩
      · have hK : (Forest.cons y k r).kidsOf x = r.kidsOf x := by
          simp [Forest.kidsOf, hyx, hxk]
        rw [hK]
        have hxr : x ∈ r.ids := by
          simp only [Forest.ids, List.mem_cons, List.mem_append] at hx
          rcases hx with hx | hx | hx
          · exact absurd hx.symm hyx
          · exact absurd hx hxk
          · exact hx
        obtain ⟨pre, post, e1, hpre, hpost⟩ := ihr hr hlr hxr
        refine ⟨recNode h y (recForest h k) ++ pre, post, ?_, ?_, hpost⟩
        · simp only [recForest]
          rw [e1]
          simp
        · intro e he
          rcases List.mem_append.1 he with he | he
          · have hm : e.1 = y ∨ e.1 ∈ k.ids := by
              unfold recNode at he
              split_ifs at he
              · rcases List.mem_cons.1 he with rfl | he
                · exact Or.inl rfl
                · rcases List.mem_append.1 he with he | he
                  · exact Or.inr (rec_ids h k e he)
                  · rw [List.mem_singleton.1 he]
                    exact Or.inl rfl
              · rw [List.mem_singleton.1 he]
                exact Or.inl rfl
            rcases hm with hm | hm
            · rw [hm]
              exact ⟨hyx, fun hm2 => hyr (kidsOf_ids_subset x r _ hm2)⟩
            · exact ⟨fun e2 => hxk (e2 ▸ hm),
                fun hm2 => hdisj _ hm (kidsOf_ids_subset x r _ hm2)⟩
          · exact hpre e he

/-- C3: on a finite tree whose leaves have no children and with a visitor that always
returns `GoToNext`, for every node `x` of the tree: if `x` is a container, the calls
on `x` are exactly `(x, true)` then `(x, false)`, the calls between the two are the
traversal of the children of `x` (calls on nodes below `x` only), no call before or
after them is on a node below `x`, and when `x` has no children its exit event is
the very next call after its enter event; if `x` is not a container, the only call
on `x` is `(x, true)`. -/
theorem C3_walk_event_counts (h : Heap) (n : Nat) (kids : Forest) (ht : IsTree h n kids)
    (hl : (Forest.cons n kids .nil).leavesBare h) (fuel : Nat)
    (hf : (recNode h n (recForest h kids)).length + 1 ≤ fuel)
    (x : Nat) (hx : x ∈ n :: kids.ids) :
    (isContainer (h x) = true →
      (Walk h (some n) alwaysGoToNext fuel).calls.filter (fun e => decide (e.1 = x))
        = [(x, true), (x, false)] ∧
      ∃ pre post,
        (Walk h (some n) alwaysGoToNext fuel).calls
          = pre ++ (x, true) ::
            (recForest h ((Forest.cons n kids .nil).kidsOf x) ++ (x, false) :: post) ∧
        (∀ e ∈ recForest h ((Forest.cons n kids .nil).kidsOf x),
          e.1 ∈ ((Forest.cons n kids .nil).kidsOf x).ids) ∧
        (∀ e ∈ pre ++ post, e.1 ∉ ((Forest.cons n kids .nil).kidsOf x).ids) ∧
        ((Forest.cons n kids .nil).kidsOf x = .nil →
          (Walk h (some n) alwaysGoToNext fuel).calls
            = pre ++ (x, true) :: (x, false) :: post)) ∧
    (isContainer (h x) = false →
      (Walk h (some n) alwaysGoToNext fuel).calls.filter (fun e => decide (e.1 = x))
        = [(x, true)]) := by
  have hcalls : (Walk h (some n) alwaysGoToNext fuel).calls
      = recNode h n (recForest h kids) := by
    have e : travTree h alwaysGoToNext n kids = recNode h n (recForest h kids) := by
      rw [travTree_eq, travForest_alwaysGoToNext]
      simp [recForest]
    rw [← e]
    exact (walk_tree h alwaysGoToNext alwaysGoToNext_valid n kids ht fuel
      (by rw [e]; exact hf)).1
  have hrec : recNode h n (recForest h kids) = recForest h (.cons n kids .nil) := by
    simp [recForest]
  rw [hcalls, hrec]
  have hnd := tree_nodup ht
  have hx2 : x ∈ (Forest.cons n kids .nil).ids := by
    simpa [Forest.ids] using hx
  obtain ⟨pre, post, e1, hpre, hpost⟩ := rec_split h x _ hnd hl hx2
  have hmid := rec_ids h ((Forest.cons n kids .nil).kidsOf x)
  have hxmid : ∀ e ∈ recForest h ((Forest.cons n kids .nil).kidsOf x), e.1 ≠ x := by
    intro e he e2
    exact kidsOf_not_mem x _ hnd (e2 ▸ hmid e he)
  have fpre := filter_eq_nil_of_ne x pre (fun e he => (hpre e he).1)
  have fpost := filter_eq_nil_of_ne x post (fun e he => (hpost e he).1)
  have fmid := filter_eq_nil_of_ne x _ hxmid
  constructor
  · intro hc
    have e2 : recForest h (.cons n kids .nil) = pre ++ (x, true) ::
        (recForest h ((Forest.cons n kids .nil).kidsOf x) ++ (x, false) :: post) := by
      rw [e1]
      simp [recNode, hc]
    refine ⟨?_, pre, post, e2, hmid, ?_, ?_⟩
    · rw [e2]
      simp [List.filter_append, List.filter_cons, fpre, fpost, fmid]
    · intro e he
      rcases List.mem_append.1 he with he | he
      · exact (hpre e he).2
      · exact (hpost e he).2
    · intro hnil
      rw [e2, hnil]
      simp [recForest]
  · intro hc
    have hc2 : ¬ isContainer (h x) = true := by simp [hc]
    rw [e1]
    simp [recNode, hc2, List.filter_append, List.filter_cons, fpre, fpost]

/-- C3, at the Paragraph of Document > Paragraph > Text. -/
theorem C3_walk_event_counts_witness :
    IsTree docHeap 0 docKids ∧ isContainer (docHeap 1) = true ∧
    (Walk docHeap (some 0) alwaysGoToNext 6).calls.filter (fun e => decide (e.1 = 1))
      = [(1, true), (1, false)] :=
  ⟨by decide, by decide,
    ((C3_walk_event_counts docHeap 0 docKids (by decide) (by decide) 6 (by decide) 1
      (by decide)).1 (by decide)).1⟩

/-! ## `isContainer` and the kinds -/

/-- C17: `isContainer` is a function of the payload kind alone: for a node whose
payload has kind `K`, whatever its payload fields and its links hold, it returns
true exactly when `K` is one of the 16 container kinds of the specification, and
false exactly when `K` is one of the 8 other kinds. -/
theorem C17_isContainer_kinds (n : Node) (K : Kind) (hK : n.Data.kind = some K) :
    (isContainer n = true ↔ K ∈ containerKinds) ∧
    (isContainer n = false ↔ K ∈ leafKinds) := by
  unfold isContainer
  cases hn : n.Data <;> rw [hn] at hK <;>
    simp only [NodeData.kind, Option.some.injEq, reduceCtorEq] at hK <;>
    subst hK <;> simp [containerKinds, leafKinds]

/-- C17, at a Heading node with payload fields and links set. -/
theorem C17_isContainer_kinds_witness :
    (isContainer headingNode = true ↔ Kind.Heading ∈ containerKinds) ∧
    (isContainer headingNode = false ↔ Kind.Heading ∈ leafKinds) :=
  C17_isContainer_kinds headingNode .Heading rfl

/-- A node that can contain something is a container. -/
theorem canContain_isContainer (p : Node) (v : NodeData) (hc : canContain p v = true) :
    isContainer p = true := by
  unfold canContain at hc
  unfold isContainer
  cases hn : p.Data <;> rw [hn] at hc <;> simp at hc ⊢

/-- C19: if `p.canContain(v)` is true then `p.isContainer()` is true; and the
containers that can contain nothing (`canContain` false for every child data) are
exactly those of the kinds Paragraph, Heading, Emph, Strong, Del, Link, Image and
TableCell. -/
theorem C19_canContain_implies_isContainer (p : Node) :
    (∀ v, canContain p v = true → isContainer p = true) ∧
    (∀ K, p.Data.kind = some K →
      ((isContainer p = true ∧ ∀ v, canContain p v = false) ↔ K ∈ barrenKinds)) := by
  refine ⟨fun v hc => canContain_isContainer p v hc, ?_⟩
  intro K hK
  cases hn : p.Data <;> rw [hn] at hK <;>
    simp only [NodeData.kind, Option.some.injEq, reduceCtorEq] at hK <;>
    subst hK <;> simp [barrenKinds, isContainer, canContain, hn]
  · exact ⟨.other, rfl⟩
  · exact ⟨.other, rfl⟩
  · exact ⟨.Item default, rfl⟩
  · exact ⟨.other, rfl⟩
  · exact ⟨.TableHead {}, rfl⟩
  · exact ⟨.TableRow {}, rfl⟩
  · exact ⟨.TableRow {}, rfl⟩
  · exact ⟨.TableCell default, rfl⟩

/-- C19, at a List node (which can contain an Item) and a Paragraph node. -/
theorem C19_canContain_implies_isContainer_witness :
    isContainer (NewNode (.List bulletList)) = true ∧
    ((isContainer (NewNode (.Paragraph {})) = true ∧
      ∀ v, canContain (NewNode (.Paragraph {})) v = false) ↔ Kind.Paragraph ∈ barrenKinds) :=
  ⟨(C19_canContain_implies_isContainer (NewNode (.List bulletList))).1
      (.Item footnoteItem) rfl,
    (C19_canContain_implies_isContainer (NewNode (.Paragraph {}))).2 .Paragraph rfl⟩

/-! ## `Unlink` twice -/

/-- Two nodes with the same fields are the same node. -/
theorem node_ext_fields (a b : Node) (h1 : a.Parent = b.Parent)
    (h2 : a.FirstChild = b.FirstChild) (h3 : a.LastChild = b.LastChild)
    (h4 : a.Prev = b.Prev) (h5 : a.Next = b.Next) (h6 : a.Literal = b.Literal)
    (h7 : a.Data = b.Data) (h8 : a.content = b.content) (h9 : a.open_ = b.open_) :
    a = b := by
  cases a
  cases b
  simp_all

/-- `Unlink` of a node without parent and siblings changes nothing. -/
theorem unlinkNode_isolated (h : Heap) (n : Nat) (hP : (h n).Parent = none)
    (hV : (h n).Prev = none) (hN : (h n).Next = none) : unlinkNode h n = h := by
  funext x
  obtain ⟨d1, d2, d3, d4⟩ := unlinkNode_rest h n x
  refine node_ext_fields _ _ ?_ ?_ ?_ ?_ ?_ d2 d1 d3 d4
  · rw [unlinkNode_Parent]
    by_cases e : x = n
    · rw [if_pos e, e, hP]
    · rw [if_neg e]
  · rw [unlinkNode_FirstChild, hP]
    simp
  · rw [unlinkNode_LastChild, hP]
    simp
  · rw [unlinkNode_Prev, hN]
    by_cases e : x = n
    · rw [if_pos e, e, hV]
    · rw [if_neg e]
      simp
  · rw [unlinkNode_Next, hV]
    by_cases e : x = n
    · rw [if_pos e, e, hN]
    · rw [if_neg e]
      simp

/-- C15: for a node `n` whose `Parent`, `Prev` and `Next` are nil, `n.Unlink()`
returns and leaves the whole store unchanged; hence, for every node `n` of every
store, calling `n.Unlink()` a second time returns and gives the store the first
call gave. -/
theorem C15_unlink_idempotent (h : Heap) (n : Nat) :
    ((h n).Parent = none → (h n).Prev = none → (h n).Next = none →
      (Unlink h (some n)).returns = true ∧ (Unlink h (some n)).heap = h) ∧
    (Unlink (Unlink h (some n)).heap (some n)).returns = true ∧
    (Unlink (Unlink h (some n)).heap (some n)).heap = (Unlink h (some n)).heap := by
  refine ⟨fun hP hV hN => ⟨rfl, unlinkNode_isolated h n hP hV hN⟩, rfl, ?_⟩
  obtain ⟨cP, cV, cN⟩ := unlinkNode_self h n
  exact unlinkNode_isolated _ n cP cV cN

/-- C15, at a fresh node and at the second of three children. -/
theorem C15_unlink_idempotent_witness :
    (Unlink freshParagraphs (some 0)).heap = freshParagraphs ∧
    (Unlink (Unlink threeKids (some 2)).heap (some 2)).heap
      = (Unlink threeKids (some 2)).heap :=
  ⟨((C15_unlink_idempotent freshParagraphs 0).1 rfl rfl rfl).2,
    (C15_unlink_idempotent threeKids 2).2.2⟩

/-! ## `InsertBefore` and the anchor without parent -/

/-- `InsertBefore` of a node before itself returns. -/
theorem InsertBefore_self_returns (h : Heap) (n : Nat) :
    (InsertBefore h (some n) (some n)).returns = true := by
  obtain ⟨sP, sV, sN⟩ := unlinkNode_self h n
  simp [InsertBefore, Unlink, sV, sP, Outcome.returns]

/-- `InsertBefore` of another node `s` before `n` stops in the nil dereference
exactly when, after the `Unlink` of `s`, `n` has neither `Prev` nor `Parent`; the
store it leaves is the one after the `Unlink` with `s.Next = n` and `n.Prev = s`
on top. -/
theorem InsertBefore_panic_iff (h : Heap) (n s : Nat) (hns : n ≠ s) :
    ((InsertBefore h (some n) (some s)).returns = false ↔
      (unlinkNode h s n).Prev = none ∧ (unlinkNode h s n).Parent = none) ∧
    ((unlinkNode h s n).Prev = none → (unlinkNode h s n).Parent = none →
      (InsertBefore h (some n) (some s)).heap
        = setParent (setPrev (setNext (setPrev (unlinkNode h s) s none) s (some n))
            n (some s)) s none) := by
  have hsn : s ≠ n := Ne.symm hns
  cases hv : (unlinkNode h s n).Prev with
  | some q =>
    simp [InsertBefore, Unlink, hv, hsn, hns, Outcome.returns]
  | none =>
    cases hp : (unlinkNode h s n).Parent with
    | none => simp [InsertBefore, Unlink, hv, hp, hsn, hns, Outcome.returns, Outcome.heap]
    | some p => simp [InsertBefore, Unlink, hv, hp, hsn, hns, Outcome.returns]

/-- In a well-linked store the `Unlink` of another node leaves a node without `Prev`
and `Parent` without them. -/
theorem unlink_keeps_loose {h : Heap} (hw : WF h) (n s : Nat) (hns : n ≠ s)
    (hP : (h n).Parent = none) (hV : (h n).Prev = none) :
    (unlinkNode h s n).Prev = none ∧ (unlinkNode h s n).Parent = none := by
  rw [unlinkNode_Prev, unlinkNode_Parent, if_neg hns, if_neg hns, if_neg]
  · exact ⟨hV, hP⟩
  · intro e
    have := (hw.next_prev s n e).1
    rw [hV] at this
    cases this

/-- C13, refuted as stated: a fresh node has no parent, and `InsertBefore` of that
node before itself returns normally; and in a well-linked store where node 1 has no
parent but a previous sibling, `InsertBefore` of a third node before node 1 returns
normally. -/
theorem C13_insertBefore_rootless_counterexample :
    (freshParagraphs 0).Parent = none ∧ WF freshParagraphs ∧
    (InsertBefore freshParagraphs (some 0) (some 0)).returns = true ∧
    (looseChain 1).Parent = none ∧ WF looseChain ∧
    (InsertBefore looseChain (some 1) (some 2)).returns = true :=
  ⟨rfl, freshHeap_WF _, by decide, by decide, wfCheck_sound _ (by decide), by decide⟩

/-- C13, amended: in a well-linked store, for a node `n` with `Parent == nil` and
`Prev == nil` and every node `s` other than `n`, `n.InsertBefore(s)` stops in the
nil dereference instead of returning; for every `n` with a non-nil parent it
returns normally; and `n.InsertBefore(n)` returns normally, parent or not. -/
theorem C13_insertBefore_panics (h : Heap) (hw : WF h) (n s : Nat) :
    ((h n).Parent = none → (h n).Prev = none → s ≠ n →
      (InsertBefore h (some n) (some s)).returns = false) ∧
    ((h n).Parent ≠ none → (InsertBefore h (some n) (some s)).returns = true) ∧
    (InsertBefore h (some n) (some n)).returns = true := by
  refine ⟨?_, ?_, InsertBefore_self_returns h n⟩
  · intro hP hV hsn
    exact ((InsertBefore_panic_iff h n s (Ne.symm hsn)).1).2
      (unlink_keeps_loose hw n s (Ne.symm hsn) hP hV)
  · intro hP
    by_cases hns : n = s
    · subst hns
      exact InsertBefore_self_returns h n
    · cases hr : (InsertBefore h (some n) (some s)).returns with
      | true => rfl
      | false =>
        have := ((InsertBefore_panic_iff h n s hns).1).1 hr
        rw [unlinkNode_Parent, if_neg hns] at this
        exact absurd this.2 hP

/-- C13 amended, at two fresh nodes and at a child of a three-child parent. -/
theorem C13_insertBefore_panics_witness :
    (InsertBefore freshParagraphs (some 0) (some 1)).returns = false ∧
    (InsertBefore threeKids (some 2) (some 4)).returns = true :=
  ⟨(C13_insertBefore_panics freshParagraphs (freshHeap_WF _) 0 1).1 rfl rfl (by decide),
    (C13_insertBefore_panics threeKids (wfCheck_sound _ (by decide)) 2 4).2.1 (by decide)⟩

/-- C14, refuted as stated: in the well-linked store `threeKids`, node 4 has no
parent and `InsertBefore` of the child 2 before node 4 fails; after the failure the
`Parent` of 2, the `Next` of its former previous sibling 1 and the `Prev` of node 4
are not what they were before the call. -/
theorem C14_insertBefore_not_atomic_counterexample :
    WF threeKids ∧ (threeKids 4).Parent = none ∧
    (InsertBefore threeKids (some 4) (some 2)).returns = false ∧
    ((InsertBefore threeKids (some 4) (some 2)).heap 2).Parent ≠ (threeKids 2).Parent ∧
    ((InsertBefore threeKids (some 4) (some 2)).heap 1).Next ≠ (threeKids 1).Next ∧
    ((InsertBefore threeKids (some 4) (some 2)).heap 4).Prev ≠ (threeKids 4).Prev :=
  ⟨wfCheck_sound _ (by decide), by decide, by decide, by decide, by decide, by decide⟩

/-- C14, amended: a failing `InsertBefore` is not rolled back. In a well-linked
store, when `n.InsertBefore(s)` fails because `n` has no parent (`n.Parent == nil`,
`n.Prev == nil`, `s` another node), the store it leaves is the one `s.Unlink()`
gives, with `s.Next == n` and `n.Prev == s` on top: `s` is detached from its
former position and half-linked to `n`. -/
theorem C14_insertBefore_failure_state (h : Heap) (hw : WF h) (n s : Nat)
    (hP : (h n).Parent = none) (hV : (h n).Prev = none) (hsn : s ≠ n) :
    (InsertBefore h (some n) (some s)).returns = false ∧
    ∀ x,
      ((InsertBefore h (some n) (some s)).heap x).Parent
        = ((Unlink h (some s)).heap x).Parent ∧
      ((InsertBefore h (some n) (some s)).heap x).FirstChild
        = ((Unlink h (some s)).heap x).FirstChild ∧
      ((InsertBefore h (some n) (some s)).heap x).LastChild
        = ((Unlink h (some s)).heap x).LastChild ∧
      ((InsertBefore h (some n) (some s)).heap x).Prev
        = (if x = n then some s else ((Unlink h (some s)).heap x).Prev) ∧
      ((InsertBefore h (some n) (some s)).heap x).Next
        = (if x = s then some n else ((Unlink h (some s)).heap x).Next) := by
  have hns : n ≠ s := Ne.symm hsn
  obtain ⟨hv1, hp1⟩ := unlink_keeps_loose hw n s hns hP hV
  obtain ⟨sP, sV, sN⟩ := unlinkNode_self h s
  refine ⟨((InsertBefore_panic_iff h n s hns).1).2 ⟨hv1, hp1⟩, ?_⟩
  intro x
  rw [(InsertBefore_panic_iff h n s hns).2 hv1 hp1]
  simp only [Unlink, Outcome.heap, setParent_Parent, setParent_FirstChild,
    setParent_LastChild, setParent_Prev, setParent_Next, setPrev_Parent, setPrev_FirstChild,
    setPrev_LastChild, setPrev_Prev, setPrev_Next, setNext_Parent, setNext_FirstChild,
    setNext_LastChild, setNext_Prev, setNext_Next]
  refine ⟨?_, trivial, trivial, ?_, trivial⟩
  · by_cases e : x = s
    · rw [if_pos e, e, sP]
    · rw [if_neg e]
  · by_cases e : x = n
    · rw [if_pos e, if_pos e]
    · rw [if_neg e, if_neg e]
      by_cases e2 : x = s
      · rw [if_pos e2, e2, sV]
      · rw [if_neg e2]

/-- C14 amended, at the child 2 of `threeKids` and the parentless node 4. -/
theorem C14_insertBefore_failure_state_witness :
    (InsertBefore threeKids (some 4) (some 2)).returns = false ∧
    ((InsertBefore threeKids (some 4) (some 2)).heap 4).Prev = some 2 ∧
    ((InsertBefore threeKids (some 4) (some 2)).heap 2).Next = some 4 :=
  have hc := C14_insertBefore_failure_state threeKids (wfCheck_sound _ (by decide)) 4 2
    (by decide) (by decide) (by decide)
  ⟨hc.1, (hc.2 4).2.2.2.1, (hc.2 2).2.2.2.2⟩

/-! ## The frame of `Unlink` -/

/-- The sibling chain that starts where a laid-out forest starts consists of nodes of
the forest. -/
theorem Rep.seg_subset {h : Heap} {f : Forest} :
    ∀ {par prev first la par2 prev2 la2 : Ptr} {l : List Nat},
      Rep h par prev f first la → Seg h par2 prev2 l first la2 → ∀ y ∈ l, y ∈ f.ids := by
  induction f with
  | nil =>
    intro par prev first la par2 prev2 la2 l hr hs y hy
    cases l with
    | nil => simp at hy
    | cons z zs =>
      have h1 := hr.1
      have h2 := hs.1
      rw [h1] at h2
      cases h2
  | cons x k r _ ihr =>
    intro par prev first la par2 prev2 la2 l hr hs y hy
    cases l with
    | nil => simp at hy
    | cons z zs =>
      obtain ⟨h1, _, _, _, hrr⟩ := hr
      obtain ⟨h2, _, _, hss⟩ := hs
      rw [h1] at h2
      cases h2
      rcases List.mem_cons.1 hy with rfl | hy
      · simp [Forest.ids]
      · have := ihr hrr hss y hy
        simp [Forest.ids, this]

/-- The `Next` of a node of a laid-out forest is nil or a node of the forest. -/
theorem Rep.next_in {h : Heap} {f : Forest} :
    ∀ {par prev first la : Ptr}, Rep h par prev f first la → ∀ y ∈ f.ids,
      (h y).Next = none ∨ ∃ z ∈ f.ids, (h y).Next = some z := by
  induction f with
  | nil => intro _ _ _ _ _ y hy; simp [Forest.ids] at hy
  | cons x k r ihk ihr =>
    intro par prev first la hr y hy
    obtain ⟨_, _, _, hk, hrr⟩ := hr
    simp only [Forest.ids, List.mem_cons, List.mem_append] at hy
    rcases hy with rfl | hy | hy
    · cases r with
      | nil => exact Or.inl hrr.1
      | cons z k2 r2 => exact Or.inr ⟨z, by simp [Forest.ids], hrr.1⟩
    · rcases ihk hk y hy with e | ⟨z, hz, e⟩
      · exact Or.inl e
      · exact Or.inr ⟨z, by simp [Forest.ids, hz], e⟩
    · rcases ihr hrr y hy with e | ⟨z, hz, e⟩
      · exact Or.inl e
      · exact Or.inr ⟨z, by simp [Forest.ids, hz], e⟩

/-- The `Prev` of a node of a laid-out forest is the `prev` of the forest, nil, or a
node of the forest. -/
theorem Rep.prev_in {h : Heap} {f : Forest} :
    ∀ {par prev first la : Ptr}, Rep h par prev f first la → ∀ y ∈ f.ids,
      (h y).Prev = prev ∨ (h y).Prev = none ∨ ∃ z ∈ f.ids, (h y).Prev = some z := by
  induction f with
  | nil => intro _ _ _ _ _ y hy; simp [Forest.ids] at hy
  | cons x k r ihk ihr =>
    intro par prev first la hr y hy
    obtain ⟨_, _, hv, hk, hrr⟩ := hr
    simp only [Forest.ids, List.mem_cons, List.mem_append] at hy
    rcases hy with rfl | hy | hy
    · exact Or.inl hv
    · rcases ihk hk y hy with e | e | ⟨z, hz, e⟩
      · exact Or.inr (Or.inl e)
      · exact Or.inr (Or.inl e)
      · exact Or.inr (Or.inr ⟨z, by simp [Forest.ids, hz], e⟩)
    · rcases ihr hrr y hy with e | e | ⟨z, hz, e⟩
      · exact Or.inr (Or.inr ⟨x, by simp [Forest.ids], e⟩)
      · exact Or.inr (Or.inl e)
      · exact Or.inr (Or.inr ⟨z, by simp [Forest.ids, hz], e⟩)

/-- In a well-linked store, a node below `n` is neither the parent nor a sibling of
`n`. -/
theorem below_not_neighbour {h : Heap} (hw : WF h) {n : Nat} {kids : Forest}
    (ht : IsTree h n kids) (d : Nat) (hd : d ∈ kids.ids) :
    d ≠ n ∧ (h n).Prev ≠ some d ∧ (h n).Next ≠ some d ∧ (h n).Parent ≠ some d := by
  have hn : n ∉ kids.ids := Rep.not_mem_kids ht
  refine ⟨fun e => hn (e ▸ hd), ?_, ?_, ?_⟩
  · intro e
    have e2 := (hw.prev_next n d e).1
    rcases Rep.next_in ht d hd with e3 | ⟨z, hz, e3⟩
    · rw [e2] at e3
      cases e3
    · rw [e2] at e3
      cases e3
      exact hn hz
  · intro e
    have e2 := (hw.next_prev n d e).1
    rcases Rep.prev_in ht d hd with e3 | e3 | ⟨z, hz, e3⟩
    · rw [e2] at e3
      cases e3
    · rw [e2] at e3
      cases e3
    · rw [e2] at e3
      cases e3
      exact hn hz
  · intro e
    obtain ⟨l, hl, hmem⟩ := hw.kids d
    obtain ⟨k, hk, hsize⟩ := Rep.kids_of_mem ht d hd
    have hnk : n ∈ k.ids := Rep.seg_subset hk hl n (hmem n e)
    obtain ⟨k2, hk2, hsize2⟩ := Rep.kids_of_mem hk n hnk
    rw [Rep.forest_unique hk2 ht] at hsize2
    omega

/-- In a well-linked store the root of a finite tree is not its own parent. -/
theorem root_not_own_parent {h : Heap} (hw : WF h) {n : Nat} {kids : Forest}
    (ht : IsTree h n kids) : (h n).Parent ≠ some n := by
  intro e
  obtain ⟨l, hl, hmem⟩ := hw.kids n
  exact Rep.not_mem_kids ht (Rep.seg_subset ht hl n (hmem n e))

/-- C20: in a well-linked store, for a node `n` that is the root of a finite tree,
`n.Unlink()` leaves unchanged: the `Data`, `Literal`, `content` and `open` fields
of every node; `n.FirstChild` and `n.LastChild`; every node below `n`, whole; the
`Parent` of every node other than `n`; the `Next` of every node other than `n` and
its former previous sibling; the `Prev` of every node other than `n` and its former
next sibling; and the `FirstChild` and `LastChild` of every node other than the
former parent of `n`. -/
theorem C20_unlink_frame (h : Heap) (hw : WF h) (n : Nat) (kids : Forest)
    (ht : IsTree h n kids) :
    (∀ x, ((Unlink h (some n)).heap x).Data = (h x).Data ∧
      ((Unlink h (some n)).heap x).Literal = (h x).Literal ∧
      ((Unlink h (some n)).heap x).content = (h x).content ∧
      ((Unlink h (some n)).heap x).open_ = (h x).open_) ∧
    ((Unlink h (some n)).heap n).FirstChild = (h n).FirstChild ∧
    ((Unlink h (some n)).heap n).LastChild = (h n).LastChild ∧
    (∀ d ∈ kids.ids, (Unlink h (some n)).heap d = h d) ∧
    (∀ x, x ≠ n → ((Unlink h (some n)).heap x).Parent = (h x).Parent) ∧
    (∀ x, x ≠ n → (h n).Prev ≠ some x → ((Unlink h (some n)).heap x).Next = (h x).Next) ∧
    (∀ x, x ≠ n → (h n).Next ≠ some x → ((Unlink h (some n)).heap x).Prev = (h x).Prev) ∧
    (∀ x, (h n).Parent ≠ some x →
      ((Unlink h (some n)).heap x).FirstChild = (h x).FirstChild ∧
      ((Unlink h (some n)).heap x).LastChild = (h x).LastChild) := by
  have hpar := root_not_own_parent hw ht
  have hframe : ∀ x, (h n).Parent ≠ some x →
      (unlinkNode h n x).FirstChild = (h x).FirstChild ∧
      (unlinkNode h n x).LastChild = (h x).LastChild := by
    intro x hx
    rw [unlinkNode_FirstChild, unlinkNode_LastChild, if_neg (fun e => hx e.2),
      if_neg (fun e => hx e.2)]
    exact ⟨rfl, rfl⟩
  simp only [Unlink, Outcome.heap]
  refine ⟨?_, (hframe n hpar).1, (hframe n hpar).2, ?_, ?_, ?_, ?_, hframe⟩
  · intro x
    obtain ⟨d1, d2, d3, d4⟩ := unlinkNode_rest h n x
    exact ⟨d1, d2, d3, d4⟩
  · intro d hd
    obtain ⟨hdn, hv, hx, hp⟩ := below_not_neighbour hw ht d hd
    obtain ⟨d1, d2, d3, d4⟩ := unlinkNode_rest h n d
    refine node_ext_fields _ _ ?_ (hframe d hp).1 (hframe d hp).2 ?_ ?_ d2 d1 d3 d4
    · rw [unlinkNode_Parent, if_neg hdn]
    · rw [unlinkNode_Prev, if_neg hdn, if_neg hx]
    · rw [unlinkNode_Next, if_neg hdn, if_neg hv]
  · intro x hx
    rw [unlinkNode_Parent, if_neg hx]
  · intro x hx hv
    rw [unlinkNode_Next, if_neg hx, if_neg hv]
  · intro x hx hv
    rw [unlinkNode_Prev, if_neg hx, if_neg hv]

/-- C20, at the Paragraph of Document > Paragraph > Text: it keeps its child, and
the Text below it is untouched. -/
theorem C20_unlink_frame_witness :
    WF docHeap ∧ IsTree docHeap 1 (.cons 2 .nil .nil) ∧
    ((Unlink docHeap (some 1)).heap 1).FirstChild = some 2 ∧
    (Unlink docHeap (some 1)).heap 2 = docHeap 2 :=
  have hc := C20_unlink_frame docHeap (wfCheck_sound _ (by decide)) 1 (.cons 2 .nil .nil)
    (by decide)
  ⟨wfCheck_sound _ (by decide), by decide, hc.2.1, hc.2.2.2.1 2 (by decide)⟩

/-! ## What `AppendChild` and `InsertBefore` leave in every field -/

/-- `AppendChild` on non-nil nodes returns, and the fields it leaves, in terms of the
store after the `Unlink` of the child. -/
theorem AppendChild_fields (h : Heap) (p c : Nat) :
    (AppendChild h (some p) (some c)).returns = true ∧
    ∀ x,
      ((AppendChild h (some p) (some c)).heap x).Parent
        = (if x = c then some p else (unlinkNode h c x).Parent) ∧
      ((AppendChild h (some p) (some c)).heap x).LastChild
        = (if x = p then some c else (unlinkNode h c x).LastChild) ∧
      ((AppendChild h (some p) (some c)).heap x).FirstChild
        = (if x = p ∧ (unlinkNode h c p).LastChild = none then some c
            else (unlinkNode h c x).FirstChild) ∧
      ((AppendChild h (some p) (some c)).heap x).Next
        = (if (unlinkNode h c p).LastChild = some x then some c
            else (unlinkNode h c x).Next) ∧
      ((AppendChild h (some p) (some c)).heap x).Prev
        = (if x = c ∧ (unlinkNode h c p).LastChild ≠ none then (unlinkNode h c p).LastChild
            else (unlinkNode h c x).Prev) := by
  cases ht : (unlinkNode h c p).LastChild with
  | none =>
    have hg : AppendChild h (some p) (some c) = .ok (setLastChild (setFirstChild
        (setParent (unlinkNode h c) c (some p)) p (some c)) p (some c)) := by
      simp only [AppendChild, Unlink, setParent_LastChild, ht]
    rw [hg]
    refine ⟨rfl, fun x => ?_⟩
    simp [Outcome.heap]
  | some t =>
    have hg : AppendChild h (some p) (some c) = .ok (setLastChild (setPrev
        (setNext (setParent (unlinkNode h c) c (some p)) t (some c)) c (some t))
        p (some c)) := by
      simp only [AppendChild, Unlink, setParent_LastChild, setNext_LastChild, ht]
    rw [hg]
    refine ⟨rfl, fun x => ?_⟩
    simp [Outcome.heap, eq_comm]

/-- The fields `InsertBefore` leaves when the anchor `n` and the sibling `s` are two
nodes, whether it returns or not, in terms of the store after the `Unlink` of `s`. -/
theorem InsertBefore_fields (h : Heap) (n s : Nat) (hns : n ≠ s) :
    ∀ x,
      ((InsertBefore h (some n) (some s)).heap x).Parent
        = (if x = s then (unlinkNode h s n).Parent else (unlinkNode h s x).Parent) ∧
      ((InsertBefore h (some n) (some s)).heap x).Prev
        = (if x = n then some s else if x = s then (unlinkNode h s n).Prev
            else (unlinkNode h s x).Prev) ∧
      ((InsertBefore h (some n) (some s)).heap x).Next
        = (if x = s then some n else if (unlinkNode h s n).Prev = some x then some s
            else (unlinkNode h s x).Next) ∧
      ((InsertBefore h (some n) (some s)).heap x).FirstChild
        = (if (unlinkNode h s n).Prev = none ∧ (unlinkNode h s n).Parent = some x
            then some s else (unlinkNode h s x).FirstChild) ∧
      ((InsertBefore h (some n) (some s)).heap x).LastChild
        = (unlinkNode h s x).LastChild := by
  have hsn : s ≠ n := Ne.symm hns
  intro x
  cases hv : (unlinkNode h s n).Prev with
  | some q =>
    have hg : (InsertBefore h (some n) (some s)).heap = setParent (setPrev (setNext
        (setNext (setPrev (unlinkNode h s) s (some q)) q (some s)) s (some n))
        n (some s)) s (unlinkNode h s n).Parent := by
      simp [InsertBefore, Unlink, hv, hsn, hns, Outcome.heap]
    rw [hg]
    simp [hv, eq_comm]
  | none =>
    cases hp : (unlinkNode h s n).Parent with
    | none =>
      have hg : (InsertBefore h (some n) (some s)).heap = setParent (setPrev (setNext
          (setPrev (unlinkNode h s) s none) s (some n)) n (some s)) s none := by
        simp [InsertBefore, Unlink, hv, hp, hsn, hns, Outcome.heap]
      rw [hg]
      simp [hv, hp]
    | some p =>
      have hg : (InsertBefore h (some n) (some s)).heap = setFirstChild (setParent
          (setPrev (setNext (setPrev (unlinkNode h s) s none) s (some n)) n (some s))
          s (some p)) p (some s) := by
        simp [InsertBefore, Unlink, hv, hp, hsn, hns, Outcome.heap]
      rw [hg]
      simp [hv, hp, eq_comm]

/-! ## The children of the other nodes -/

/-- Splicing before an anchor that is not in the list changes nothing. -/
theorem spliceBefore_of_not_mem (a s : Nat) (l : List Nat) (ha : a ∉ l) :
    spliceBefore a s l = l := by
  induction l with
  | nil => rfl
  | cons x xs ih =>
    have hx : x ≠ a := fun e => ha (by simp [e])
    simp only [spliceBefore, if_neg hx]
    rw [ih (fun hm => ha (List.mem_cons_of_mem _ hm))]

/-- `AppendChild` on the children sequence of a node `q` other than the new parent:
the sequence without the moved child. -/
theorem AppendChild_others (h : Heap) (hw : WF h) (p c q : Nat) (hq : q ≠ p)
    (lq : List Nat) (hlq : ChildrenOf h q lq) :
    ChildrenOf (AppendChild h (some p) (some c)).heap q (lq.erase c) := by
  obtain ⟨_, hf⟩ := AppendChild_fields h p c
  have h1w := unlink_WF hw c
  obtain ⟨cP, cV, cN⟩ := unlinkNode_self h c
  have hnd : lq.Nodup := Seg.nodup hlq (by simp)
  have hl1 : ChildrenOf (unlinkNode h c) q (lq.erase c) := by
    rw [← filter_ne_eq_erase hnd]
    exact unlink_children hw c q hlq
  unfold ChildrenOf at hl1 ⊢
  rw [(hf q).2.2.1, (hf q).2.1, if_neg hq, if_neg (fun e => hq e.1)]
  refine Seg.frame hl1 ?_
  intro x hx
  have hxP : (unlinkNode h c x).Parent = some q := Seg.parent_of_mem hl1 x hx
  have hxc : x ≠ c := by
    rintro rfl
    rw [cP] at hxP
    cases hxP
  have hxt : (unlinkNode h c p).LastChild ≠ some x := by
    intro e
    have := ((h1w.lastChild_iff p x).1 e).2
    rw [hxP] at this
    exact hq (Option.some.inj this)
  refine ⟨?_, ?_, ?_⟩
  · rw [(hf x).1, if_neg hxc]
  · rw [(hf x).2.2.2.2, if_neg (fun e => hxc e.1)]
  · rw [(hf x).2.2.2.1, if_neg hxt]

/-- `InsertBefore` on the children sequence of a node `q` other than the parent of
the anchor: the sequence without the moved sibling. -/
theorem InsertBefore_others (h : Heap) (hw : WF h) (n p s q : Nat)
    (hp : (h n).Parent = some p) (hsn : s ≠ n) (hq : q ≠ p)
    (lq : List Nat) (hlq : ChildrenOf h q lq) :
    ChildrenOf (InsertBefore h (some n) (some s)).heap q (lq.erase s) := by
  have hns : n ≠ s := Ne.symm hsn
  have hf := InsertBefore_fields h n s hns
  have h1w := unlink_WF hw s
  obtain ⟨sP, sV, sN⟩ := unlinkNode_self h s
  have hp1 : (unlinkNode h s n).Parent = some p := by
    rw [unlinkNode_Parent, if_neg hns]
    exact hp
  have hnd : lq.Nodup := Seg.nodup hlq (by simp)
  have hl1 : ChildrenOf (unlinkNode h s) q (lq.erase s) := by
    rw [← filter_ne_eq_erase hnd]
    exact unlink_children hw s q hlq
  have hins := insert_WF (g := (InsertBefore h (some n) (some s)).heap) h1w hns sP sV sN
    (fun x => (hf x).1) (fun x => (hf x).2.1) (fun x => (hf x).2.2.1)
    (fun x => (hf x).2.2.2.1) (fun x => (hf x).2.2.2.2)
  have hnl : n ∉ lq.erase s := Seg.not_mem_of_parent hl1 (by
    rw [hp1]
    exact fun e => hq (Option.some.inj e).symm)
  have := hins.2 q _ hl1
  rwa [spliceBefore_of_not_mem n s _ hnl] at this

/-! ## `AppendChild` -/

/-- C11: in a well-linked store, for every node `p` with children sequence `l` and
every node `c` (also `p` itself or an ancestor of `p`), `p.AppendChild(c)` returns
and afterwards `c.Parent == p`, `p.LastChild == c`, `c.Next == nil`, the children
sequence of `p` is `l` with `c` removed (if it was in it) followed by `c`, `c`
occurs in the children sequence of no other node, and every other node `q`, the
former parent of `c` included, has its old children sequence with `c` removed, so
that neither the former parent nor a former sibling still points at `c`. -/
theorem C11_appendChild_relocates (h : Heap) (hw : WF h) (p c : Nat) (l : List Nat)
    (hl : ChildrenOf h p l) :
    (AppendChild h (some p) (some c)).returns = true ∧
    ((AppendChild h (some p) (some c)).heap c).Parent = some p ∧
    ((AppendChild h (some p) (some c)).heap p).LastChild = some c ∧
    ((AppendChild h (some p) (some c)).heap c).Next = none ∧
    ChildrenOf (AppendChild h (some p) (some c)).heap p (l.erase c ++ [c]) ∧
    (∀ q l2, ChildrenOf (AppendChild h (some p) (some c)).heap q l2 → c ∈ l2 → q = p) ∧
    (∀ q lq, q ≠ p → ChildrenOf h q lq →
      ChildrenOf (AppendChild h (some p) (some c)).heap q (lq.erase c)) := by
  obtain ⟨hret, hf⟩ := AppendChild_fields h p c
  have h1w := unlink_WF hw c
  obtain ⟨cP, cV, cN⟩ := unlinkNode_self h c
  have hnd : l.Nodup := Seg.nodup hl (by simp)
  have hl1 : ChildrenOf (unlinkNode h c) p (l.erase c) := by
    rw [← filter_ne_eq_erase hnd]
    exact unlink_children hw c p hl
  have hpar : ((AppendChild h (some p) (some c)).heap c).Parent = some p := by
    rw [(hf c).1, if_pos rfl]
  have hkids : ChildrenOf (AppendChild h (some p) (some c)).heap p (l.erase c ++ [c]) ∧
      ((AppendChild h (some p) (some c)).heap c).Next = none := by
    cases ht : (unlinkNode h c p).LastChild with
    | none =>
      have := append_none_WF (g := (AppendChild h (some p) (some c)).heap) h1w cP cV cN ht
        (fun x => (hf x).1)
        (fun x => by rw [(hf x).2.2.2.2, ht]; simp)
        (fun x => by rw [(hf x).2.2.2.1, ht]; simp)
        (fun x => by rw [(hf x).2.2.1, ht]; simp)
        (fun x => (hf x).2.1)
      have e : l.erase c = [] := Seg.unique hl1 this.2.1
      rw [e]
      refine ⟨this.2.2, ?_⟩
      rw [(hf c).2.2.2.1, ht]
      simpa using cN
    | some t =>
      have htc : t ≠ c := by
        rintro rfl
        have := ((h1w.lastChild_iff p t).1 ht).2
        rw [cP] at this
        cases this
      have := append_some_WF (g := (AppendChild h (some p) (some c)).heap) h1w cP cV cN ht
        (fun x => (hf x).1)
        (fun x => by rw [(hf x).2.2.2.2, ht]; simp)
        (fun x => by rw [(hf x).2.2.2.1, ht]; simp [eq_comm])
        (fun x => by rw [(hf x).2.2.1, ht]; simp)
        (fun x => (hf x).2.1)
      refine ⟨this.2 _ hl1, ?_⟩
      rw [(hf c).2.2.2.1, ht, if_neg (fun e => htc (Option.some.inj e))]
      exact cN
  refine ⟨hret, hpar, ?_, hkids.2, hkids.1, ?_,
    fun q lq hq hlq => AppendChild_others h hw p c q hq lq hlq⟩
  · rw [(hf p).2.1, if_pos rfl]
  · intro q l2 hl2 hc
    have := Seg.parent_of_mem hl2 c hc
    rw [hpar] at this
    exact (Option.some.inj this).symm

/-- C11, at a grandchild moved up to the Document, which leaves its former parent
without children, and at a first child moved to the end. -/
theorem C11_appendChild_relocates_witness :
    WF twoParents ∧ ChildrenOf twoParents 0 [1, 2] ∧ ChildrenOf twoParents 1 [3] ∧
    ChildrenOf (AppendChild twoParents (some 0) (some 3)).heap 0 [1, 2, 3] ∧
    ChildrenOf (AppendChild twoParents (some 0) (some 3)).heap 1 [] ∧
    ChildrenOf (AppendChild twoParents (some 0) (some 1)).heap 0 [2, 1] :=
  have hw : WF twoParents := wfCheck_sound _ (by decide)
  ⟨hw, by decide, by decide,
    (C11_appendChild_relocates twoParents hw 0 3 [1, 2] (by decide)).2.2.2.2.1,
    (C11_appendChild_relocates twoParents hw 0 3 [1, 2] (by decide)).2.2.2.2.2.2 1 [3]
      (by decide) (by decide),
    (C11_appendChild_relocates twoParents hw 0 1 [1, 2] (by decide)).2.2.2.2.1⟩

/-! ## `InsertBefore` -/

/-- C12: in a well-linked store, for every node `n` with parent `p`, whose children
sequence is `l`, and every node `s` other than `n`, `n.InsertBefore(s)` returns and
afterwards `s.Parent == p`, `s.Next == n`, `n.Prev == s`, the children sequence of
`p` is `l` with `s` removed (if it was in it) and `s` put immediately before `n`,
`p.FirstChild == s` exactly when `n` was the first child of `p` after `s` was
detached, `s` occurs in the children sequence of no other node, and every other
node `q`, the former parent of `s` included, has its old children sequence with `s`
removed, so that neither the former parent nor a former sibling still points at
`s`. -/
theorem C12_insertBefore_splices (h : Heap) (hw : WF h) (n p s : Nat) (l : List Nat)
    (hp : (h n).Parent = some p) (hsn : s ≠ n) (hl : ChildrenOf h p l) :
    (InsertBefore h (some n) (some s)).returns = true ∧
    ((InsertBefore h (some n) (some s)).heap s).Parent = some p ∧
    ((InsertBefore h (some n) (some s)).heap s).Next = some n ∧
    ((InsertBefore h (some n) (some s)).heap n).Prev = some s ∧
    ChildrenOf (InsertBefore h (some n) (some s)).heap p (spliceBefore n s (l.erase s)) ∧
    (((InsertBefore h (some n) (some s)).heap p).FirstChild = some s ↔
      ((Unlink h (some s)).heap p).FirstChild = some n) ∧
    (∀ q l2, ChildrenOf (InsertBefore h (some n) (some s)).heap q l2 → s ∈ l2 → q = p) ∧
    (∀ q lq, q ≠ p → ChildrenOf h q lq →
      ChildrenOf (InsertBefore h (some n) (some s)).heap q (lq.erase s)) := by
  have hns : n ≠ s := Ne.symm hsn
  have hf := InsertBefore_fields h n s hns
  have h1w := unlink_WF hw s
  obtain ⟨sP, sV, sN⟩ := unlinkNode_self h s
  have hp1 : (unlinkNode h s n).Parent = some p := by
    rw [unlinkNode_Parent, if_neg hns]
    exact hp
  have hnd : l.Nodup := Seg.nodup hl (by simp)
  have hl1 : ChildrenOf (unlinkNode h s) p (l.erase s) := by
    rw [← filter_ne_eq_erase hnd]
    exact unlink_children hw s p hl
  have hret : (InsertBefore h (some n) (some s)).returns = true := by
    cases hr : (InsertBefore h (some n) (some s)).returns with
    | true => rfl
    | false =>
      have := ((InsertBefore_panic_iff h n s hns).1).1 hr
      rw [hp1] at this
      cases this.2
  have hpar : ((InsertBefore h (some n) (some s)).heap s).Parent = some p := by
    rw [(hf s).1, if_pos rfl]
    exact hp1
  have hins := insert_WF (g := (InsertBefore h (some n) (some s)).heap) h1w hns sP sV sN
    (fun x => (hf x).1) (fun x => (hf x).2.1) (fun x => (hf x).2.2.1)
    (fun x => (hf x).2.2.2.1) (fun x => (hf x).2.2.2.2)
  refine ⟨hret, hpar, ?_, ?_, hins.2 p _ hl1, ?_, ?_,
    fun q lq hq hlq => InsertBefore_others h hw n p s q hp hsn hq lq hlq⟩
  · rw [(hf s).2.2.1, if_pos rfl]
  · rw [(hf n).2.1, if_pos rfl]
  · rw [(hf p).2.2.2.1]
    simp only [Unlink, Outcome.heap]
    by_cases hc : (unlinkNode h s n).Prev = none ∧ (unlinkNode h s n).Parent = some p
    · rw [if_pos hc]
      exact ⟨fun _ => (h1w.firstChild_iff p n).2 hc, fun _ => rfl⟩
    · rw [if_neg hc]
      constructor
      · intro e
        have := ((h1w.firstChild_iff p s).1 e).2
        rw [sP] at this
        cases this
      · intro e
        exact absurd ((h1w.firstChild_iff p n).1 e) hc
  · intro q l2 hl2 hs
    have := Seg.parent_of_mem hl2 s hs
    rw [hpar] at this
    exact (Option.some.inj this).symm

/-- C12, at a grandchild inserted before the first and before the second child of the
Document, which leaves its former parent without children. -/
theorem C12_insertBefore_splices_witness :
    WF twoParents ∧ ChildrenOf twoParents 0 [1, 2] ∧ ChildrenOf twoParents 1 [3] ∧
    ChildrenOf (InsertBefore twoParents (some 1) (some 3)).heap 0 [3, 1, 2] ∧
    ((InsertBefore twoParents (some 1) (some 3)).heap 0).FirstChild = some 3 ∧
    ChildrenOf (InsertBefore twoParents (some 1) (some 3)).heap 1 [] ∧
    ChildrenOf (InsertBefore twoParents (some 2) (some 3)).heap 0 [1, 3, 2] ∧
    ChildrenOf (InsertBefore twoParents (some 2) (some 3)).heap 1 [] :=
  have hw : WF twoParents := wfCheck_sound _ (by decide)
  have h1 := C12_insertBefore_splices twoParents hw 1 0 3 [1, 2] (by decide) (by decide)
    (by decide)
  have h2 := C12_insertBefore_splices twoParents hw 2 0 3 [1, 2] (by decide) (by decide)
    (by decide)
  ⟨hw, by decide, by decide, h1.2.2.2.2.1, h1.2.2.2.2.2.1.2 (by decide),
    h1.2.2.2.2.2.2.2 1 [3] (by decide) (by decide), h2.2.2.2.2.1,
    h2.2.2.2.2.2.2.2 1 [3] (by decide) (by decide)⟩

/-! ## Termination of `Walk` -/

theorem callBound_cons (h : Heap) (x : Nat) (l : List Nat) :
    callBound h (x :: l) = (if isContainer (h x) = true then 2 else 1) + callBound h l := by
  unfold callBound
  by_cases hc : isContainer (h x) = true
  · simp [List.countP_cons, hc]
    omega
  · simp [List.countP_cons, hc]
    omega

theorem callBound_append (h : Heap) (l1 l2 : List Nat) :
    callBound h (l1 ++ l2) = callBound h l1 + callBound h l2 := by
  unfold callBound
  simp only [List.countP_append]
  omega

/-- A traversal makes at most two calls for every container of the forest and one for
every other node. -/
theorem trav_length (h : Heap) (v : NodeVisitor) (f : Forest) :
    ∀ hist, (travForest h v f hist).1.length ≤ callBound h f.ids := by
  induction f with
  | nil => intro hist; simp [travForest]
  | cons x k r ihk ihr =>
    intro hist
    have hb : callBound h (Forest.cons x k r).ids
        = (if isContainer (h x) = true then 2 else 1) + (callBound h k.ids + callBound h r.ids) := by
      simp only [Forest.ids]
      rw [callBound_cons, callBound_append]
    rw [hb]
    by_cases ht : v (hist ++ [(x, true)]) = Terminate
    · rw [trav_cons_term h v x k r hist ht]
      simp only [List.length_singleton]
      split_ifs <;> omega
    · by_cases hd : v (hist ++ [(x, true)]) = GoToNext ∧ isContainer (h x) = true
      · rw [if_pos hd.2]
        have hk := ihk (hist ++ [(x, true)])
        cases hkt : (travForest h v k (hist ++ [(x, true)])).2 with
        | true =>
          rw [trav_cons_kids_term h v x k r hist ht hd hkt]
          simp only [List.length_cons]
          omega
        | false =>
          by_cases ht2 : v (hist ++ (x, true) :: ((travForest h v k (hist ++ [(x, true)])).1
              ++ [(x, false)])) = Terminate
          · rw [trav_cons_exit_term h v x k r hist ht hd hkt ht2]
            simp only [List.length_cons, List.length_append, List.length_nil]
            omega
          · rw [trav_cons_exit_next h v x k r hist ht hd hkt ht2]
            have hr := ihr (hist ++ (x, true) :: ((travForest h v k (hist ++ [(x, true)])).1
              ++ [(x, false)]))
            simp only [List.length_cons, List.length_append]
            omega
      · rw [trav_cons_pass h v x k r hist ht hd]
        have hr := ihr (hist ++ [(x, true)])
        simp only [List.length_cons]
        split_ifs <;> omega

/-- C18: on a finite tree with root `n` and under a visitor that returns the three
declared statuses in any mix, `Walk(n, v)` returns (given fuel for `2 * C + L + 1`
turns), it makes at most `2 * C + L` visitor calls, `C` and `L` being the numbers
of containers and of other nodes of the tree, and it calls the visitor only on
nodes of the tree. -/
theorem C18_walk_terminates (h : Heap) (n : Nat) (kids : Forest) (ht : IsTree h n kids)
    (v : NodeVisitor) (hv : ValidVisitor v) :
    (∀ fuel, callBound h (n :: kids.ids) + 1 ≤ fuel →
      (Walk h (some n) v fuel).phase = .returned) ∧
    (∀ fuel, (Walk h (some n) v fuel).calls.length ≤ callBound h (n :: kids.ids)) ∧
    (∀ fuel, ∀ e ∈ (Walk h (some n) v fuel).calls, e.1 ∈ n :: kids.ids) := by
  have hids : (Forest.cons n kids .nil).ids = n :: kids.ids := by simp [Forest.ids]
  have hlen : (travTree h v n kids).length ≤ callBound h (n :: kids.ids) := by
    rw [travTree_eq, ← hids]
    exact trav_length h v _ []
  have hfin := walk_tree h v hv n kids ht
  refine ⟨fun fuel hf => (hfin fuel (by omega)).2, ?_, ?_⟩
  · intro fuel
    have hp := Walk.calls_prefix_final h (some n) v _ (hfin _ (le_refl _)).2 fuel
    rw [(hfin _ (le_refl _)).1] at hp
    exact hp.length_le.trans hlen
  · intro fuel e he
    have := trav_ids h v _ [] e (walk_calls_mem h v hv n kids ht fuel e he)
    rwa [hids] at this

/-- C18, on Document > Paragraph > Text (bound 5) with `SkipChildren` on entering the
Paragraph. -/
theorem C18_walk_terminates_witness :
    IsTree docHeap 0 docKids ∧ callBound docHeap (0 :: docKids.ids) = 5 ∧
    (Walk docHeap (some 0) (skipAt 1) 6).phase = .returned ∧
    (Walk docHeap (some 0) (skipAt 1) 6).calls.length ≤ 5 :=
  have hc := C18_walk_terminates docHeap 0 docKids (by decide) (skipAt 1) (skipAt_valid 1)
  ⟨by decide, by decide, hc.1 6 (by decide), hc.2.1 6⟩

/-! ## The number of calls for a node -/

/-- C16, refuted as stated: on Document > Paragraph > Text with the visitor that
always returns `GoToNext`, the Text node of the subtree is visited once, entering,
and never with `entering = false`. -/
theorem C16_walk_twice_counterexample :
    IsTree docHeap 0 docKids ∧ 2 ∈ 0 :: docKids.ids ∧
    (Walk docHeap (some 0) alwaysGoToNext 6).phase = .returned ∧
    (Walk docHeap (some 0) alwaysGoToNext 6).calls
      = [(0, true), (1, true), (2, true), (1, false), (0, false)] ∧
    ∀ fuel, (2, false) ∉ (Walk docHeap (some 0) alwaysGoToNext fuel).calls := by
  refine ⟨by decide, by decide, by decide, by decide, ?_⟩
  intro fuel hm
  have hp := Walk.calls_prefix_final docHeap (some 0) alwaysGoToNext 6 (by decide) fuel
  have := hp.subset hm
  revert this
  decide

theorem count_eq_zero_of_ne (x : Nat) (b : Bool) (l : List Event) (hl : ∀ e ∈ l, e.1 ≠ x) :
    l.count (x, b) = 0 := by
  rw [List.count_eq_zero]
  intro hm
  exact hl _ hm rfl

/-- C16, amended: on a finite tree whose leaves have no children and with a visitor
that always returns `GoToNext`, `Walk` calls the visitor once with `entering = true`
for every node of the tree, and once with `entering = false` for every container
and never for another node; for a container the second call comes after the first,
and no call before the first or after the second is on a node below it. -/
theorem C16_walk_calls_per_node (h : Heap) (n : Nat) (kids : Forest) (ht : IsTree h n kids)
    (hl : (Forest.cons n kids .nil).leavesBare h) (fuel : Nat)
    (hf : (recNode h n (recForest h kids)).length + 1 ≤ fuel)
    (x : Nat) (hx : x ∈ n :: kids.ids) :
    (Walk h (some n) alwaysGoToNext fuel).calls.count (x, true) = 1 ∧
    (Walk h (some n) alwaysGoToNext fuel).calls.count (x, false)
      = (if isContainer (h x) = true then 1 else 0) ∧
    (isContainer (h x) = true →
      ∃ pre mid post,
        (Walk h (some n) alwaysGoToNext fuel).calls
          = pre ++ (x, true) :: (mid ++ (x, false) :: post) ∧
        ∀ d ∈ ((Forest.cons n kids .nil).kidsOf x).ids, ∀ b,
          (d, b) ∉ pre ∧ (d, b) ∉ post) := by
  have hcalls : (Walk h (some n) alwaysGoToNext fuel).calls
      = recForest h (.cons n kids .nil) := by
    have e : travTree h alwaysGoToNext n kids = recNode h n (recForest h kids) := by
      rw [travTree_eq, travForest_alwaysGoToNext]
      simp [recForest]
    have e2 : recNode h n (recForest h kids) = recForest h (.cons n kids .nil) := by
      simp [recForest]
    rw [← e2, ← e]
    exact (walk_tree h alwaysGoToNext alwaysGoToNext_valid n kids ht fuel
      (by rw [e]; exact hf)).1
  rw [hcalls]
  have hnd := tree_nodup ht
  have hx2 : x ∈ (Forest.cons n kids .nil).ids := by
    simpa [Forest.ids] using hx
  obtain ⟨pre, post, e1, hpre, hpost⟩ := rec_split h x _ hnd hl hx2
  have hmid := rec_ids h ((Forest.cons n kids .nil).kidsOf x)
  have hxmid : ∀ e ∈ recForest h ((Forest.cons n kids .nil).kidsOf x), e.1 ≠ x := by
    intro e he e2
    exact kidsOf_not_mem x _ hnd (e2 ▸ hmid e he)
  have cpre := fun b => count_eq_zero_of_ne x b pre (fun e he => (hpre e he).1)
  have cpost := fun b => count_eq_zero_of_ne x b post (fun e he => (hpost e he).1)
  have cmid := fun b => count_eq_zero_of_ne x b _ hxmid
  rw [e1]
  by_cases hc : isContainer (h x) = true
  · rw [if_pos hc]
    refine ⟨?_, ?_, fun _ => ⟨pre, recForest h ((Forest.cons n kids .nil).kidsOf x), post,
      ?_, ?_⟩⟩
    · simp [recNode, hc, List.count_append, List.count_cons, cpre, cpost, cmid]
    · simp [recNode, hc, List.count_append, List.count_cons, cpre, cpost, cmid]
    · simp [recNode, hc]
    · intro d hd b
      exact ⟨fun hm => (hpre _ hm).2 hd, fun hm => (hpost _ hm).2 hd⟩
  · rw [if_neg hc]
    refine ⟨?_, ?_, fun e => absurd e hc⟩
    · simp [recNode, hc, List.count_append, List.count_cons, cpre, cpost]
    · simp [recNode, hc, List.count_append, List.count_cons, cpre, cpost]

/-- C16 amended, at the Text and the Paragraph of Document > Paragraph > Text. -/
theorem C16_walk_calls_per_node_witness :
    (Walk docHeap (some 0) alwaysGoToNext 6).calls.count (2, true) = 1 ∧
    (Walk docHeap (some 0) alwaysGoToNext 6).calls.count (2, false) = 0 ∧
    (Walk docHeap (some 0) alwaysGoToNext 6).calls.count (1, false) = 1 :=
  have h2 := C16_walk_calls_per_node docHeap 0 docKids (by decide) (by decide) 6 (by decide) 2
    (by decide)
  have h1 := C16_walk_calls_per_node docHeap 0 docKids (by decide) (by decide) 6 (by decide) 1
    (by decide)
  ⟨h2.1, h2.2.1, h1.2.1⟩

end Blackfriday
